import Mathlib

/-!
GSEA: Huffman coder and simplified AES block cipher.

A shallow embedding of `src/huffman.h` and `src/aes-chiper.h`.

Conventions of the embedding
* a byte (`unsigned char`, `uint8_t`) is a `Nat`; a byte vector is a `List Nat`
  and is well formed when every element is below 256 (`Bytes`);
* `unsigned int` arithmetic is written with an explicit `% 2 ^ 32`;
* a `HuffmanNode*` is a value of `HuffmanNode`: the null pointer or an owned node;
* `std::map<unsigned char, V>` is an association list kept in ascending key order;
* `std::priority_queue` is a list of the queued nodes; which of several nodes of
  minimal frequency `top()` returns is not fixed by the C++ standard and is a
  parameter `tie` of `build_tree` and `compress`;
* a read outside a vector and a dereference of the null pointer are undefined
  behaviour in C++; `decompress` reports them as `DecompressResult.fault`.
-/

set_option autoImplicit false

/-- A well-formed byte vector: every element is a value of `unsigned char`. -/
def Bytes (v : List Nat) : Prop := ∀ x ∈ v, x < 256

instance (v : List Nat) : Decidable (Bytes v) := by
  unfold Bytes; infer_instance

/-! ## `std::map<unsigned char, V>` -/

/-- The assignment `m[k] = v` on a map kept in ascending key order. -/
def map_set {V : Type} (m : List (Nat × V)) (k : Nat) (v : V) : List (Nat × V) :=
  match m with
  | [] => [(k, v)]
  | (k', v') :: rest =>
    if k < k' then (k, v) :: (k', v') :: rest
    else if k = k' then (k, v) :: rest
    else (k', v') :: map_set rest k v

/-- The read `m[k]`: the stored value, or the value-initialised `dflt` when `k` is absent. -/
def map_get {V : Type} (m : List (Nat × V)) (k : Nat) (dflt : V) : V :=
  match m with
  | [] => dflt
  | (k', v') :: rest => if k = k' then v' else map_get rest k dflt

/-! ## `struct HuffmanNode` (huffman.h:14-32) -/

/-- A value of type `HuffmanNode*`: the null pointer, or a node with its
`data`, `frequency`, `left` and `right` members. -/
inductive HuffmanNode where
  | nullptr : HuffmanNode
  | node (data : Nat) (frequency : Nat) (left right : HuffmanNode) : HuffmanNode
  deriving DecidableEq, Repr

namespace HuffmanNode

/-- Leaf constructor `HuffmanNode(unsigned char d, unsigned int f)`. -/
def leaf (d f : Nat) : HuffmanNode := node d f nullptr nullptr

/-- Internal constructor `HuffmanNode(unsigned int f, HuffmanNode* l, HuffmanNode* r)`. -/
def internal (f : Nat) (l r : HuffmanNode) : HuffmanNode := node 0 f l r

/-- The member `frequency` of a node (never read through a null pointer by the code). -/
def frequency : HuffmanNode → Nat
  | nullptr => 0
  | node _ f _ _ => f

/-- Method `is_leaf()` (huffman.h:29-31): both children are null. -/
def is_leaf : HuffmanNode → Bool
  | node _ _ nullptr nullptr => true
  | _ => false

end HuffmanNode

namespace HuffmanCoder

open HuffmanNode

/-! ### The priority queue of `build_tree` -/

/-- The least frequency among the queued nodes (`CompareNode` orders by `frequency` only). -/
def min_frequency : List HuffmanNode → Nat
  | [] => 0
  | [n] => n.frequency
  | n :: rest => min n.frequency (min_frequency rest)

/-- Positions of the queued nodes that `top()` may return: those of least frequency. -/
def top_candidates (q : List HuffmanNode) : List Nat :=
  (List.range q.length).filter (fun i => (q.getD i nullptr).frequency = min_frequency q)

/-- Position of the node `top()` returns; `tie` selects among the candidates. -/
def top_index (tie : List HuffmanNode → Nat) (q : List HuffmanNode) : Nat :=
  (top_candidates q).getD (tie q % (top_candidates q).length) 0

/-- The pair `pq.top(); pq.pop();`: the extracted node and the remaining queue. -/
def pq_pop (tie : List HuffmanNode → Nat) (q : List HuffmanNode) :
    HuffmanNode × List HuffmanNode :=
  (q.getD (top_index tie q) nullptr, q.eraseIdx (top_index tie q))

/-- The `while (pq.size() > 1)` loop of `build_tree` (huffman.h:92-105);
`fuel` bounds the number of iterations. -/
def build_loop (tie : List HuffmanNode → Nat) : Nat → List HuffmanNode → List HuffmanNode
  | 0, q => q
  | fuel + 1, q =>
    if q.length > 1 then
      let left := (pq_pop tie q).1
      let q1 := (pq_pop tie q).2
      let right := (pq_pop tie q1).1
      let q2 := (pq_pop tie q1).2
      let sum_freq := (left.frequency + right.frequency) % 2 ^ 32
      build_loop tie fuel (q2 ++ [internal sum_freq left right])
    else q

/-- Function `build_tree` (huffman.h:74-109). The table is never empty when
`compress` calls it; on an empty table the C++ reads `top()` of an empty queue,
which the model renders as the null pointer. -/
def build_tree (tie : List HuffmanNode → Nat) (frequencies : List (Nat × Nat)) : HuffmanNode :=
  let pq := frequencies.map (fun pair => leaf pair.1 pair.2)
  if pq.length = 1 then
    let single := (pq_pop tie pq).1
    internal single.frequency single nullptr
  else
    (pq_pop tie (build_loop tie pq.length pq)).1

/-- Function `generate_codes` (huffman.h:59-71), threading the map `huffman_codes`. -/
def generate_codes : HuffmanNode → List Char → List (Nat × List Char) → List (Nat × List Char)
  | nullptr, _, codes => codes
  | node d f l r, code, codes =>
    if (node d f l r).is_leaf then map_set codes d code
    else generate_codes r (code ++ ['1']) (generate_codes l (code ++ ['0']) codes)

/-- Function `serialize_tree` (huffman.h:113-128), threading the vector `output`. -/
def serialize_tree : HuffmanNode → List Nat → List Nat
  | nullptr, output => output
  | node d f l r, output =>
    if (node d f l r).is_leaf then output ++ [1, d]
    else serialize_tree r (serialize_tree l (output ++ [0]))

/-- Function `deserialize_tree` (huffman.h:131-147) with a recursion bound: the
returned pair is the node and the updated `index`; `none` only when `fuel` is used up. -/
def deserialize_tree_fuel : Nat → List Nat → Nat → Option (HuffmanNode × Nat)
  | 0, _, _ => none
  | fuel + 1, data, index =>
    if index ≥ data.length then some (nullptr, index)
    else
      let marker := data.getD index 0
      let index := index + 1
      if marker = 1 then
        if index ≥ data.length then some (nullptr, index)
        else some (leaf (data.getD index 0) 0, index + 1)
      else
        match deserialize_tree_fuel fuel data index with
        | none => none
        | some (left, index) =>
          match deserialize_tree_fuel fuel data index with
          | none => none
          | some (right, index) => some (internal 0 left right, index)

/-- Function `deserialize_tree`: every call consumes a byte or returns, so
`data.length - index + 1` nested calls always suffice (`deserialize_tree_fuel_isSome`). -/
def deserialize_tree (data : List Nat) (index : Nat) : Option (HuffmanNode × Nat) :=
  deserialize_tree_fuel (data.length - index + 1) data index

/-- One payload byte of `compress` (huffman.h:219-225): bit `j` of the byte,
counted from the most significant, is set when `encoded_bits[i + j] == '1'`. -/
def pack_byte (encoded_bits : List Char) (i : Nat) : Nat :=
  (List.range 8).foldl
    (fun byte j =>
      if i + j < encoded_bits.length ∧ encoded_bits.getD (i + j) '0' = '1'
      then byte ||| (1 <<< (7 - j)) else byte)
    0

/-- The packing loop of `compress` (huffman.h:218-226), `i = 0, 8, 16, ...`. -/
def pack_bits (encoded_bits : List Char) : List Nat :=
  (List.range ((encoded_bits.length + 7) / 8)).map (fun k => pack_byte encoded_bits (8 * k))

/-- The frequency table of `compress` (huffman.h:168-171): `frequencies[byte]++`
on `unsigned int` counters. -/
def count_frequencies (input : List Nat) : List (Nat × Nat) :=
  input.foldl (fun m byte => map_set m byte ((map_get m byte 0 + 1) % 2 ^ 32)) []

/-- The four header bytes of `compress` (huffman.h:198-202). -/
def size_header (tree_size : Nat) : List Nat :=
  [(tree_size >>> 24) &&& 0xFF, (tree_size >>> 16) &&& 0xFF,
   (tree_size >>> 8) &&& 0xFF, tree_size &&& 0xFF]

/-- The code-bit string of `compress` (huffman.h:208-211). -/
def encode (huffman_codes : List (Nat × List Char)) (input : List Nat) : List Char :=
  input.flatMap (fun byte => map_get huffman_codes byte [])

/-- Function `compress` (huffman.h:159-234). -/
def compress (tie : List HuffmanNode → Nat) (input : List Nat) : List Nat :=
  if input = [] then []
  else
    let frequencies := count_frequencies input
    let root := build_tree tie frequencies
    let huffman_codes := generate_codes root [] []
    let tree_data := serialize_tree root []
    let tree_size := tree_data.length % 2 ^ 32
    let encoded_bits := encode huffman_codes input
    let padding := ((8 - encoded_bits.length % 8) % 8) % 256
    size_header tree_size ++ tree_data ++ [padding] ++ pack_bits encoded_bits

/-- The diagnostics `decompress` prints before returning the empty vector. -/
inductive DecompressError where
  | too_small
  | invalid_tree_size
  | tree_not_rebuilt
  deriving DecidableEq, Repr

/-- The undefined behaviour a run of `decompress` can reach. -/
inductive Fault where
  | read_out_of_bounds (index : Nat)
  | null_dereference
  deriving DecidableEq, Repr

/-- How a call of `decompress` ends. -/
inductive DecompressResult where
  | decoded (output : List Nat)
  | error (e : DecompressError)
  | fault (f : Fault)
  deriving DecidableEq, Repr

/-- One iteration of the bit loop of `decompress` (huffman.h:287-303) for the
bit value `bit`: the state is `current` and `output`. -/
def decode_bit (root : HuffmanNode) (bit : Bool) (state : HuffmanNode × List Nat) :
    Except Fault (HuffmanNode × List Nat) :=
  match state.1 with
  | nullptr => .error .null_dereference
  | node _ _ l r =>
    match (if bit then r else l) with
    | nullptr => .error .null_dereference
    | node d f l' r' =>
      if (node d f l' r').is_leaf then .ok (root, state.2 ++ [d])
      else .ok (node d f l' r', state.2)

/-- The bit loop `for (int j = 0; j < bits_to_process; j++)` over one byte, from bit `j` on. -/
def decode_byte (root : HuffmanNode) (byte : Nat) :
    Nat → Nat → HuffmanNode × List Nat → Except Fault (HuffmanNode × List Nat)
  | 0, _, state => .ok state
  | count + 1, j, state =>
    match decode_bit root (decide (byte &&& (1 <<< (7 - j)) ≠ 0)) state with
    | .error f => .error f
    | .ok state => decode_byte root byte count (j + 1) state

/-- The byte loop `for (size_t i = index; i < input.size(); i++)` (huffman.h:277-304),
`count` iterations from position `i` on. -/
def decode_loop (root : HuffmanNode) (input : List Nat) (padding : Nat) :
    Nat → Nat → HuffmanNode × List Nat → Except Fault (HuffmanNode × List Nat)
  | 0, _, state => .ok state
  | count + 1, i, state =>
    let byte := input.getD i 0
    let bits_to_process : Int := if i = input.length - 1 then 8 - (padding : Int) else 8
    match decode_byte root byte bits_to_process.toNat 0 state with
    | .error f => .error f
    | .ok state => decode_loop root input padding count (i + 1) state

/-- The tree length read by `decompress` (huffman.h:248-252). -/
def read_tree_size (input : List Nat) : Nat :=
  ((input.getD 0 0 <<< 24) ||| (input.getD 1 0 <<< 16) ||| (input.getD 2 0 <<< 8)
    ||| input.getD 3 0) % 2 ^ 32

/-- Function `decompress` (huffman.h:237-310). The recursion bound of `deserialize_tree`
is never hit (`deserialize_tree_isSome`), so its `none` branch is dead; the read of the
padding count `input[index++]` past the end of the vector is reported as a fault. -/
def decompress (input : List Nat) : DecompressResult :=
  if input.length < 5 then .error .too_small
  else
    let index := 4
    let tree_size := read_tree_size input
    if index + tree_size ≥ input.length then .error .invalid_tree_size
    else
      match deserialize_tree input index with
      | none => .error .tree_not_rebuilt
      | some (root, index) =>
        if root = nullptr then .error .tree_not_rebuilt
        else if index ≥ input.length then .fault (.read_out_of_bounds index)
        else
          let padding := input.getD index 0
          let index := index + 1
          match decode_loop root input padding (input.length - index) index (root, []) with
          | .error f => .fault f
          | .ok state => .decoded state.2

end HuffmanCoder

/-! ## `class AESCipher` (aes-chiper.h) -/

/-- The points where the constructor leaves the meaning of the C++ to the target:
whether plain `char` is signed, and the value of a 32-bit `hash >> n` with `n ≥ 32`
(undefined behaviour, reached for every key shorter than 16 characters). -/
structure Target where
  char_signed : Bool
  wide_shift : Nat → Nat → Nat

/-- The usual x86-64 target: `char` is signed and the shift count is taken modulo 32. -/
def x86_64 : Target := ⟨true, fun hash n => hash >>> (n % 32)⟩

/-- What a public method of `AESCipher` hands back: the returned vector and the
message it wrote to `std::cerr`, if any. -/
inductive Diagnostic where
  | empty_input
  | invalid_size
  | invalid_padding
  | corrupt_padding
  deriving DecidableEq, Repr

/-- The returned vector of a method together with its diagnostic. -/
structure Outcome where
  value : List Nat
  diagnostic : Option Diagnostic
  deriving DecidableEq, Repr

/-- An `AESCipher` object: its only data member is `key_schedule`. -/
structure AESCipher where
  key_schedule : List Nat
  deriving DecidableEq, Repr

namespace AESCipher

/-- Constant `BLOCK_SIZE`. -/
def BLOCK_SIZE : Nat := 16
/-- Constant `KEY_SIZE`. -/
def KEY_SIZE : Nat := 16
/-- Constant `NUM_ROUNDS`. -/
def NUM_ROUNDS : Nat := 4

/-- Table `AESCipher::SBOX` (aes-chiper.h:485-502). -/
def SBOX : List Nat :=
  [
   0x63, 0x7c, 0x77, 0x7b, 0xf2, 0x6b, 0x6f, 0xc5, 0x30, 0x01, 0x67, 0x2b, 0xfe, 0xd7, 0xab, 0x76,
   0xca, 0x82, 0xc9, 0x7d, 0xfa, 0x59, 0x47, 0xf0, 0xad, 0xd4, 0xa2, 0xaf, 0x9c, 0xa4, 0x72, 0xc0,
   0xb7, 0xfd, 0x93, 0x26, 0x36, 0x3f, 0xf7, 0xcc, 0x34, 0xa5, 0xe5, 0xf1, 0x71, 0xd8, 0x31, 0x15,
   0x04, 0xc7, 0x23, 0xc3, 0x18, 0x96, 0x05, 0x9a, 0x07, 0x12, 0x80, 0xe2, 0xeb, 0x27, 0xb2, 0x75,
   0x09, 0x83, 0x2c, 0x1a, 0x1b, 0x6e, 0x5a, 0xa0, 0x52, 0x3b, 0xd6, 0xb3, 0x29, 0xe3, 0x2f, 0x84,
   0x53, 0xd1, 0x00, 0xed, 0x20, 0xfc, 0xb1, 0x5b, 0x6a, 0xcb, 0xbe, 0x39, 0x4a, 0x4c, 0x58, 0xcf,
   0xd0, 0xef, 0xaa, 0xfb, 0x43, 0x4d, 0x33, 0x85, 0x45, 0xf9, 0x02, 0x7f, 0x50, 0x3c, 0x9f, 0xa8,
   0x51, 0xa3, 0x40, 0x8f, 0x92, 0x9d, 0x38, 0xf5, 0xbc, 0xb6, 0xda, 0x21, 0x10, 0xff, 0xf3, 0xd2,
   0xcd, 0x0c, 0x13, 0xec, 0x5f, 0x97, 0x44, 0x17, 0xc4, 0xa7, 0x7e, 0x3d, 0x64, 0x5d, 0x19, 0x73,
   0x60, 0x81, 0x4f, 0xdc, 0x22, 0x2a, 0x90, 0x88, 0x46, 0xee, 0xb8, 0x14, 0xde, 0x5e, 0x0b, 0xdb,
   0xe0, 0x32, 0x3a, 0x0a, 0x49, 0x06, 0x24, 0x5c, 0xc2, 0xd3, 0xac, 0x62, 0x91, 0x95, 0xe4, 0x79,
   0xe7, 0xc8, 0x37, 0x6d, 0x8d, 0xd5, 0x4e, 0xa9, 0x6c, 0x56, 0xf4, 0xea, 0x65, 0x7a, 0xae, 0x08,
   0xba, 0x78, 0x25, 0x2e, 0x1c, 0xa6, 0xb4, 0xc6, 0xe8, 0xdd, 0x74, 0x1f, 0x4b, 0xbd, 0x8b, 0x8a,
   0x70, 0x3e, 0xb5, 0x66, 0x48, 0x03, 0xf6, 0x0e, 0x61, 0x35, 0x57, 0xb9, 0x86, 0xc1, 0x1d, 0x9e,
   0xe1, 0xf8, 0x98, 0x11, 0x69, 0xd9, 0x8e, 0x94, 0x9b, 0x1e, 0x87, 0xe9, 0xce, 0x55, 0x28, 0xdf,
   0x8c, 0xa1, 0x89, 0x0d, 0xbf, 0xe6, 0x42, 0x68, 0x41, 0x99, 0x2d, 0x0f, 0xb0, 0x54, 0xbb, 0x16
  ]

/-- Table `AESCipher::INV_SBOX` (aes-chiper.h:504-521). -/
def INV_SBOX : List Nat :=
  [
   0x52, 0x09, 0x6a, 0xd5, 0x30, 0x36, 0xa5, 0x38, 0xbf, 0x40, 0xa3, 0x9e, 0x81, 0xf3, 0xd7, 0xfb,
   0x7c, 0xe3, 0x39, 0x82, 0x9b, 0x2f, 0xff, 0x87, 0x34, 0x8e, 0x43, 0x44, 0xc4, 0xde, 0xe9, 0xcb,
   0x54, 0x7b, 0x94, 0x32, 0xa6, 0xc2, 0x23, 0x3d, 0xee, 0x4c, 0x95, 0x0b, 0x42, 0xfa, 0xc3, 0x4e,
   0x08, 0x2e, 0xa1, 0x66, 0x28, 0xd9, 0x24, 0xb2, 0x76, 0x5b, 0xa2, 0x49, 0x6d, 0x8b, 0xd1, 0x25,
   0x72, 0xf8, 0xf6, 0x64, 0x86, 0x68, 0x98, 0x16, 0xd4, 0xa4, 0x5c, 0xcc, 0x5d, 0x65, 0xb6, 0x92,
   0x6c, 0x70, 0x48, 0x50, 0xfd, 0xed, 0xb9, 0xda, 0x5e, 0x15, 0x46, 0x57, 0xa7, 0x8d, 0x9d, 0x84,
   0x90, 0xd8, 0xab, 0x00, 0x8c, 0xbc, 0xd3, 0x0a, 0xf7, 0xe4, 0x58, 0x05, 0xb8, 0xb3, 0x45, 0x06,
   0xd0, 0x2c, 0x1e, 0x8f, 0xca, 0x3f, 0x0f, 0x02, 0xc1, 0xaf, 0xbd, 0x03, 0x01, 0x13, 0x8a, 0x6b,
   0x3a, 0x91, 0x11, 0x41, 0x4f, 0x67, 0xdc, 0xea, 0x97, 0xf2, 0xcf, 0xce, 0xf0, 0xb4, 0xe6, 0x73,
   0x96, 0xac, 0x74, 0x22, 0xe7, 0xad, 0x35, 0x85, 0xe2, 0xf9, 0x37, 0xe8, 0x1c, 0x75, 0xdf, 0x6e,
   0x47, 0xf1, 0x1a, 0x71, 0x1d, 0x29, 0xc5, 0x89, 0x6f, 0xb7, 0x62, 0x0e, 0xaa, 0x18, 0xbe, 0x1b,
   0xfc, 0x56, 0x3e, 0x4b, 0xc6, 0xd2, 0x79, 0x20, 0x9a, 0xdb, 0xc0, 0xfe, 0x78, 0xcd, 0x5a, 0xf4,
   0x1f, 0xdd, 0xa8, 0x33, 0x88, 0x07, 0xc7, 0x31, 0xb1, 0x12, 0x10, 0x59, 0x27, 0x80, 0xec, 0x5f,
   0x60, 0x51, 0x7f, 0xa9, 0x19, 0xb5, 0x4a, 0x0d, 0x2d, 0xe5, 0x7a, 0x9f, 0x93, 0xc9, 0x9c, 0xef,
   0xa0, 0xe0, 0x3b, 0x4d, 0xae, 0x2a, 0xf5, 0xb0, 0xc8, 0xeb, 0xbb, 0x3c, 0x83, 0x53, 0x99, 0x61,
   0x17, 0x2b, 0x04, 0x7e, 0xba, 0x77, 0xd6, 0x26, 0xe1, 0x69, 0x14, 0x63, 0x55, 0x21, 0x0c, 0x7d
  ]

/-- Function `rotate_left` (aes-chiper.h:47-50); the result is truncated to `uint8_t`. -/
def rotate_left (value positions : Nat) : Nat :=
  let positions := positions % 8
  ((value <<< positions) ||| (value >>> (8 - positions))) % 256

/-- The loop body of `galois_multiply`, `n` iterations from the state `(a, b, result)`. -/
def galois_loop : Nat → Nat → Nat → Nat → Nat
  | 0, _, _, result => result
  | n + 1, a, b, result =>
    let result := if b &&& 1 ≠ 0 then result ^^^ a else result
    let high_bit := a &&& 0x80
    let a := (a <<< 1) % 256
    let a := if high_bit ≠ 0 then a ^^^ 0x1B else a
    galois_loop n a (b >>> 1) result

/-- Function `galois_multiply` (aes-chiper.h:56-73). -/
def galois_multiply (a b : Nat) : Nat := galois_loop 8 a b 0

/-- Function `expand_key` (aes-chiper.h:83-109): the schedule after rounds `1..NUM_ROUNDS`. -/
def expand_key (user_key : List Nat) : List Nat :=
  (List.range' 1 NUM_ROUNDS).foldl
    (fun key_schedule round =>
      key_schedule ++ (List.range 16).map
        (fun i => SBOX.getD (rotate_left (key_schedule.getD ((round - 1) * 16 + i) 0) round) 0
                    ^^^ round))
    user_key

/-- The value a `char` of the user key contributes to the `uint32_t` sum of the hash. -/
def char_value (t : Target) (c : Nat) : Nat :=
  if t.char_signed ∧ c % 256 ≥ 128 then c % 256 + 2 ^ 32 - 256 else c % 256

/-- The hash of the constructor (aes-chiper.h:379-382). -/
def key_hash (t : Target) (user_key : List Nat) : Nat :=
  user_key.foldl
    (fun hash c => (((hash <<< 5) % 2 ^ 32 + hash) % 2 ^ 32 + char_value t c) % 2 ^ 32) 5381

/-- The 32-bit shift `hash >> n` of the constructor (aes-chiper.h:384). -/
def shift_right32 (t : Target) (hash n : Nat) : Nat :=
  if n < 32 then hash >>> n else t.wide_shift hash n % 2 ^ 32

/-- The 16-byte key prepared by the constructor (aes-chiper.h:371-386). -/
def prepare_key (t : Target) (user_key : List Nat) : List Nat :=
  (List.range KEY_SIZE).map
    (fun i =>
      if i < user_key.length then user_key.getD i 0 % 256
      else shift_right32 t (key_hash t user_key) (i * 8) &&& 0xFF)

/-- Constructor `AESCipher(const std::string& user_key)` (aes-chiper.h:367-392). -/
def new (t : Target) (user_key : List Nat) : AESCipher :=
  ⟨expand_key (prepare_key t user_key)⟩

/-- Function `sub_bytes` (aes-chiper.h:119-123). -/
def sub_bytes (state : List Nat) : List Nat := state.map (fun x => SBOX.getD x 0)

/-- Function `inv_sub_bytes` (aes-chiper.h:128-132). -/
def inv_sub_bytes (state : List Nat) : List Nat := state.map (fun x => INV_SBOX.getD x 0)

/-- Function `shift_rows` (aes-chiper.h:148-172) on a 16-byte state. -/
def shift_rows : List Nat → List Nat
  | [s0, s1, s2, s3, s4, s5, s6, s7, s8, s9, s10, s11, s12, s13, s14, s15] =>
    [s0, s1, s2, s3, s5, s6, s7, s4, s10, s11, s8, s9, s15, s12, s13, s14]
  | state => state

/-- Function `inv_shift_rows` (aes-chiper.h:177-201) on a 16-byte state. -/
def inv_shift_rows : List Nat → List Nat
  | [s0, s1, s2, s3, s4, s5, s6, s7, s8, s9, s10, s11, s12, s13, s14, s15] =>
    [s0, s1, s2, s3, s7, s4, s5, s6, s10, s11, s8, s9, s13, s14, s15, s12]
  | state => state

/-- One iteration of the loop of `mix_columns` (aes-chiper.h:216-226). -/
def mix_column (a b c d : Nat) : List Nat :=
  [galois_multiply a 2 ^^^ galois_multiply b 3 ^^^ c ^^^ d,
   a ^^^ galois_multiply b 2 ^^^ galois_multiply c 3 ^^^ d,
   a ^^^ b ^^^ galois_multiply c 2 ^^^ galois_multiply d 3,
   galois_multiply a 3 ^^^ b ^^^ c ^^^ galois_multiply d 2]

/-- Function `mix_columns` (aes-chiper.h:214-228): `col = 0..3` acts on bytes `4*col .. 4*col+3`. -/
def mix_columns : List Nat → List Nat
  | [s0, s1, s2, s3, s4, s5, s6, s7, s8, s9, s10, s11, s12, s13, s14, s15] =>
    mix_column s0 s1 s2 s3 ++ mix_column s4 s5 s6 s7 ++
      mix_column s8 s9 s10 s11 ++ mix_column s12 s13 s14 s15
  | state => state

/-- One iteration of the loop of `inv_mix_columns` (aes-chiper.h:235-249). -/
def inv_mix_column (a b c d : Nat) : List Nat :=
  [galois_multiply a 14 ^^^ galois_multiply b 11 ^^^ galois_multiply c 13 ^^^ galois_multiply d 9,
   galois_multiply a 9 ^^^ galois_multiply b 14 ^^^ galois_multiply c 11 ^^^ galois_multiply d 13,
   galois_multiply a 13 ^^^ galois_multiply b 9 ^^^ galois_multiply c 14 ^^^ galois_multiply d 11,
   galois_multiply a 11 ^^^ galois_multiply b 13 ^^^ galois_multiply c 9 ^^^ galois_multiply d 14]

/-- Function `inv_mix_columns` (aes-chiper.h:233-251). -/
def inv_mix_columns : List Nat → List Nat
  | [s0, s1, s2, s3, s4, s5, s6, s7, s8, s9, s10, s11, s12, s13, s14, s15] =>
    inv_mix_column s0 s1 s2 s3 ++ inv_mix_column s4 s5 s6 s7 ++
      inv_mix_column s8 s9 s10 s11 ++ inv_mix_column s12 s13 s14 s15
  | state => state

/-- Function `add_round_key` (aes-chiper.h:261-266). -/
def add_round_key (self : AESCipher) (state : List Nat) (round : Nat) : List Nat :=
  state.mapIdx (fun i x => x ^^^ self.key_schedule.getD (round * 16 + i) 0)

/-- Function `encrypt_block` (aes-chiper.h:275-291). -/
def encrypt_block (self : AESCipher) (block : List Nat) : List Nat :=
  let block := self.add_round_key block 0
  let block := (List.range' 1 (NUM_ROUNDS - 1)).foldl
    (fun block round => self.add_round_key (mix_columns (shift_rows (sub_bytes block))) round)
    block
  self.add_round_key (shift_rows (sub_bytes block)) NUM_ROUNDS

/-- Function `decrypt_block` (aes-chiper.h:297-313). -/
def decrypt_block (self : AESCipher) (block : List Nat) : List Nat :=
  let block := inv_sub_bytes (inv_shift_rows (self.add_round_key block NUM_ROUNDS))
  let block := (List.range' 1 (NUM_ROUNDS - 1)).reverse.foldl
    (fun block round =>
      inv_sub_bytes (inv_shift_rows (inv_mix_columns (self.add_round_key block round))))
    block
  self.add_round_key block 0

/-- Function `add_padding` (aes-chiper.h:323-333): the loop pushes `padding_length`
bytes of value `padding_length`. -/
def add_padding (data : List Nat) : List Nat :=
  let padding_length := BLOCK_SIZE - data.length % BLOCK_SIZE
  (List.range padding_length).foldl (fun padded _ => padded ++ [padding_length]) data

/-- Function `remove_padding` (aes-chiper.h:338-360). Its only caller passes a
buffer of at least 16 bytes, so `data.size() - i` never wraps. -/
def remove_padding (data : List Nat) : Outcome :=
  if data = [] then ⟨data, none⟩
  else
    let padding_length := data.getD (data.length - 1) 0
    if padding_length > BLOCK_SIZE ∨ padding_length = 0 then ⟨data, some .invalid_padding⟩
    else if (List.range' 1 padding_length).any
        (fun i => data.getD (data.length - i) 0 ≠ padding_length) then
      ⟨data, some .corrupt_padding⟩
    else ⟨data.take (data.length - padding_length), none⟩

/-- The copy `block[j] = data[i + j]`, `j = 0..15`, of `encrypt` and `decrypt`. -/
def block_at (data : List Nat) (i : Nat) : List Nat :=
  (List.range BLOCK_SIZE).map (fun j => data.getD (i + j) 0)

/-- The block loop `for (size_t i = 0; i < data.size(); i += BLOCK_SIZE)` shared by
`encrypt` and `decrypt`: each block is transformed by `f` and appended to the result. -/
def process_blocks (f : List Nat → List Nat) (data : List Nat) : List Nat :=
  ((List.range ((data.length + (BLOCK_SIZE - 1)) / BLOCK_SIZE)).map
    (fun k => f (block_at data (BLOCK_SIZE * k)))).flatten

/-- Function `encrypt` (aes-chiper.h:397-433). -/
def encrypt (self : AESCipher) (plaintext : List Nat) : Outcome :=
  if plaintext = [] then ⟨[], some .empty_input⟩
  else ⟨process_blocks self.encrypt_block (add_padding plaintext), none⟩

/-- Function `decrypt` (aes-chiper.h:438-478). -/
def decrypt (self : AESCipher) (ciphertext : List Nat) : Outcome :=
  if ciphertext = [] then ⟨[], some .empty_input⟩
  else if ciphertext.length % BLOCK_SIZE ≠ 0 then ⟨[], some .invalid_size⟩
  else remove_padding (process_blocks self.decrypt_block ciphertext)

end AESCipher

/-! ## Auxiliary definitions of the proofs -/

namespace AESCipher

/-- The doubling of `a` in one iteration of the loop of `galois_multiply`
(aes-chiper.h:64-68). -/
def xtime (a : Nat) : Nat :=
  if a &&& 0x80 ≠ 0 then (a <<< 1) % 256 ^^^ 0x1B else (a <<< 1) % 256

/-- A cipher state or block: sixteen bytes. -/
def IsBlock (s : List Nat) : Prop := s.length = 16 ∧ Bytes s

end AESCipher

namespace HuffmanCoder

/-- The big-endian value of the first four bytes of a stream, as the format describes
the tree-length field. -/
def big_endian32 (input : List Nat) : Nat :=
  input.getD 0 0 * 2 ^ 24 + input.getD 1 0 * 2 ^ 16 + input.getD 2 0 * 2 ^ 8 + input.getD 3 0

/-- A tree in which every node is a leaf or has two subtrees. -/
inductive Full : HuffmanNode → Prop where
  | leaf (d f : Nat) : Full (HuffmanNode.node d f HuffmanNode.nullptr HuffmanNode.nullptr)
  | internal (d f : Nat) (l r : HuffmanNode) : Full l → Full r → Full (HuffmanNode.node d f l r)

/-- The byte values held by the leaves of a tree, left to right. -/
def leaves : HuffmanNode → List Nat
  | HuffmanNode.nullptr => []
  | HuffmanNode.node d f l r =>
    if (HuffmanNode.node d f l r).is_leaf then [d] else leaves l ++ leaves r

/-- The tree as `deserialize_tree` rebuilds it: same shape and leaf values, every
`frequency` and the `data` of every internal node zero. -/
def strip : HuffmanNode → HuffmanNode
  | HuffmanNode.nullptr => HuffmanNode.nullptr
  | HuffmanNode.node d f l r =>
    if (HuffmanNode.node d f l r).is_leaf then HuffmanNode.leaf d 0
    else HuffmanNode.internal 0 (strip l) (strip r)

/-- The branch choices, `'0'` for left and `'1'` for right, from the root of a tree
down to a leaf holding `d` (the right subtree is searched first, as the later
assignment of `generate_codes` wins). -/
def path : HuffmanNode → Nat → List Char
  | HuffmanNode.nullptr, _ => []
  | HuffmanNode.node d' f l r, d =>
    if (HuffmanNode.node d' f l r).is_leaf then []
    else if d ∈ leaves r then '1' :: path r d else '0' :: path l d

/-- The bit loop of `decompress` run over a list of bit values. -/
def walk (root : HuffmanNode) :
    List Bool → HuffmanNode × List Nat → Except Fault (HuffmanNode × List Nat)
  | [], state => .ok state
  | bit :: bits, state =>
    match decode_bit root bit state with
    | .error f => .error f
    | .ok state => walk root bits state

/-- The keys of a `std::map`, in iteration order. -/
def keys {V : Type} (m : List (Nat × V)) : List Nat := m.map Prod.fst

end HuffmanCoder

/-! ## `class XORCipher` (xor.h) -/

/-- An `XORCipher` object: the user key and the expanded key. -/
structure XORCipher where
  key : List Nat
  expanded_key : List Nat
  deriving DecidableEq, Repr

namespace XORCipher

/-- Constant `KEY_EXPANSION_SIZE`. -/
def KEY_EXPANSION_SIZE : Nat := 256

/-- The inner loop of `expand_key` (xor.h:32-35) for the index `i`, on `uint32_t`. -/
def mix_key (t : Target) (key : List Nat) (i hash : Nat) : Nat :=
  key.foldl
    (fun hash c =>
      ((((hash <<< 5) % 2 ^ 32 + hash) % 2 ^ 32 + AESCipher.char_value t c) % 2 ^ 32 + i)
        % 2 ^ 32)
    hash

/-- Function `expand_key` (xor.h:18-45): the vector is resized to 256 zero bytes and,
unless the key is empty, every entry is assigned from the running hash. -/
def expand_key (t : Target) (key : List Nat) : List Nat :=
  if key = [] then List.replicate KEY_EXPANSION_SIZE 0
  else
    ((List.range KEY_EXPANSION_SIZE).foldl
      (fun (acc : Nat × List Nat) i =>
        let hash := mix_key t key i acc.1
        (((hash >>> 8) ||| (hash <<< 24)) % 2 ^ 32, acc.2.set i (hash &&& 0xFF)))
      (5381, List.replicate KEY_EXPANSION_SIZE 0)).2

/-- Constructor `XORCipher(const std::string& user_key)` (xor.h:113-115). -/
def new (t : Target) (user_key : List Nat) : XORCipher :=
  ⟨user_key, expand_key t user_key⟩

/-- Function `rotate_left` (xor.h:48-51); the result is truncated to `unsigned char`. -/
def rotate_left (value positions : Nat) : Nat :=
  let positions := positions % 8
  ((value <<< positions) ||| (value >>> (8 - positions))) % 256

/-- Function `rotate_right` (xor.h:54-57); the result is truncated to `unsigned char`. -/
def rotate_right (value positions : Nat) : Nat :=
  let positions := positions % 8
  ((value >>> positions) ||| (value <<< (8 - positions))) % 256

/-- Table `sbox` of `apply_sbox` (xor.h:64-81). -/
def sbox : List Nat :=
  [
   0x63, 0x7c, 0x77, 0x7b, 0xf2, 0x6b, 0x6f, 0xc5, 0x30, 0x01, 0x67, 0x2b, 0xfe, 0xd7, 0xab, 0x76,
   0xca, 0x82, 0xc9, 0x7d, 0xfa, 0x59, 0x47, 0xf0, 0xad, 0xd4, 0xa2, 0xaf, 0x9c, 0xa4, 0x72, 0xc0,
   0xb7, 0xfd, 0x93, 0x26, 0x36, 0x3f, 0xf7, 0xcc, 0x34, 0xa5, 0xe5, 0xf1, 0x71, 0xd8, 0x31, 0x15,
   0x04, 0xc7, 0x23, 0xc3, 0x18, 0x96, 0x05, 0x9a, 0x07, 0x12, 0x80, 0xe2, 0xeb, 0x27, 0xb2, 0x75,
   0x09, 0x83, 0x2c, 0x1a, 0x1b, 0x6e, 0x5a, 0xa0, 0x52, 0x3b, 0xd6, 0xb3, 0x29, 0xe3, 0x2f, 0x84,
   0x53, 0xd1, 0x00, 0xed, 0x20, 0xfc, 0xb1, 0x5b, 0x6a, 0xcb, 0xbe, 0x39, 0x4a, 0x4c, 0x58, 0xcf,
   0xd0, 0xef, 0xaa, 0xfb, 0x43, 0x4d, 0x33, 0x85, 0x45, 0xf9, 0x02, 0x7f, 0x50, 0x3c, 0x9f, 0xa8,
   0x51, 0xa3, 0x40, 0x8f, 0x92, 0x9d, 0x38, 0xf5, 0xbc, 0xb6, 0xda, 0x21, 0x10, 0xff, 0xf3, 0xd2,
   0xcd, 0x0c, 0x13, 0xec, 0x5f, 0x97, 0x44, 0x17, 0xc4, 0xa7, 0x7e, 0x3d, 0x64, 0x5d, 0x19, 0x73,
   0x60, 0x81, 0x4f, 0xdc, 0x22, 0x2a, 0x90, 0x88, 0x46, 0xee, 0xb8, 0x14, 0xde, 0x5e, 0x0b, 0xdb,
   0xe0, 0x32, 0x3a, 0x0a, 0x49, 0x06, 0x24, 0x5c, 0xc2, 0xd3, 0xac, 0x62, 0x91, 0x95, 0xe4, 0x79,
   0xe7, 0xc8, 0x37, 0x6d, 0x8d, 0xd5, 0x4e, 0xa9, 0x6c, 0x56, 0xf4, 0xea, 0x65, 0x7a, 0xae, 0x08,
   0xba, 0x78, 0x25, 0x2e, 0x1c, 0xa6, 0xb4, 0xc6, 0xe8, 0xdd, 0x74, 0x1f, 0x4b, 0xbd, 0x8b, 0x8a,
   0x70, 0x3e, 0xb5, 0x66, 0x48, 0x03, 0xf6, 0x0e, 0x61, 0x35, 0x57, 0xb9, 0x86, 0xc1, 0x1d, 0x9e,
   0xe1, 0xf8, 0x98, 0x11, 0x69, 0xd9, 0x8e, 0x94, 0x9b, 0x1e, 0x87, 0xe9, 0xce, 0x55, 0x28, 0xdf,
   0x8c, 0xa1, 0x89, 0x0d, 0xbf, 0xe6, 0x42, 0x68, 0x41, 0x99, 0x2d, 0x0f, 0xb0, 0x54, 0xbb, 0x16
  ]

/-- Table `inv_sbox` of `apply_inverse_sbox` (xor.h:89-106). -/
def inv_sbox : List Nat :=
  [
   0x52, 0x09, 0x6a, 0xd5, 0x30, 0x36, 0xa5, 0x38, 0xbf, 0x40, 0xa3, 0x9e, 0x81, 0xf3, 0xd7, 0xfb,
   0x7c, 0xe3, 0x39, 0x82, 0x9b, 0x2f, 0xff, 0x87, 0x34, 0x8e, 0x43, 0x44, 0xc4, 0xde, 0xe9, 0xcb,
   0x54, 0x7b, 0x94, 0x32, 0xa6, 0xc2, 0x23, 0x3d, 0xee, 0x4c, 0x95, 0x0b, 0x42, 0xfa, 0xc3, 0x4e,
   0x08, 0x2e, 0xa1, 0x66, 0x28, 0xd9, 0x24, 0xb2, 0x76, 0x5b, 0xa2, 0x49, 0x6d, 0x8b, 0xd1, 0x25,
   0x72, 0xf8, 0xf6, 0x64, 0x86, 0x68, 0x98, 0x16, 0xd4, 0xa4, 0x5c, 0xcc, 0x5d, 0x65, 0xb6, 0x92,
   0x6c, 0x70, 0x48, 0x50, 0xfd, 0xed, 0xb9, 0xda, 0x5e, 0x15, 0x46, 0x57, 0xa7, 0x8d, 0x9d, 0x84,
   0x90, 0xd8, 0xab, 0x00, 0x8c, 0xbc, 0xd3, 0x0a, 0xf7, 0xe4, 0x58, 0x05, 0xb8, 0xb3, 0x45, 0x06,
   0xd0, 0x2c, 0x1e, 0x8f, 0xca, 0x3f, 0x0f, 0x02, 0xc1, 0xaf, 0xbd, 0x03, 0x01, 0x13, 0x8a, 0x6b,
   0x3a, 0x91, 0x11, 0x41, 0x4f, 0x67, 0xdc, 0xea, 0x97, 0xf2, 0xcf, 0xce, 0xf0, 0xb4, 0xe6, 0x73,
   0x96, 0xac, 0x74, 0x22, 0xe7, 0xad, 0x35, 0x85, 0xe2, 0xf9, 0x37, 0xe8, 0x1c, 0x75, 0xdf, 0x6e,
   0x47, 0xf1, 0x1a, 0x71, 0x1d, 0x29, 0xc5, 0x89, 0x6f, 0xb7, 0x62, 0x0e, 0xaa, 0x18, 0xbe, 0x1b,
   0xfc, 0x56, 0x3e, 0x4b, 0xc6, 0xd2, 0x79, 0x20, 0x9a, 0xdb, 0xc0, 0xfe, 0x78, 0xcd, 0x5a, 0xf4,
   0x1f, 0xdd, 0xa8, 0x33, 0x88, 0x07, 0xc7, 0x31, 0xb1, 0x12, 0x10, 0x59, 0x27, 0x80, 0xec, 0x5f,
   0x60, 0x51, 0x7f, 0xa9, 0x19, 0xb5, 0x4a, 0x0d, 0x2d, 0xe5, 0x7a, 0x9f, 0x93, 0xc9, 0x9c, 0xef,
   0xa0, 0xe0, 0x3b, 0x4d, 0xae, 0x2a, 0xf5, 0xb0, 0xc8, 0xeb, 0xbb, 0x3c, 0x83, 0x53, 0x99, 0x61,
   0x17, 0x2b, 0x04, 0x7e, 0xba, 0x77, 0xd6, 0x26, 0xe1, 0x69, 0x14, 0x63, 0x55, 0x21, 0x0c, 0x7d
  ]

/-- Function `apply_sbox` (xor.h:61-84). -/
def apply_sbox (value : Nat) : Nat := sbox.getD value 0

/-- Function `apply_inverse_sbox` (xor.h:87-109). -/
def apply_inverse_sbox (value : Nat) : Nat := inv_sbox.getD value 0

/-- The initial `state` of `encrypt` and `decrypt` (xor.h:133-136, 190-193). -/
def initial_state (self : XORCipher) : Nat :=
  self.expanded_key.foldl (fun state k => state ^^^ k) 0

/-- The byte loop of `encrypt` (xor.h:141-167) from position `i` on, over the
plaintext bytes still to be processed. -/
def encrypt_loop (self : XORCipher) : List Nat → Nat → Nat → List Nat
  | [], _, _ => []
  | plain_byte :: rest, i, state =>
    let key_byte := self.expanded_key.getD (i % KEY_EXPANSION_SIZE) 0
    let temp := plain_byte ^^^ key_byte
    let temp := apply_sbox temp
    let temp := temp ^^^ state
    let temp := rotate_left temp (state % 8)
    let temp := temp ^^^ (i &&& 0xFF)
    temp :: encrypt_loop self rest (i + 1) ((state + temp + key_byte) &&& 0xFF)

/-- Function `encrypt` (xor.h:118-172); both error branches return the empty vector. -/
def encrypt (self : XORCipher) (plaintext : List Nat) : List Nat :=
  if plaintext = [] then []
  else if self.expanded_key = [] then []
  else encrypt_loop self plaintext 0 self.initial_state

/-- The byte loop of `decrypt` (xor.h:198-225) from position `i` on. -/
def decrypt_loop (self : XORCipher) : List Nat → Nat → Nat → List Nat
  | [], _, _ => []
  | cipher_byte :: rest, i, state =>
    let key_byte := self.expanded_key.getD (i % KEY_EXPANSION_SIZE) 0
    let temp := cipher_byte ^^^ (i &&& 0xFF)
    let temp := rotate_right temp (state % 8)
    let temp := temp ^^^ state
    let temp := apply_inverse_sbox temp
    let plain_byte := temp ^^^ key_byte
    plain_byte :: decrypt_loop self rest (i + 1) ((state + cipher_byte + key_byte) &&& 0xFF)

/-- Function `decrypt` (xor.h:175-230); both error branches return the empty vector. -/
def decrypt (self : XORCipher) (ciphertext : List Nat) : List Nat :=
  if ciphertext = [] then []
  else if self.expanded_key = [] then []
  else decrypt_loop self ciphertext 0 self.initial_state

end XORCipher

/-! ## Auxiliary and specification-side definitions for the cipher primitives -/

namespace AESCipher

/-- The four consecutive bytes `4g .. 4g+3` of a state. -/
def group (s : List Nat) (g : Nat) : List Nat := (s.drop (4 * g)).take 4

/-- Specification side of `mix_columns`: the state is the row-major 4x4 matrix of
`shift_rows` (entry `(r, c)` at index `4r + c`), and column `c`, the bytes at the indices
`c, c+4, c+8, c+12`, is replaced by its `mix_column` combination. -/
def mix_columns_of_matrix (state : List Nat) : List Nat :=
  (List.range 16).map
    (fun k =>
      (mix_column (state.getD (k % 4) 0) (state.getD (k % 4 + 4) 0)
        (state.getD (k % 4 + 8) 0) (state.getD (k % 4 + 12) 0)).getD (k / 4) 0)

/-- Specification side of `galois_multiply`: the product of two polynomials over GF(2),
a polynomial being the number whose bit `i` is its coefficient of `x^i`; the second
factor is a byte, a polynomial of degree below 8. -/
def poly_mul (a b : Nat) : Nat :=
  (List.range 8).foldl (fun acc i => if b.testBit i then acc ^^^ (a <<< i) else acc) 0

/-- Specification side: one step of the long division by `x^8 + x^4 + x^3 + x + 1`
(0x11B): a term `x^(k+8)` is cancelled by adding `x^k` times the modulus. -/
def poly_reduce (k p : Nat) : Nat :=
  if p.testBit (k + 8) then p ^^^ (0x11B <<< k) else p

/-- Specification side: the remainder modulo `x^8 + x^4 + x^3 + x + 1` of a polynomial
of degree below 15, by long division from the term `x^14` down to `x^8`. -/
def poly_mod (p : Nat) : Nat :=
  [6, 5, 4, 3, 2, 1, 0].foldl (fun p k => poly_reduce k p) p

end AESCipher

/-! ## `process_file` (main.cpp:432-530) -/

/-- The members of `struct Config` (main.cpp:17-37) that `process_file` reads. -/
structure Config where
  compress : Bool
  decompress : Bool
  encrypt : Bool
  decrypt : Bool
  key : List Nat

/-- The steps of `process_file` that can report a failure before the result is written. -/
inductive ProcessStep where
  | read
  | compression
  | encryption
  | decryption
  | decompression
  deriving DecidableEq, Repr

/-- How the steps of `process_file` between reading and writing end: with the bytes
handed to `write_file_syscall`, with the failure message of a step (`return false`), or
in the undefined behaviour of `decompress`. -/
inductive ProcessResult where
  | written (data : List Nat)
  | failed (step : ProcessStep)
  | fault (f : HuffmanCoder.Fault)
  deriving DecidableEq, Repr

/-- The decompression step of `process_file` (main.cpp:505-518) on the current data. -/
def process_decompress (config : Config) (data : List Nat) : ProcessResult :=
  if config.decompress then
    match HuffmanCoder.decompress data with
    | .fault f => .fault f
    | .error _ => .failed .decompression
    | .decoded decompressed =>
      if decompressed = [] then .failed .decompression else .written decompressed
  else .written data

/-- The decryption step of `process_file` (main.cpp:491-503) and what follows it. -/
def process_decrypt (t : Target) (config : Config) (data : List Nat) : ProcessResult :=
  if config.decrypt then
    let decrypted := ((AESCipher.new t config.key).decrypt data).value
    if decrypted = [] then .failed .decryption else process_decompress config decrypted
  else process_decompress config data

/-- The encryption step of `process_file` (main.cpp:476-488) and what follows it. -/
def process_encrypt (t : Target) (config : Config) (data : List Nat) : ProcessResult :=
  if config.encrypt then
    let encrypted := ((AESCipher.new t config.key).encrypt data).value
    if encrypted = [] then .failed .encryption else process_decrypt t config encrypted
  else process_decrypt t config data

/-- Function `process_file` (main.cpp:432-530) from the bytes `read_file_syscall` returned
to the bytes handed to `write_file_syscall`: compression, encryption, decryption and
decompression, each when selected, each failing on an empty result. -/
def process_file (tie : List HuffmanNode → Nat) (t : Target) (config : Config)
    (data : List Nat) : ProcessResult :=
  if data = [] then .failed .read
  else if config.compress then
    let compressed := HuffmanCoder.compress tie data
    if compressed = [] then .failed .compression else process_encrypt t config compressed
  else process_encrypt t config data

/-! ## Auxiliary definitions for the optimality of the code -/

namespace HuffmanCoder

/-- The leaves of a tree with their depths, left to right: pairs (byte value, depth). -/
def leaf_depths : HuffmanNode → List (Nat × Nat)
  | HuffmanNode.nullptr => []
  | HuffmanNode.node d f l r =>
    if (HuffmanNode.node d f l r).is_leaf then [(d, 0)]
    else (leaf_depths l ++ leaf_depths r).map (fun p => (p.1, p.2 + 1))

/-- The leaves of a tree with their depths, left to right: pairs (frequency, depth). -/
def leaf_weights : HuffmanNode → List (Nat × Nat)
  | HuffmanNode.nullptr => []
  | HuffmanNode.node d f l r =>
    if (HuffmanNode.node d f l r).is_leaf then [(f, 0)]
    else (leaf_weights l ++ leaf_weights r).map (fun p => (p.1, p.2 + 1))

/-- The weighted path length of a list of pairs (weight, depth): the number of code bits
when a symbol occurring `weight` times has a code of `depth` bits. -/
def cost (L : List (Nat × Nat)) : Nat := (L.map (fun p => p.1 * p.2)).sum

/-- The Kraft sum of a list of pairs (weight, depth): the sum of `2^(-depth)`. -/
def kraft (L : List (Nat × Nat)) : ℚ := (L.map (fun p => (1 / 2 : ℚ) ^ p.2)).sum

end HuffmanCoder

/-! ## Byte vectors -/

theorem getD_lt_of_bytes (v : List Nat) (h : Bytes v) (i : Nat) : v.getD i 0 < 256 := by
  by_cases hi : i < v.length
  · rw [List.getD_eq_getElem _ _ hi]
    exact h _ (List.getElem_mem hi)
  · rw [List.getD_eq_default _ _ (by omega)]
    decide


/-! ## Arithmetic of `galois_multiply` -/

namespace AESCipher

theorem galois_loop_succ (n a b r : Nat) :
    galois_loop (n + 1) a b r
      = galois_loop n (xtime a) (b >>> 1) (if b &&& 1 ≠ 0 then r ^^^ a else r) := rfl

theorem and_128_ne_zero (a : Nat) : (a &&& 0x80 ≠ 0) ↔ a.testBit 7 = true := by
  have h : (0x80 : Nat) = 2 ^ 7 := by norm_num
  rw [h, Nat.and_two_pow]
  cases a.testBit 7 <;> simp

theorem xtime_xor (x y : Nat) : xtime (x ^^^ y) = xtime x ^^^ xtime y := by
  have hs : ((x ^^^ y) <<< 1) % 256 = (x <<< 1) % 256 ^^^ (y <<< 1) % 256 := by
    apply Nat.eq_of_testBit_eq
    intro i
    have h : (256 : Nat) = 2 ^ 8 := by norm_num
    simp only [h, Nat.testBit_mod_two_pow, Nat.testBit_xor, Nat.testBit_shiftLeft]
    cases decide (i < 8) <;> cases decide (i ≥ 1) <;> simp
  unfold xtime
  simp only [and_128_ne_zero, Nat.testBit_xor, hs]
  generalize (x <<< 1) % 256 = a
  generalize (y <<< 1) % 256 = b
  cases x.testBit 7 <;> cases y.testBit 7 <;> simp
  · ac_rfl
  · ac_rfl
  · calc a ^^^ b = (27 ^^^ 27) ^^^ (a ^^^ b) := by simp
      _ = _ := by ac_rfl

theorem xtime_lt (a : Nat) : xtime a < 256 := by
  unfold xtime
  have h : (a <<< 1) % 256 < 2 ^ 8 := Nat.mod_lt _ (by norm_num)
  split
  · exact Nat.xor_lt_two_pow h (by norm_num)
  · exact h

theorem galois_multiply_2 (a : Nat) :
    galois_multiply a 2 = xtime a := by
  have h : galois_multiply a 2 = 0 ^^^ xtime a := rfl
  simp only [h, Nat.zero_xor]

theorem galois_multiply_2_xor (x y : Nat) :
    galois_multiply (x ^^^ y) 2 = galois_multiply x 2 ^^^ galois_multiply y 2 := by
  simp only [galois_multiply_2, xtime_xor]

theorem galois_multiply_2_xor4 (p q r s : Nat) :
    galois_multiply (p ^^^ q ^^^ r ^^^ s) 2
      = galois_multiply p 2 ^^^ galois_multiply q 2 ^^^ galois_multiply r 2
          ^^^ galois_multiply s 2 := by
  rw [galois_multiply_2_xor, galois_multiply_2_xor, galois_multiply_2_xor]

theorem galois_multiply_3 (a : Nat) :
    galois_multiply a 3 = a ^^^ xtime a := by
  have h : galois_multiply a 3 = 0 ^^^ a ^^^ xtime a := rfl
  simp only [h, Nat.zero_xor]

theorem galois_multiply_3_xor (x y : Nat) :
    galois_multiply (x ^^^ y) 3 = galois_multiply x 3 ^^^ galois_multiply y 3 := by
  simp only [galois_multiply_3, xtime_xor]
  ac_rfl

theorem galois_multiply_3_xor4 (p q r s : Nat) :
    galois_multiply (p ^^^ q ^^^ r ^^^ s) 3
      = galois_multiply p 3 ^^^ galois_multiply q 3 ^^^ galois_multiply r 3
          ^^^ galois_multiply s 3 := by
  rw [galois_multiply_3_xor, galois_multiply_3_xor, galois_multiply_3_xor]

theorem galois_multiply_9 (a : Nat) :
    galois_multiply a 9 = a ^^^ xtime (xtime (xtime a)) := by
  have h : galois_multiply a 9 = 0 ^^^ a ^^^ xtime (xtime (xtime a)) := rfl
  simp only [h, Nat.zero_xor]

theorem galois_multiply_9_xor (x y : Nat) :
    galois_multiply (x ^^^ y) 9 = galois_multiply x 9 ^^^ galois_multiply y 9 := by
  simp only [galois_multiply_9, xtime_xor]
  ac_rfl

theorem galois_multiply_9_xor4 (p q r s : Nat) :
    galois_multiply (p ^^^ q ^^^ r ^^^ s) 9
      = galois_multiply p 9 ^^^ galois_multiply q 9 ^^^ galois_multiply r 9
          ^^^ galois_multiply s 9 := by
  rw [galois_multiply_9_xor, galois_multiply_9_xor, galois_multiply_9_xor]

theorem galois_multiply_11 (a : Nat) :
    galois_multiply a 11 = a ^^^ xtime a ^^^ xtime (xtime (xtime a)) := by
  have h : galois_multiply a 11 = 0 ^^^ a ^^^ xtime a ^^^ xtime (xtime (xtime a)) := rfl
  simp only [h, Nat.zero_xor]

theorem galois_multiply_11_xor (x y : Nat) :
    galois_multiply (x ^^^ y) 11 = galois_multiply x 11 ^^^ galois_multiply y 11 := by
  simp only [galois_multiply_11, xtime_xor]
  ac_rfl

theorem galois_multiply_11_xor4 (p q r s : Nat) :
    galois_multiply (p ^^^ q ^^^ r ^^^ s) 11
      = galois_multiply p 11 ^^^ galois_multiply q 11 ^^^ galois_multiply r 11
          ^^^ galois_multiply s 11 := by
  rw [galois_multiply_11_xor, galois_multiply_11_xor, galois_multiply_11_xor]

theorem galois_multiply_13 (a : Nat) :
    galois_multiply a 13 = a ^^^ xtime (xtime a) ^^^ xtime (xtime (xtime a)) := by
  have h : galois_multiply a 13 = 0 ^^^ a ^^^ xtime (xtime a) ^^^ xtime (xtime (xtime a)) := rfl
  simp only [h, Nat.zero_xor]

theorem galois_multiply_13_xor (x y : Nat) :
    galois_multiply (x ^^^ y) 13 = galois_multiply x 13 ^^^ galois_multiply y 13 := by
  simp only [galois_multiply_13, xtime_xor]
  ac_rfl

theorem galois_multiply_13_xor4 (p q r s : Nat) :
    galois_multiply (p ^^^ q ^^^ r ^^^ s) 13
      = galois_multiply p 13 ^^^ galois_multiply q 13 ^^^ galois_multiply r 13
          ^^^ galois_multiply s 13 := by
  rw [galois_multiply_13_xor, galois_multiply_13_xor, galois_multiply_13_xor]

theorem galois_multiply_14 (a : Nat) :
    galois_multiply a 14 = xtime a ^^^ xtime (xtime a) ^^^ xtime (xtime (xtime a)) := by
  have h : galois_multiply a 14 = 0 ^^^ xtime a ^^^ xtime (xtime a) ^^^ xtime (xtime (xtime a)) := rfl
  simp only [h, Nat.zero_xor]

theorem galois_multiply_14_xor (x y : Nat) :
    galois_multiply (x ^^^ y) 14 = galois_multiply x 14 ^^^ galois_multiply y 14 := by
  simp only [galois_multiply_14, xtime_xor]
  ac_rfl

theorem galois_multiply_14_xor4 (p q r s : Nat) :
    galois_multiply (p ^^^ q ^^^ r ^^^ s) 14
      = galois_multiply p 14 ^^^ galois_multiply q 14 ^^^ galois_multiply r 14
          ^^^ galois_multiply s 14 := by
  rw [galois_multiply_14_xor, galois_multiply_14_xor, galois_multiply_14_xor]

theorem galois_multiply_lt : ∀ a < 256,
    galois_multiply a 2 < 256 ∧ galois_multiply a 3 < 256 ∧ galois_multiply a 9 < 256 ∧
    galois_multiply a 11 < 256 ∧ galois_multiply a 13 < 256 ∧ galois_multiply a 14 < 256 := by
  decide!

theorem inv_mix_00 : ∀ v < 256, galois_multiply (galois_multiply v 2) 14 ^^^ galois_multiply v 11 ^^^ galois_multiply v 13 ^^^ galois_multiply (galois_multiply v 3) 9 = v := by
  decide!

theorem inv_mix_01 : ∀ v < 256, galois_multiply (galois_multiply v 3) 14 ^^^ galois_multiply (galois_multiply v 2) 11 ^^^ galois_multiply v 13 ^^^ galois_multiply v 9 = 0 := by
  decide!

theorem inv_mix_02 : ∀ v < 256, galois_multiply v 14 ^^^ galois_multiply (galois_multiply v 3) 11 ^^^ galois_multiply (galois_multiply v 2) 13 ^^^ galois_multiply v 9 = 0 := by
  decide!

theorem inv_mix_03 : ∀ v < 256, galois_multiply v 14 ^^^ galois_multiply v 11 ^^^ galois_multiply (galois_multiply v 3) 13 ^^^ galois_multiply (galois_multiply v 2) 9 = 0 := by
  decide!

theorem inv_mix_10 : ∀ v < 256, galois_multiply (galois_multiply v 2) 9 ^^^ galois_multiply v 14 ^^^ galois_multiply v 11 ^^^ galois_multiply (galois_multiply v 3) 13 = 0 := by
  decide!

theorem inv_mix_11 : ∀ v < 256, galois_multiply (galois_multiply v 3) 9 ^^^ galois_multiply (galois_multiply v 2) 14 ^^^ galois_multiply v 11 ^^^ galois_multiply v 13 = v := by
  decide!

theorem inv_mix_12 : ∀ v < 256, galois_multiply v 9 ^^^ galois_multiply (galois_multiply v 3) 14 ^^^ galois_multiply (galois_multiply v 2) 11 ^^^ galois_multiply v 13 = 0 := by
  decide!

theorem inv_mix_13 : ∀ v < 256, galois_multiply v 9 ^^^ galois_multiply v 14 ^^^ galois_multiply (galois_multiply v 3) 11 ^^^ galois_multiply (galois_multiply v 2) 13 = 0 := by
  decide!

theorem inv_mix_20 : ∀ v < 256, galois_multiply (galois_multiply v 2) 13 ^^^ galois_multiply v 9 ^^^ galois_multiply v 14 ^^^ galois_multiply (galois_multiply v 3) 11 = 0 := by
  decide!

theorem inv_mix_21 : ∀ v < 256, galois_multiply (galois_multiply v 3) 13 ^^^ galois_multiply (galois_multiply v 2) 9 ^^^ galois_multiply v 14 ^^^ galois_multiply v 11 = 0 := by
  decide!

theorem inv_mix_22 : ∀ v < 256, galois_multiply v 13 ^^^ galois_multiply (galois_multiply v 3) 9 ^^^ galois_multiply (galois_multiply v 2) 14 ^^^ galois_multiply v 11 = v := by
  decide!

theorem inv_mix_23 : ∀ v < 256, galois_multiply v 13 ^^^ galois_multiply v 9 ^^^ galois_multiply (galois_multiply v 3) 14 ^^^ galois_multiply (galois_multiply v 2) 11 = 0 := by
  decide!

theorem inv_mix_30 : ∀ v < 256, galois_multiply (galois_multiply v 2) 11 ^^^ galois_multiply v 13 ^^^ galois_multiply v 9 ^^^ galois_multiply (galois_multiply v 3) 14 = 0 := by
  decide!

theorem inv_mix_31 : ∀ v < 256, galois_multiply (galois_multiply v 3) 11 ^^^ galois_multiply (galois_multiply v 2) 13 ^^^ galois_multiply v 9 ^^^ galois_multiply v 14 = 0 := by
  decide!

theorem inv_mix_32 : ∀ v < 256, galois_multiply v 11 ^^^ galois_multiply (galois_multiply v 3) 13 ^^^ galois_multiply (galois_multiply v 2) 9 ^^^ galois_multiply v 14 = 0 := by
  decide!

theorem inv_mix_33 : ∀ v < 256, galois_multiply v 11 ^^^ galois_multiply v 13 ^^^ galois_multiply (galois_multiply v 3) 9 ^^^ galois_multiply (galois_multiply v 2) 14 = v := by
  decide!

theorem mix_inv_00 : ∀ v < 256, galois_multiply (galois_multiply v 14) 2 ^^^ galois_multiply (galois_multiply v 9) 3 ^^^ galois_multiply v 13 ^^^ galois_multiply v 11 = v := by
  decide!

theorem mix_inv_01 : ∀ v < 256, galois_multiply (galois_multiply v 11) 2 ^^^ galois_multiply (galois_multiply v 14) 3 ^^^ galois_multiply v 9 ^^^ galois_multiply v 13 = 0 := by
  decide!

theorem mix_inv_02 : ∀ v < 256, galois_multiply (galois_multiply v 13) 2 ^^^ galois_multiply (galois_multiply v 11) 3 ^^^ galois_multiply v 14 ^^^ galois_multiply v 9 = 0 := by
  decide!

theorem mix_inv_03 : ∀ v < 256, galois_multiply (galois_multiply v 9) 2 ^^^ galois_multiply (galois_multiply v 13) 3 ^^^ galois_multiply v 11 ^^^ galois_multiply v 14 = 0 := by
  decide!

theorem mix_inv_10 : ∀ v < 256, galois_multiply v 14 ^^^ galois_multiply (galois_multiply v 9) 2 ^^^ galois_multiply (galois_multiply v 13) 3 ^^^ galois_multiply v 11 = 0 := by
  decide!

theorem mix_inv_11 : ∀ v < 256, galois_multiply v 11 ^^^ galois_multiply (galois_multiply v 14) 2 ^^^ galois_multiply (galois_multiply v 9) 3 ^^^ galois_multiply v 13 = v := by
  decide!

theorem mix_inv_12 : ∀ v < 256, galois_multiply v 13 ^^^ galois_multiply (galois_multiply v 11) 2 ^^^ galois_multiply (galois_multiply v 14) 3 ^^^ galois_multiply v 9 = 0 := by
  decide!

theorem mix_inv_13 : ∀ v < 256, galois_multiply v 9 ^^^ galois_multiply (galois_multiply v 13) 2 ^^^ galois_multiply (galois_multiply v 11) 3 ^^^ galois_multiply v 14 = 0 := by
  decide!

theorem mix_inv_20 : ∀ v < 256, galois_multiply v 14 ^^^ galois_multiply v 9 ^^^ galois_multiply (galois_multiply v 13) 2 ^^^ galois_multiply (galois_multiply v 11) 3 = 0 := by
  decide!

theorem mix_inv_21 : ∀ v < 256, galois_multiply v 11 ^^^ galois_multiply v 14 ^^^ galois_multiply (galois_multiply v 9) 2 ^^^ galois_multiply (galois_multiply v 13) 3 = 0 := by
  decide!

theorem mix_inv_22 : ∀ v < 256, galois_multiply v 13 ^^^ galois_multiply v 11 ^^^ galois_multiply (galois_multiply v 14) 2 ^^^ galois_multiply (galois_multiply v 9) 3 = v := by
  decide!

theorem mix_inv_23 : ∀ v < 256, galois_multiply v 9 ^^^ galois_multiply v 13 ^^^ galois_multiply (galois_multiply v 11) 2 ^^^ galois_multiply (galois_multiply v 14) 3 = 0 := by
  decide!

theorem mix_inv_30 : ∀ v < 256, galois_multiply (galois_multiply v 14) 3 ^^^ galois_multiply v 9 ^^^ galois_multiply v 13 ^^^ galois_multiply (galois_multiply v 11) 2 = 0 := by
  decide!

theorem mix_inv_31 : ∀ v < 256, galois_multiply (galois_multiply v 11) 3 ^^^ galois_multiply v 14 ^^^ galois_multiply v 9 ^^^ galois_multiply (galois_multiply v 13) 2 = 0 := by
  decide!

theorem mix_inv_32 : ∀ v < 256, galois_multiply (galois_multiply v 13) 3 ^^^ galois_multiply v 11 ^^^ galois_multiply v 14 ^^^ galois_multiply (galois_multiply v 9) 2 = 0 := by
  decide!

theorem mix_inv_33 : ∀ v < 256, galois_multiply (galois_multiply v 9) 3 ^^^ galois_multiply v 13 ^^^ galois_multiply v 11 ^^^ galois_multiply (galois_multiply v 14) 2 = v := by
  decide!

/-- One column: `inv_mix_column` undoes `mix_column` on bytes. -/
theorem inv_mix_column_mix_column (a b c d : Nat) (ha : a < 256) (hb : b < 256) (hc : c < 256)
    (hd : d < 256) :
    inv_mix_column
        (galois_multiply a 2 ^^^ galois_multiply b 3 ^^^ c ^^^ d)
        (a ^^^ galois_multiply b 2 ^^^ galois_multiply c 3 ^^^ d)
        (a ^^^ b ^^^ galois_multiply c 2 ^^^ galois_multiply d 3)
        (galois_multiply a 3 ^^^ b ^^^ c ^^^ galois_multiply d 2)
      = [a, b, c, d] := by
  have e0 : galois_multiply (galois_multiply a 2 ^^^ galois_multiply b 3 ^^^ c ^^^ d) 14 ^^^ galois_multiply (a ^^^ galois_multiply b 2 ^^^ galois_multiply c 3 ^^^ d) 11 ^^^ galois_multiply (a ^^^ b ^^^ galois_multiply c 2 ^^^ galois_multiply d 3) 13 ^^^ galois_multiply (galois_multiply a 3 ^^^ b ^^^ c ^^^ galois_multiply d 2) 9 = a := by
    rw [galois_multiply_14_xor4, galois_multiply_11_xor4, galois_multiply_13_xor4, galois_multiply_9_xor4]
    calc _ = (galois_multiply (galois_multiply a 2) 14 ^^^ galois_multiply a 11 ^^^ galois_multiply a 13 ^^^ galois_multiply (galois_multiply a 3) 9) ^^^ (galois_multiply (galois_multiply b 3) 14 ^^^ galois_multiply (galois_multiply b 2) 11 ^^^ galois_multiply b 13 ^^^ galois_multiply b 9)
              ^^^ (galois_multiply c 14 ^^^ galois_multiply (galois_multiply c 3) 11 ^^^ galois_multiply (galois_multiply c 2) 13 ^^^ galois_multiply c 9) ^^^ (galois_multiply d 14 ^^^ galois_multiply d 11 ^^^ galois_multiply (galois_multiply d 3) 13 ^^^ galois_multiply (galois_multiply d 2) 9) := by ac_rfl
      _ = a := by rw [inv_mix_00 a ha, inv_mix_01 b hb, inv_mix_02 c hc, inv_mix_03 d hd]; simp
  have e1 : galois_multiply (galois_multiply a 2 ^^^ galois_multiply b 3 ^^^ c ^^^ d) 9 ^^^ galois_multiply (a ^^^ galois_multiply b 2 ^^^ galois_multiply c 3 ^^^ d) 14 ^^^ galois_multiply (a ^^^ b ^^^ galois_multiply c 2 ^^^ galois_multiply d 3) 11 ^^^ galois_multiply (galois_multiply a 3 ^^^ b ^^^ c ^^^ galois_multiply d 2) 13 = b := by
    rw [galois_multiply_9_xor4, galois_multiply_14_xor4, galois_multiply_11_xor4, galois_multiply_13_xor4]
    calc _ = (galois_multiply (galois_multiply a 2) 9 ^^^ galois_multiply a 14 ^^^ galois_multiply a 11 ^^^ galois_multiply (galois_multiply a 3) 13) ^^^ (galois_multiply (galois_multiply b 3) 9 ^^^ galois_multiply (galois_multiply b 2) 14 ^^^ galois_multiply b 11 ^^^ galois_multiply b 13)
              ^^^ (galois_multiply c 9 ^^^ galois_multiply (galois_multiply c 3) 14 ^^^ galois_multiply (galois_multiply c 2) 11 ^^^ galois_multiply c 13) ^^^ (galois_multiply d 9 ^^^ galois_multiply d 14 ^^^ galois_multiply (galois_multiply d 3) 11 ^^^ galois_multiply (galois_multiply d 2) 13) := by ac_rfl
      _ = b := by rw [inv_mix_10 a ha, inv_mix_11 b hb, inv_mix_12 c hc, inv_mix_13 d hd]; simp
  have e2 : galois_multiply (galois_multiply a 2 ^^^ galois_multiply b 3 ^^^ c ^^^ d) 13 ^^^ galois_multiply (a ^^^ galois_multiply b 2 ^^^ galois_multiply c 3 ^^^ d) 9 ^^^ galois_multiply (a ^^^ b ^^^ galois_multiply c 2 ^^^ galois_multiply d 3) 14 ^^^ galois_multiply (galois_multiply a 3 ^^^ b ^^^ c ^^^ galois_multiply d 2) 11 = c := by
    rw [galois_multiply_13_xor4, galois_multiply_9_xor4, galois_multiply_14_xor4, galois_multiply_11_xor4]
    calc _ = (galois_multiply (galois_multiply a 2) 13 ^^^ galois_multiply a 9 ^^^ galois_multiply a 14 ^^^ galois_multiply (galois_multiply a 3) 11) ^^^ (galois_multiply (galois_multiply b 3) 13 ^^^ galois_multiply (galois_multiply b 2) 9 ^^^ galois_multiply b 14 ^^^ galois_multiply b 11)
              ^^^ (galois_multiply c 13 ^^^ galois_multiply (galois_multiply c 3) 9 ^^^ galois_multiply (galois_multiply c 2) 14 ^^^ galois_multiply c 11) ^^^ (galois_multiply d 13 ^^^ galois_multiply d 9 ^^^ galois_multiply (galois_multiply d 3) 14 ^^^ galois_multiply (galois_multiply d 2) 11) := by ac_rfl
      _ = c := by rw [inv_mix_20 a ha, inv_mix_21 b hb, inv_mix_22 c hc, inv_mix_23 d hd]; simp
  have e3 : galois_multiply (galois_multiply a 2 ^^^ galois_multiply b 3 ^^^ c ^^^ d) 11 ^^^ galois_multiply (a ^^^ galois_multiply b 2 ^^^ galois_multiply c 3 ^^^ d) 13 ^^^ galois_multiply (a ^^^ b ^^^ galois_multiply c 2 ^^^ galois_multiply d 3) 9 ^^^ galois_multiply (galois_multiply a 3 ^^^ b ^^^ c ^^^ galois_multiply d 2) 14 = d := by
    rw [galois_multiply_11_xor4, galois_multiply_13_xor4, galois_multiply_9_xor4, galois_multiply_14_xor4]
    calc _ = (galois_multiply (galois_multiply a 2) 11 ^^^ galois_multiply a 13 ^^^ galois_multiply a 9 ^^^ galois_multiply (galois_multiply a 3) 14) ^^^ (galois_multiply (galois_multiply b 3) 11 ^^^ galois_multiply (galois_multiply b 2) 13 ^^^ galois_multiply b 9 ^^^ galois_multiply b 14)
              ^^^ (galois_multiply c 11 ^^^ galois_multiply (galois_multiply c 3) 13 ^^^ galois_multiply (galois_multiply c 2) 9 ^^^ galois_multiply c 14) ^^^ (galois_multiply d 11 ^^^ galois_multiply d 13 ^^^ galois_multiply (galois_multiply d 3) 9 ^^^ galois_multiply (galois_multiply d 2) 14) := by ac_rfl
      _ = d := by rw [inv_mix_30 a ha, inv_mix_31 b hb, inv_mix_32 c hc, inv_mix_33 d hd]; simp
  unfold inv_mix_column
  rw [e0, e1, e2, e3]

/-- One column: `mix_column` undoes `inv_mix_column` on bytes. -/
theorem mix_column_inv_mix_column (a b c d : Nat) (ha : a < 256) (hb : b < 256) (hc : c < 256)
    (hd : d < 256) :
    mix_column
        (galois_multiply a 14 ^^^ galois_multiply b 11 ^^^ galois_multiply c 13 ^^^ galois_multiply d 9)
        (galois_multiply a 9 ^^^ galois_multiply b 14 ^^^ galois_multiply c 11 ^^^ galois_multiply d 13)
        (galois_multiply a 13 ^^^ galois_multiply b 9 ^^^ galois_multiply c 14 ^^^ galois_multiply d 11)
        (galois_multiply a 11 ^^^ galois_multiply b 13 ^^^ galois_multiply c 9 ^^^ galois_multiply d 14)
      = [a, b, c, d] := by
  have e0 : galois_multiply (galois_multiply a 14 ^^^ galois_multiply b 11 ^^^ galois_multiply c 13 ^^^ galois_multiply d 9) 2 ^^^ galois_multiply (galois_multiply a 9 ^^^ galois_multiply b 14 ^^^ galois_multiply c 11 ^^^ galois_multiply d 13) 3 ^^^ (galois_multiply a 13 ^^^ galois_multiply b 9 ^^^ galois_multiply c 14 ^^^ galois_multiply d 11) ^^^ (galois_multiply a 11 ^^^ galois_multiply b 13 ^^^ galois_multiply c 9 ^^^ galois_multiply d 14) = a := by
    rw [galois_multiply_2_xor4, galois_multiply_3_xor4]
    calc _ = (galois_multiply (galois_multiply a 14) 2 ^^^ galois_multiply (galois_multiply a 9) 3 ^^^ galois_multiply a 13 ^^^ galois_multiply a 11) ^^^ (galois_multiply (galois_multiply b 11) 2 ^^^ galois_multiply (galois_multiply b 14) 3 ^^^ galois_multiply b 9 ^^^ galois_multiply b 13)
              ^^^ (galois_multiply (galois_multiply c 13) 2 ^^^ galois_multiply (galois_multiply c 11) 3 ^^^ galois_multiply c 14 ^^^ galois_multiply c 9) ^^^ (galois_multiply (galois_multiply d 9) 2 ^^^ galois_multiply (galois_multiply d 13) 3 ^^^ galois_multiply d 11 ^^^ galois_multiply d 14) := by ac_rfl
      _ = a := by rw [mix_inv_00 a ha, mix_inv_01 b hb, mix_inv_02 c hc, mix_inv_03 d hd]; simp
  have e1 : (galois_multiply a 14 ^^^ galois_multiply b 11 ^^^ galois_multiply c 13 ^^^ galois_multiply d 9) ^^^ galois_multiply (galois_multiply a 9 ^^^ galois_multiply b 14 ^^^ galois_multiply c 11 ^^^ galois_multiply d 13) 2 ^^^ galois_multiply (galois_multiply a 13 ^^^ galois_multiply b 9 ^^^ galois_multiply c 14 ^^^ galois_multiply d 11) 3 ^^^ (galois_multiply a 11 ^^^ galois_multiply b 13 ^^^ galois_multiply c 9 ^^^ galois_multiply d 14) = b := by
    rw [galois_multiply_2_xor4, galois_multiply_3_xor4]
    calc _ = (galois_multiply a 14 ^^^ galois_multiply (galois_multiply a 9) 2 ^^^ galois_multiply (galois_multiply a 13) 3 ^^^ galois_multiply a 11) ^^^ (galois_multiply b 11 ^^^ galois_multiply (galois_multiply b 14) 2 ^^^ galois_multiply (galois_multiply b 9) 3 ^^^ galois_multiply b 13)
              ^^^ (galois_multiply c 13 ^^^ galois_multiply (galois_multiply c 11) 2 ^^^ galois_multiply (galois_multiply c 14) 3 ^^^ galois_multiply c 9) ^^^ (galois_multiply d 9 ^^^ galois_multiply (galois_multiply d 13) 2 ^^^ galois_multiply (galois_multiply d 11) 3 ^^^ galois_multiply d 14) := by ac_rfl
      _ = b := by rw [mix_inv_10 a ha, mix_inv_11 b hb, mix_inv_12 c hc, mix_inv_13 d hd]; simp
  have e2 : (galois_multiply a 14 ^^^ galois_multiply b 11 ^^^ galois_multiply c 13 ^^^ galois_multiply d 9) ^^^ (galois_multiply a 9 ^^^ galois_multiply b 14 ^^^ galois_multiply c 11 ^^^ galois_multiply d 13) ^^^ galois_multiply (galois_multiply a 13 ^^^ galois_multiply b 9 ^^^ galois_multiply c 14 ^^^ galois_multiply d 11) 2 ^^^ galois_multiply (galois_multiply a 11 ^^^ galois_multiply b 13 ^^^ galois_multiply c 9 ^^^ galois_multiply d 14) 3 = c := by
    rw [galois_multiply_2_xor4, galois_multiply_3_xor4]
    calc _ = (galois_multiply a 14 ^^^ galois_multiply a 9 ^^^ galois_multiply (galois_multiply a 13) 2 ^^^ galois_multiply (galois_multiply a 11) 3) ^^^ (galois_multiply b 11 ^^^ galois_multiply b 14 ^^^ galois_multiply (galois_multiply b 9) 2 ^^^ galois_multiply (galois_multiply b 13) 3)
              ^^^ (galois_multiply c 13 ^^^ galois_multiply c 11 ^^^ galois_multiply (galois_multiply c 14) 2 ^^^ galois_multiply (galois_multiply c 9) 3) ^^^ (galois_multiply d 9 ^^^ galois_multiply d 13 ^^^ galois_multiply (galois_multiply d 11) 2 ^^^ galois_multiply (galois_multiply d 14) 3) := by ac_rfl
      _ = c := by rw [mix_inv_20 a ha, mix_inv_21 b hb, mix_inv_22 c hc, mix_inv_23 d hd]; simp
  have e3 : galois_multiply (galois_multiply a 14 ^^^ galois_multiply b 11 ^^^ galois_multiply c 13 ^^^ galois_multiply d 9) 3 ^^^ (galois_multiply a 9 ^^^ galois_multiply b 14 ^^^ galois_multiply c 11 ^^^ galois_multiply d 13) ^^^ (galois_multiply a 13 ^^^ galois_multiply b 9 ^^^ galois_multiply c 14 ^^^ galois_multiply d 11) ^^^ galois_multiply (galois_multiply a 11 ^^^ galois_multiply b 13 ^^^ galois_multiply c 9 ^^^ galois_multiply d 14) 2 = d := by
    rw [galois_multiply_3_xor4, galois_multiply_2_xor4]
    calc _ = (galois_multiply (galois_multiply a 14) 3 ^^^ galois_multiply a 9 ^^^ galois_multiply a 13 ^^^ galois_multiply (galois_multiply a 11) 2) ^^^ (galois_multiply (galois_multiply b 11) 3 ^^^ galois_multiply b 14 ^^^ galois_multiply b 9 ^^^ galois_multiply (galois_multiply b 13) 2)
              ^^^ (galois_multiply (galois_multiply c 13) 3 ^^^ galois_multiply c 11 ^^^ galois_multiply c 14 ^^^ galois_multiply (galois_multiply c 9) 2) ^^^ (galois_multiply (galois_multiply d 9) 3 ^^^ galois_multiply d 13 ^^^ galois_multiply d 11 ^^^ galois_multiply (galois_multiply d 14) 2) := by ac_rfl
      _ = d := by rw [mix_inv_30 a ha, mix_inv_31 b hb, mix_inv_32 c hc, mix_inv_33 d hd]; simp
  unfold mix_column
  rw [e0, e1, e2, e3]

end AESCipher

/-! ## The round transforms on a 16-byte state -/

namespace AESCipher

theorem length_16_cases (s : List Nat) (h : s.length = 16) :
    ∃ s0 s1 s2 s3 s4 s5 s6 s7 s8 s9 s10 s11 s12 s13 s14 s15,
      s = [s0, s1, s2, s3, s4, s5, s6, s7, s8, s9, s10, s11, s12, s13, s14, s15] := by
  match s, h with
  | [s0, s1, s2, s3, s4, s5, s6, s7, s8, s9, s10, s11, s12, s13, s14, s15], _ =>
    exact ⟨s0, s1, s2, s3, s4, s5, s6, s7, s8, s9, s10, s11, s12, s13, s14, s15, rfl⟩

set_option maxRecDepth 4096 in
theorem SBOX_length : SBOX.length = 256 := by decide

set_option maxRecDepth 4096 in
theorem INV_SBOX_length : INV_SBOX.length = 256 := by decide

theorem sbox_lt (x : Nat) : SBOX.getD x 0 < 256 := by
  by_cases h : x < 256
  · revert x; decide!
  · rw [List.getD_eq_default]
    · decide
    · have hl := SBOX_length
      omega

theorem inv_sbox_lt (x : Nat) : INV_SBOX.getD x 0 < 256 := by
  by_cases h : x < 256
  · revert x; decide!
  · rw [List.getD_eq_default]
    · decide
    · have hl := INV_SBOX_length
      omega

theorem inv_sbox_sbox : ∀ x < 256, INV_SBOX.getD (SBOX.getD x 0) 0 = x := by decide!

theorem sbox_inv_sbox : ∀ x < 256, SBOX.getD (INV_SBOX.getD x 0) 0 = x := by decide!

theorem sub_bytes_length (s : List Nat) : (sub_bytes s).length = s.length := by
  simp [sub_bytes]

theorem inv_sub_bytes_length (s : List Nat) : (inv_sub_bytes s).length = s.length := by
  simp [inv_sub_bytes]

theorem sub_bytes_bytes (s : List Nat) : Bytes (sub_bytes s) := by
  intro x hx
  simp only [sub_bytes, List.mem_map] at hx
  obtain ⟨y, -, rfl⟩ := hx
  exact sbox_lt y

theorem inv_sub_bytes_bytes (s : List Nat) : Bytes (inv_sub_bytes s) := by
  intro x hx
  simp only [inv_sub_bytes, List.mem_map] at hx
  obtain ⟨y, -, rfl⟩ := hx
  exact inv_sbox_lt y

theorem inv_sub_bytes_sub_bytes (s : List Nat) (h : Bytes s) :
    inv_sub_bytes (sub_bytes s) = s := by
  unfold inv_sub_bytes sub_bytes
  rw [List.map_map]
  conv_rhs => rw [← List.map_id s]
  apply List.map_congr_left
  intro x hx
  exact inv_sbox_sbox x (h x hx)

theorem sub_bytes_inv_sub_bytes (s : List Nat) (h : Bytes s) :
    sub_bytes (inv_sub_bytes s) = s := by
  unfold inv_sub_bytes sub_bytes
  rw [List.map_map]
  conv_rhs => rw [← List.map_id s]
  apply List.map_congr_left
  intro x hx
  exact sbox_inv_sbox x (h x hx)

theorem shift_rows_isBlock (s : List Nat) (h : IsBlock s) : IsBlock (shift_rows s) := by
  obtain ⟨hl, hb⟩ := h
  obtain ⟨s0, s1, s2, s3, s4, s5, s6, s7, s8, s9, s10, s11, s12, s13, s14, s15, rfl⟩ :=
    length_16_cases s hl
  refine ⟨rfl, ?_⟩
  simp only [Bytes, shift_rows, List.mem_cons, List.mem_singleton, forall_eq_or_imp, forall_eq,
    List.not_mem_nil, false_imp_iff, implies_true, and_true] at hb ⊢
  tauto

theorem inv_shift_rows_isBlock (s : List Nat) (h : IsBlock s) : IsBlock (inv_shift_rows s) := by
  obtain ⟨hl, hb⟩ := h
  obtain ⟨s0, s1, s2, s3, s4, s5, s6, s7, s8, s9, s10, s11, s12, s13, s14, s15, rfl⟩ :=
    length_16_cases s hl
  refine ⟨rfl, ?_⟩
  simp only [Bytes, inv_shift_rows, List.mem_cons, List.mem_singleton, forall_eq_or_imp,
    forall_eq, List.not_mem_nil, false_imp_iff, implies_true, and_true] at hb ⊢
  tauto

theorem inv_shift_rows_shift_rows (s : List Nat) (h : s.length = 16) :
    inv_shift_rows (shift_rows s) = s := by
  obtain ⟨s0, s1, s2, s3, s4, s5, s6, s7, s8, s9, s10, s11, s12, s13, s14, s15, rfl⟩ :=
    length_16_cases s h
  rfl

theorem shift_rows_inv_shift_rows (s : List Nat) (h : s.length = 16) :
    shift_rows (inv_shift_rows s) = s := by
  obtain ⟨s0, s1, s2, s3, s4, s5, s6, s7, s8, s9, s10, s11, s12, s13, s14, s15, rfl⟩ :=
    length_16_cases s h
  rfl

theorem mix_column_bytes (a b c d : Nat) (ha : a < 256) (hb : b < 256) (hc : c < 256)
    (hd : d < 256) : Bytes (mix_column a b c d) := by
  have x8 : ∀ {x y : Nat}, x < 256 → y < 256 → x ^^^ y < 256 := fun hx hy =>
    Nat.xor_lt_two_pow (n := 8) hx hy
  obtain ⟨a2, a3, -⟩ := galois_multiply_lt a ha
  obtain ⟨b2, b3, -⟩ := galois_multiply_lt b hb
  obtain ⟨c2, c3, -⟩ := galois_multiply_lt c hc
  obtain ⟨d2, d3, -⟩ := galois_multiply_lt d hd
  intro x hx
  simp only [mix_column, List.mem_cons, List.mem_singleton, List.not_mem_nil, or_false] at hx
  rcases hx with rfl | rfl | rfl | rfl
  · exact x8 (x8 (x8 a2 b3) hc) hd
  · exact x8 (x8 (x8 ha b2) c3) hd
  · exact x8 (x8 (x8 ha hb) c2) d3
  · exact x8 (x8 (x8 a3 hb) hc) d2

theorem inv_mix_column_bytes (a b c d : Nat) (ha : a < 256) (hb : b < 256) (hc : c < 256)
    (hd : d < 256) : Bytes (inv_mix_column a b c d) := by
  have x8 : ∀ {x y : Nat}, x < 256 → y < 256 → x ^^^ y < 256 := fun hx hy =>
    Nat.xor_lt_two_pow (n := 8) hx hy
  obtain ⟨-, -, a9, a11, a13, a14⟩ := galois_multiply_lt a ha
  obtain ⟨-, -, b9, b11, b13, b14⟩ := galois_multiply_lt b hb
  obtain ⟨-, -, c9, c11, c13, c14⟩ := galois_multiply_lt c hc
  obtain ⟨-, -, d9, d11, d13, d14⟩ := galois_multiply_lt d hd
  intro x hx
  simp only [inv_mix_column, List.mem_cons, List.mem_singleton, List.not_mem_nil, or_false] at hx
  rcases hx with rfl | rfl | rfl | rfl
  · exact x8 (x8 (x8 a14 b11) c13) d9
  · exact x8 (x8 (x8 a9 b14) c11) d13
  · exact x8 (x8 (x8 a13 b9) c14) d11
  · exact x8 (x8 (x8 a11 b13) c9) d14

theorem bytes_append {u v : List Nat} (hu : Bytes u) (hv : Bytes v) : Bytes (u ++ v) := by
  intro x hx
  rcases List.mem_append.mp hx with h | h
  · exact hu x h
  · exact hv x h

theorem bytes_16 {s0 s1 s2 s3 s4 s5 s6 s7 s8 s9 s10 s11 s12 s13 s14 s15 : Nat}
    (h : Bytes [s0, s1, s2, s3, s4, s5, s6, s7, s8, s9, s10, s11, s12, s13, s14, s15]) :
    (s0 < 256 ∧ s1 < 256 ∧ s2 < 256 ∧ s3 < 256) ∧ (s4 < 256 ∧ s5 < 256 ∧ s6 < 256 ∧ s7 < 256) ∧
    (s8 < 256 ∧ s9 < 256 ∧ s10 < 256 ∧ s11 < 256) ∧
    (s12 < 256 ∧ s13 < 256 ∧ s14 < 256 ∧ s15 < 256) := by
  simp only [Bytes, List.mem_cons, List.mem_singleton, forall_eq_or_imp, forall_eq,
    List.not_mem_nil, false_imp_iff, implies_true, and_true] at h
  tauto

theorem mix_columns_isBlock (s : List Nat) (h : IsBlock s) : IsBlock (mix_columns s) := by
  obtain ⟨hl, hb⟩ := h
  obtain ⟨s0, s1, s2, s3, s4, s5, s6, s7, s8, s9, s10, s11, s12, s13, s14, s15, rfl⟩ :=
    length_16_cases s hl
  obtain ⟨⟨h0, h1, h2, h3⟩, ⟨h4, h5, h6, h7⟩, ⟨h8, h9, h10, h11⟩, ⟨h12, h13, h14, h15⟩⟩ :=
    bytes_16 hb
  refine ⟨rfl, ?_⟩
  unfold mix_columns
  exact bytes_append (bytes_append (bytes_append (mix_column_bytes _ _ _ _ h0 h1 h2 h3)
    (mix_column_bytes _ _ _ _ h4 h5 h6 h7)) (mix_column_bytes _ _ _ _ h8 h9 h10 h11))
    (mix_column_bytes _ _ _ _ h12 h13 h14 h15)

theorem inv_mix_columns_isBlock (s : List Nat) (h : IsBlock s) : IsBlock (inv_mix_columns s) := by
  obtain ⟨hl, hb⟩ := h
  obtain ⟨s0, s1, s2, s3, s4, s5, s6, s7, s8, s9, s10, s11, s12, s13, s14, s15, rfl⟩ :=
    length_16_cases s hl
  obtain ⟨⟨h0, h1, h2, h3⟩, ⟨h4, h5, h6, h7⟩, ⟨h8, h9, h10, h11⟩, ⟨h12, h13, h14, h15⟩⟩ :=
    bytes_16 hb
  refine ⟨rfl, ?_⟩
  unfold inv_mix_columns
  exact bytes_append (bytes_append (bytes_append (inv_mix_column_bytes _ _ _ _ h0 h1 h2 h3)
    (inv_mix_column_bytes _ _ _ _ h4 h5 h6 h7)) (inv_mix_column_bytes _ _ _ _ h8 h9 h10 h11))
    (inv_mix_column_bytes _ _ _ _ h12 h13 h14 h15)

theorem inv_mix_columns_mix_columns (s : List Nat) (h : IsBlock s) :
    inv_mix_columns (mix_columns s) = s := by
  obtain ⟨hl, hb⟩ := h
  obtain ⟨s0, s1, s2, s3, s4, s5, s6, s7, s8, s9, s10, s11, s12, s13, s14, s15, rfl⟩ :=
    length_16_cases s hl
  obtain ⟨⟨h0, h1, h2, h3⟩, ⟨h4, h5, h6, h7⟩, ⟨h8, h9, h10, h11⟩, ⟨h12, h13, h14, h15⟩⟩ :=
    bytes_16 hb
  simp only [mix_columns, mix_column, List.cons_append, List.nil_append, inv_mix_columns]
  rw [inv_mix_column_mix_column _ _ _ _ h0 h1 h2 h3, inv_mix_column_mix_column _ _ _ _ h4 h5 h6 h7,
    inv_mix_column_mix_column _ _ _ _ h8 h9 h10 h11,
    inv_mix_column_mix_column _ _ _ _ h12 h13 h14 h15]
  rfl

theorem mix_columns_inv_mix_columns (s : List Nat) (h : IsBlock s) :
    mix_columns (inv_mix_columns s) = s := by
  obtain ⟨hl, hb⟩ := h
  obtain ⟨s0, s1, s2, s3, s4, s5, s6, s7, s8, s9, s10, s11, s12, s13, s14, s15, rfl⟩ :=
    length_16_cases s hl
  obtain ⟨⟨h0, h1, h2, h3⟩, ⟨h4, h5, h6, h7⟩, ⟨h8, h9, h10, h11⟩, ⟨h12, h13, h14, h15⟩⟩ :=
    bytes_16 hb
  simp only [inv_mix_columns, inv_mix_column, List.cons_append, List.nil_append, mix_columns]
  rw [mix_column_inv_mix_column _ _ _ _ h0 h1 h2 h3, mix_column_inv_mix_column _ _ _ _ h4 h5 h6 h7,
    mix_column_inv_mix_column _ _ _ _ h8 h9 h10 h11,
    mix_column_inv_mix_column _ _ _ _ h12 h13 h14 h15]
  rfl

end AESCipher

/-! ## Round keys, block encryption and block decryption -/

namespace AESCipher

theorem add_round_key_length (self : AESCipher) (s : List Nat) (round : Nat) :
    (self.add_round_key s round).length = s.length := by
  simp [add_round_key]

theorem add_round_key_isBlock (self : AESCipher) (hk : Bytes self.key_schedule)
    (s : List Nat) (round : Nat) (h : IsBlock s) : IsBlock (self.add_round_key s round) := by
  refine ⟨by rw [add_round_key_length]; exact h.1, ?_⟩
  intro x hx
  obtain ⟨i, hi, rfl⟩ := List.getElem_of_mem hx
  simp only [add_round_key, List.getElem_mapIdx]
  have hi' : i < s.length := by simpa [add_round_key] using hi
  exact Nat.xor_lt_two_pow (n := 8) (h.2 _ (List.getElem_mem hi'))
    (getD_lt_of_bytes _ hk _)

theorem add_round_key_twice (self : AESCipher) (s : List Nat) (round : Nat) :
    self.add_round_key (self.add_round_key s round) round = s := by
  apply List.ext_getElem
  · simp [add_round_key]
  · intro i h1 h2
    simp only [add_round_key, List.getElem_mapIdx]
    rw [Nat.xor_assoc, Nat.xor_self, Nat.xor_zero]

/-- One main round of `encrypt_block`. -/
theorem round_isBlock (self : AESCipher) (hk : Bytes self.key_schedule) (s : List Nat)
    (round : Nat) (h : IsBlock s) :
    IsBlock (self.add_round_key (mix_columns (shift_rows (sub_bytes s))) round) :=
  add_round_key_isBlock self hk _ _
    (mix_columns_isBlock _ (shift_rows_isBlock _ ⟨by rw [sub_bytes_length]; exact h.1,
      sub_bytes_bytes _⟩))

theorem inv_round_round (self : AESCipher) (s : List Nat) (round : Nat) (h : IsBlock s) :
    inv_sub_bytes (inv_shift_rows (inv_mix_columns (self.add_round_key
      (self.add_round_key (mix_columns (shift_rows (sub_bytes s))) round) round))) = s := by
  have h1 : IsBlock (sub_bytes s) := ⟨by rw [sub_bytes_length]; exact h.1, sub_bytes_bytes _⟩
  rw [add_round_key_twice, inv_mix_columns_mix_columns _ (shift_rows_isBlock _ h1),
    inv_shift_rows_shift_rows _ h1.1, inv_sub_bytes_sub_bytes _ h.2]

theorem inv_round_isBlock (self : AESCipher) (hk : Bytes self.key_schedule) (s : List Nat)
    (round : Nat) (h : IsBlock s) :
    IsBlock (inv_sub_bytes (inv_shift_rows (inv_mix_columns (self.add_round_key s round)))) := by
  have h1 := inv_shift_rows_isBlock _
    (inv_mix_columns_isBlock _ (add_round_key_isBlock self hk s round h))
  exact ⟨by rw [inv_sub_bytes_length]; exact h1.1, inv_sub_bytes_bytes _⟩

theorem round_inv_round (self : AESCipher) (hk : Bytes self.key_schedule) (s : List Nat)
    (round : Nat) (h : IsBlock s) :
    self.add_round_key (mix_columns (shift_rows (sub_bytes
      (inv_sub_bytes (inv_shift_rows (inv_mix_columns (self.add_round_key s round))))))) round
      = s := by
  have h1 := add_round_key_isBlock self hk s round h
  have h2 := inv_mix_columns_isBlock _ h1
  have h3 := inv_shift_rows_isBlock _ h2
  rw [sub_bytes_inv_sub_bytes _ h3.2, shift_rows_inv_shift_rows _ h2.1,
    mix_columns_inv_mix_columns _ h1, add_round_key_twice]

theorem encrypt_block_isBlock (self : AESCipher) (hk : Bytes self.key_schedule)
    (x : List Nat) (h : IsBlock x) : IsBlock (self.encrypt_block x) := by
  have h0 := add_round_key_isBlock self hk x 0 h
  have h1 := round_isBlock self hk _ 1 h0
  have h2 := round_isBlock self hk _ 2 h1
  have h3 := round_isBlock self hk _ 3 h2
  exact add_round_key_isBlock self hk _ _
    (shift_rows_isBlock _ ⟨by rw [sub_bytes_length]; exact h3.1, sub_bytes_bytes _⟩)

theorem decrypt_block_isBlock (self : AESCipher) (hk : Bytes self.key_schedule)
    (x : List Nat) (h : IsBlock x) : IsBlock (self.decrypt_block x) := by
  have h4 := inv_shift_rows_isBlock _ (add_round_key_isBlock self hk x NUM_ROUNDS h)
  have h4' : IsBlock (inv_sub_bytes (inv_shift_rows (self.add_round_key x NUM_ROUNDS))) :=
    ⟨by rw [inv_sub_bytes_length]; exact h4.1, inv_sub_bytes_bytes _⟩
  have h3 := inv_round_isBlock self hk _ 3 h4'
  have h2 := inv_round_isBlock self hk _ 2 h3
  have h1 := inv_round_isBlock self hk _ 1 h2
  exact add_round_key_isBlock self hk _ 0 h1

/-- Block level: `decrypt_block` undoes `encrypt_block` under any byte-valued schedule. -/
theorem decrypt_block_encrypt_block (self : AESCipher) (hk : Bytes self.key_schedule)
    (x : List Nat) (h : IsBlock x) : self.decrypt_block (self.encrypt_block x) = x := by
  have h0 := add_round_key_isBlock self hk x 0 h
  have h1 := round_isBlock self hk _ 1 h0
  have h2 := round_isBlock self hk _ 2 h1
  have h3 := round_isBlock self hk _ 3 h2
  have h3' : IsBlock (sub_bytes (self.add_round_key (mix_columns (shift_rows (sub_bytes
      (self.add_round_key (mix_columns (shift_rows (sub_bytes (self.add_round_key
        (mix_columns (shift_rows (sub_bytes (self.add_round_key x 0)))) 1)))) 2)))) 3)) :=
    ⟨by rw [sub_bytes_length]; exact h3.1, sub_bytes_bytes _⟩
  show self.add_round_key (List.foldl _ (inv_sub_bytes (inv_shift_rows (self.add_round_key
    (self.add_round_key (shift_rows (sub_bytes (List.foldl _ (self.add_round_key x 0) [1, 2, 3])))
      NUM_ROUNDS) NUM_ROUNDS))) [3, 2, 1]) 0 = x
  simp only [List.foldl]
  rw [add_round_key_twice, inv_shift_rows_shift_rows _ h3'.1, inv_sub_bytes_sub_bytes _ h3.2,
    inv_round_round self _ 3 h2, inv_round_round self _ 2 h1, inv_round_round self _ 1 h0,
    add_round_key_twice]

/-- Block level: `encrypt_block` undoes `decrypt_block` under any byte-valued schedule. -/
theorem encrypt_block_decrypt_block (self : AESCipher) (hk : Bytes self.key_schedule)
    (x : List Nat) (h : IsBlock x) : self.encrypt_block (self.decrypt_block x) = x := by
  have h4 := add_round_key_isBlock self hk x NUM_ROUNDS h
  have h4s := inv_shift_rows_isBlock _ h4
  have h4' : IsBlock (inv_sub_bytes (inv_shift_rows (self.add_round_key x NUM_ROUNDS))) :=
    ⟨by rw [inv_sub_bytes_length]; exact h4s.1, inv_sub_bytes_bytes _⟩
  have h3 := inv_round_isBlock self hk _ 3 h4'
  have h2 := inv_round_isBlock self hk _ 2 h3
  show self.add_round_key (shift_rows (sub_bytes (List.foldl _ (self.add_round_key
    (self.add_round_key (List.foldl _ (inv_sub_bytes (inv_shift_rows
      (self.add_round_key x NUM_ROUNDS))) [3, 2, 1]) 0) 0) [1, 2, 3]))) NUM_ROUNDS = x
  rw [add_round_key_twice]
  simp only [List.foldl]
  rw [round_inv_round self hk _ 1 h2, round_inv_round self hk _ 2 h3,
    round_inv_round self hk _ 3 h4', sub_bytes_inv_sub_bytes _ h4s.2,
    shift_rows_inv_shift_rows _ h4.1, add_round_key_twice]

theorem prepare_key_bytes (t : Target) (user_key : List Nat) :
    Bytes (prepare_key t user_key) := by
  intro x hx
  simp only [prepare_key, List.mem_map] at hx
  obtain ⟨i, -, rfl⟩ := hx
  split
  · exact Nat.mod_lt _ (by norm_num)
  · exact Nat.and_lt_two_pow (n := 8) _ (by norm_num)

theorem expand_key_bytes (key : List Nat) (h : Bytes key) : Bytes (expand_key key) := by
  have step : ∀ (ks : List Nat) (round : Nat), round ≤ 4 → Bytes ks →
      Bytes (ks ++ (List.range 16).map
        (fun i => SBOX.getD (rotate_left (ks.getD ((round - 1) * 16 + i) 0) round) 0
                    ^^^ round)) := by
    intro ks round hr hks
    apply bytes_append hks
    intro x hx
    simp only [List.mem_map] at hx
    obtain ⟨i, -, rfl⟩ := hx
    exact Nat.xor_lt_two_pow (n := 8) (sbox_lt _) (by omega)
  show Bytes (List.foldl _ key [1, 2, 3, 4])
  simp only [List.foldl]
  exact step _ 4 (by omega) (step _ 3 (by omega) (step _ 2 (by omega) (step _ 1 (by omega) h)))

/-- Every cipher built by the constructor holds a byte-valued schedule. -/
theorem new_key_schedule_bytes (t : Target) (user_key : List Nat) :
    Bytes (new t user_key).key_schedule :=
  expand_key_bytes _ (prepare_key_bytes t user_key)

end AESCipher

/-! ## Whole buffers: the block loop and the padding -/

namespace AESCipher

theorem block_at_length (data : List Nat) (i : Nat) : (block_at data i).length = 16 := by
  simp [block_at, BLOCK_SIZE]

theorem block_at_isBlock (data : List Nat) (h : Bytes data) (i : Nat) :
    IsBlock (block_at data i) := by
  refine ⟨block_at_length data i, ?_⟩
  intro x hx
  simp only [block_at, List.mem_map] at hx
  obtain ⟨j, -, rfl⟩ := hx
  exact getD_lt_of_bytes data h _

theorem map_getD_range (l : List Nat) : (List.range l.length).map (fun j => l.getD j 0) = l := by
  apply List.ext_getElem
  · simp
  · intro i h1 h2
    simp only [List.getElem_map, List.getElem_range]
    exact List.getD_eq_getElem _ _ h2

theorem flatten_range_succ (g : Nat → List Nat) (m : Nat) :
    ((List.range (m + 1)).map g).flatten = ((List.range m).map g).flatten ++ g m := by
  rw [List.range_succ, List.map_append, List.flatten_append]
  simp

theorem flatten_blocks_length (g : Nat → List Nat) (hg : ∀ k, (g k).length = 16) (m : Nat) :
    ((List.range m).map g).flatten.length = 16 * m := by
  induction m with
  | zero => simp
  | succ m ih => rw [flatten_range_succ, List.length_append, ih, hg]; omega

theorem block_at_append_left (u v : List Nat) (i : Nat) (h : i + 16 ≤ u.length) :
    block_at (u ++ v) i = block_at u i := by
  unfold block_at
  apply List.map_congr_left
  intro j hj
  have hj' : j < 16 := by simpa [BLOCK_SIZE] using hj
  exact List.getD_append _ _ _ _ (by omega)

theorem block_at_append_right (u v : List Nat) (hv : v.length = 16) :
    block_at (u ++ v) u.length = v := by
  unfold block_at
  conv_rhs => rw [← map_getD_range v]
  rw [hv]
  apply List.map_congr_left
  intro j _
  rw [List.getD_append_right _ _ _ _ (by omega)]
  congr 1
  omega

theorem block_at_flatten (g : Nat → List Nat) (hg : ∀ k, (g k).length = 16) (m k : Nat)
    (hk : k < m) : block_at ((List.range m).map g).flatten (16 * k) = g k := by
  induction m with
  | zero => omega
  | succ m ih =>
    rw [flatten_range_succ]
    have hl := flatten_blocks_length g hg m
    by_cases h : k < m
    · rw [block_at_append_left _ _ _ (by omega)]
      exact ih h
    · have hkm : k = m := by omega
      subst hkm
      rw [← hl]
      exact block_at_append_right _ _ (hg k)

theorem getD_take (l : List Nat) (n i : Nat) (h : i < n) : (l.take n).getD i 0 = l.getD i 0 := by
  simp [List.getD_eq_getElem?_getD, List.getElem?_take, h]

theorem flatten_block_at (m : Nat) : ∀ (data : List Nat), data.length = 16 * m →
    ((List.range m).map (fun k => block_at data (16 * k))).flatten = data := by
  induction m with
  | zero =>
    intro data h
    have : data = [] := List.length_eq_zero.mp (by omega)
    simp [this]
  | succ m ih =>
    intro data h
    rw [flatten_range_succ]
    have h1 : ((List.range m).map (fun k => block_at data (16 * k)))
        = (List.range m).map (fun k => block_at (data.take (16 * m)) (16 * k)) := by
      apply List.map_congr_left
      intro k hk
      have hk' : k < m := List.mem_range.mp hk
      unfold block_at
      apply List.map_congr_left
      intro j hj
      have hj' : j < 16 := by simpa [BLOCK_SIZE] using hj
      exact (getD_take _ _ _ (by omega)).symm
    rw [h1, ih (data.take (16 * m)) (by rw [List.length_take]; omega)]
    have h2 : block_at data (16 * m) = data.drop (16 * m) := by
      conv_lhs => rw [← List.take_append_drop (16 * m) data]
      have hl : (data.take (16 * m)).length = 16 * m := by rw [List.length_take]; omega
      have := block_at_append_right (data.take (16 * m)) (data.drop (16 * m))
        (by rw [List.length_drop]; omega)
      rwa [hl] at this
    rw [h2, List.take_append_drop]

theorem process_blocks_eq (f : List Nat → List Nat) (data : List Nat) (m : Nat)
    (h : data.length = 16 * m) :
    process_blocks f data = ((List.range m).map (fun k => f (block_at data (16 * k)))).flatten := by
  unfold process_blocks
  have : (data.length + (BLOCK_SIZE - 1)) / BLOCK_SIZE = m := by
    simp only [BLOCK_SIZE]; omega
  rw [this]
  rfl

theorem process_blocks_length (f : List Nat → List Nat)
    (hf : ∀ x, IsBlock x → IsBlock (f x)) (data : List Nat) (hb : Bytes data) (m : Nat)
    (h : data.length = 16 * m) : (process_blocks f data).length = 16 * m := by
  rw [process_blocks_eq f data m h]
  exact flatten_blocks_length _ (fun k => (hf _ (block_at_isBlock data hb _)).1) m

theorem process_blocks_bytes (f : List Nat → List Nat)
    (hf : ∀ x, IsBlock x → IsBlock (f x)) (data : List Nat) (hb : Bytes data) :
    Bytes (process_blocks f data) := by
  intro x hx
  simp only [process_blocks, List.mem_flatten, List.mem_map] at hx
  obtain ⟨l, ⟨k, -, rfl⟩, hxl⟩ := hx
  exact (hf _ (block_at_isBlock data hb _)).2 x hxl

/-- Undoing a block loop: when `g` undoes `f` on every block, the loop with `g`
undoes the loop with `f` on every buffer of whole blocks. -/
theorem process_blocks_inverse (f g : List Nat → List Nat)
    (hf : ∀ x, IsBlock x → IsBlock (f x)) (hgf : ∀ x, IsBlock x → g (f x) = x)
    (data : List Nat) (hb : Bytes data) (m : Nat) (h : data.length = 16 * m) :
    process_blocks g (process_blocks f data) = data := by
  have hl := process_blocks_length f hf data hb m h
  rw [process_blocks_eq g _ m hl, process_blocks_eq f data m h]
  have hg16 : ∀ k, (f (block_at data (16 * k))).length = 16 :=
    fun k => (hf _ (block_at_isBlock data hb _)).1
  have : (List.range m).map (fun k => g (block_at
        ((List.range m).map (fun k => f (block_at data (16 * k)))).flatten (16 * k)))
      = (List.range m).map (fun k => block_at data (16 * k)) := by
    apply List.map_congr_left
    intro k hk
    rw [block_at_flatten _ hg16 m k (List.mem_range.mp hk)]
    exact hgf _ (block_at_isBlock data hb _)
  rw [this]
  exact flatten_block_at m data h

theorem foldl_push_eq_replicate (n x : Nat) (data : List Nat) :
    (List.range n).foldl (fun padded _ => padded ++ [x]) data = data ++ List.replicate n x := by
  induction n with
  | zero => simp
  | succ n ih =>
    rw [List.range_succ, List.foldl_append, ih, List.replicate_succ']
    simp

theorem add_padding_eq (data : List Nat) :
    add_padding data
      = data ++ List.replicate (16 - data.length % 16) (16 - data.length % 16) := by
  simp only [add_padding, BLOCK_SIZE, foldl_push_eq_replicate]

theorem add_padding_length (data : List Nat) :
    (add_padding data).length = 16 * (data.length / 16 + 1) := by
  simp only [add_padding_eq, List.length_append, List.length_replicate]
  omega

theorem add_padding_bytes (data : List Nat) (h : Bytes data) : Bytes (add_padding data) := by
  rw [add_padding_eq]
  apply bytes_append h
  intro x hx
  rw [List.eq_of_mem_replicate hx]
  omega

theorem getD_append_replicate (data : List Nat) (p i : Nat) (h1 : data.length ≤ i)
    (h2 : i < data.length + p) : (data ++ List.replicate p p).getD i 0 = p := by
  rw [List.getD_append_right _ _ _ _ h1, List.getD_eq_getElem?_getD, List.getElem?_replicate]
  have h3 : i - data.length < p := by omega
  rw [if_pos h3]
  rfl

/-- The padding is removed again without a diagnostic. -/
theorem remove_padding_add_padding (data : List Nat) :
    remove_padding (add_padding data) = ⟨data, none⟩ := by
  have hp1 : 1 ≤ 16 - data.length % 16 := by omega
  have hp2 : 16 - data.length % 16 ≤ 16 := by omega
  generalize hp : 16 - data.length % 16 = p at hp1 hp2
  have hpad : add_padding data = data ++ List.replicate p p := by
    rw [add_padding_eq, hp]
  have hlen : (data ++ List.replicate p p).length = data.length + p := by simp
  rw [hpad]
  unfold remove_padding
  have hne : data ++ List.replicate p p ≠ [] := by
    intro h
    have := congrArg List.length h
    rw [hlen] at this
    simp at this
    omega
  have hlast : (data ++ List.replicate p p).getD ((data ++ List.replicate p p).length - 1) 0
      = p := by
    rw [hlen]
    exact getD_append_replicate data p _ (by omega) (by omega)
  have hany : (List.range' 1 p).any
      (fun i => (data ++ List.replicate p p).getD ((data ++ List.replicate p p).length - i) 0
        ≠ p) = false := by
    rw [List.any_eq_false]
    intro i hi
    have hi' := List.mem_range'_1.mp hi
    rw [hlen]
    simp only [ne_eq, decide_not, Bool.not_eq_true', decide_eq_false_iff_not, not_not]
    exact getD_append_replicate data p _ (by omega) (by omega)
  simp only [hne, if_false, hlast, BLOCK_SIZE, hany]
  have h1 : ¬ (p > 16 ∨ p = 0) := by omega
  simp only [h1, if_false, Bool.false_eq_true]
  rw [hlen, Nat.add_sub_cancel, List.take_left]

end AESCipher

/-! ## The block cipher on whole buffers -/

namespace AESCipher

theorem encrypt_value (self : AESCipher) (b : List Nat) (hne : b ≠ []) :
    (self.encrypt b).value = process_blocks self.encrypt_block (add_padding b) := by
  simp [encrypt, hne]

theorem decrypt_whole_blocks (self : AESCipher) (c : List Nat) (m : Nat) (hm : 0 < m)
    (hc : c.length = 16 * m) :
    self.decrypt c = remove_padding (process_blocks self.decrypt_block c) := by
  have h1 : c ≠ [] := by
    intro h
    rw [h] at hc
    simp at hc
    omega
  have h2 : ¬ (c.length % BLOCK_SIZE ≠ 0) := by
    simp only [BLOCK_SIZE]; omega
  simp only [decrypt, h1, h2, if_false]

/-- Round trip on buffers for every byte-valued schedule. -/
theorem decrypt_encrypt_of_bytes (self : AESCipher) (hk : Bytes self.key_schedule)
    (b : List Nat) (hb : Bytes b) (hne : b ≠ []) :
    self.decrypt (self.encrypt b).value = ⟨b, none⟩ := by
  have hP := add_padding_length b
  have hPb := add_padding_bytes b hb
  rw [encrypt_value self b hne,
    decrypt_whole_blocks self _ (b.length / 16 + 1) (by omega)
      (process_blocks_length _ (encrypt_block_isBlock self hk) _ hPb _ hP),
    process_blocks_inverse _ _ (encrypt_block_isBlock self hk)
      (decrypt_block_encrypt_block self hk) _ hPb _ hP]
  exact remove_padding_add_padding b

theorem remove_padding_warning (data : List Nat)
    (h : (remove_padding data).diagnostic ≠ none) : (remove_padding data).value = data := by
  by_cases h1 : data = []
  · simp [remove_padding, h1]
  · by_cases h2 : data.getD (data.length - 1) 0 > BLOCK_SIZE ∨ data.getD (data.length - 1) 0 = 0
    · simp only [remove_padding, h1, h2, if_true, if_false]
    · by_cases h3 : (List.range' 1 (data.getD (data.length - 1) 0)).any
          (fun i => data.getD (data.length - i) 0 ≠ data.getD (data.length - 1) 0) = true
      · simp only [remove_padding, h1, h2, h3, if_true, if_false]
      · simp only [remove_padding, h1, h2, h3, if_false] at h
        exact absurd rfl h

/-- When `remove_padding` hands back a shorter buffer, the input was that buffer
followed by `p` bytes of value `p`. -/
theorem remove_padding_shorter (data b : List Nat) (h16 : 16 ≤ data.length)
    (h : (remove_padding data).value = b) (hlt : b.length < data.length) :
    ∃ p, data = b ++ List.replicate p p := by
  unfold remove_padding at h
  dsimp only at h
  split at h
  · simp only at h
    rw [h] at hlt
    omega
  · split at h
    · simp only at h
      rw [h] at hlt
      omega
    · split at h
      · simp only at h
        rw [h] at hlt
        omega
      · rename_i h1 h2 h3
        simp only at h
        generalize hp : data.getD (data.length - 1) 0 = p at h h2 h3
        simp only [BLOCK_SIZE] at h2
        have hp16 : p ≤ 16 := by omega
        have hall : ∀ i, 1 ≤ i → i ≤ p → data.getD (data.length - i) 0 = p := by
          intro i hi1 hi2
          by_contra hcon
          apply h3
          rw [List.any_eq_true]
          exact ⟨i, List.mem_range'_1.mpr ⟨hi1, by omega⟩, by simpa using hcon⟩
        refine ⟨p, ?_⟩
        have hdrop : data.drop (data.length - p) = List.replicate p p := by
          rw [List.eq_replicate_iff]
          refine ⟨by rw [List.length_drop]; omega, ?_⟩
          intro x hx
          obtain ⟨j, hj, rfl⟩ := List.getElem_of_mem hx
          rw [List.length_drop] at hj
          rw [List.getElem_drop]
          have := hall (p - j) (by omega) (by omega)
          have e : data.length - (p - j) = data.length - p + j := by omega
          rw [e, List.getD_eq_getElem _ _ (by omega)] at this
          exact this
        rw [← h, ← hdrop, List.take_append_drop]

theorem getD_set_self (c : List Nat) (i v : Nat) (h : i < c.length) :
    (c.set i v).getD i 0 = v := by
  rw [List.getD_eq_getElem _ _ (by rw [List.length_set]; exact h)]
  simp

theorem bytes_set (c : List Nat) (i v : Nat) (hc : Bytes c) (hv : v < 256) :
    Bytes (c.set i v) := by
  intro x hx
  rcases List.mem_or_eq_of_mem_set hx with h | h
  · exact hc x h
  · rw [h]; exact hv

/-- A ciphertext whose last byte was replaced never decrypts to the plaintext. -/
theorem decrypt_tampered_ne (self : AESCipher) (hk : Bytes self.key_schedule)
    (b : List Nat) (hb : Bytes b) (hne : b ≠ []) (v : Nat) (hv : v < 256)
    (hdiff : v ≠ (self.encrypt b).value.getD ((self.encrypt b).value.length - 1) 0) :
    (self.decrypt ((self.encrypt b).value.set ((self.encrypt b).value.length - 1) v)).value
      ≠ b := by
  have hP := add_padding_length b
  have hPb := add_padding_bytes b hb
  rw [encrypt_value self b hne] at hdiff ⊢
  generalize hcdef : process_blocks self.encrypt_block (add_padding b) = c at hdiff ⊢
  have hcl : c.length = 16 * (b.length / 16 + 1) := by
    rw [← hcdef]
    exact process_blocks_length _ (encrypt_block_isBlock self hk) _ hPb _ hP
  have hcb : Bytes c := by
    rw [← hcdef]
    exact process_blocks_bytes _ (encrypt_block_isBlock self hk) _ hPb
  have hc'l : (c.set (c.length - 1) v).length = 16 * (b.length / 16 + 1) := by
    rw [List.length_set]; exact hcl
  have hc'b := bytes_set c (c.length - 1) v hcb hv
  rw [decrypt_whole_blocks self _ (b.length / 16 + 1) (by omega) hc'l]
  intro hcon
  have hDl := process_blocks_length _ (decrypt_block_isBlock self hk) _ hc'b _ hc'l
  obtain ⟨p, hD⟩ := remove_padding_shorter _ b (by omega) hcon (by omega)
  have hp : p = 16 - b.length % 16 := by
    have := congrArg List.length hD
    rw [hDl, List.length_append, List.length_replicate] at this
    omega
  have hDP : process_blocks self.decrypt_block (c.set (c.length - 1) v) = add_padding b := by
    rw [hD, hp, add_padding_eq]
  have hcc : c.set (c.length - 1) v = c := by
    have h1 := process_blocks_inverse _ _ (decrypt_block_isBlock self hk)
      (encrypt_block_decrypt_block self hk) _ hc'b _ hc'l
    rw [hDP, hcdef] at h1
    exact h1.symm
  apply hdiff
  have := getD_set_self c (c.length - 1) v (by omega)
  rw [hcc] at this
  exact this.symm

/-- C2: for every non-empty byte sequence `b` and every user key `k` (empty or not),
with one `AESCipher` built from `k`, `decrypt(encrypt(b))` returns exactly `b`, and
`decrypt` writes no diagnostic. -/
theorem decrypt_encrypt (t : Target) (k b : List Nat) (hb : Bytes b) (hne : b ≠ []) :
    (new t k).decrypt ((new t k).encrypt b).value = ⟨b, none⟩ :=
  decrypt_encrypt_of_bytes _ (new_key_schedule_bytes t k) b hb hne

/-- C4: for every non-empty plaintext `b` of length `n` and every key, the length of
`encrypt(b)` is `16 * ceil((n + 1) / 16)`; it is a multiple of 16 and exceeds `n` by
between 1 and 16 bytes. -/
theorem encrypt_length (t : Target) (k b : List Nat) (hb : Bytes b) (hne : b ≠ []) :
    ((new t k).encrypt b).value.length = 16 * ((b.length + 1 + 15) / 16) ∧
    ((new t k).encrypt b).value.length % 16 = 0 ∧
    b.length + 1 ≤ ((new t k).encrypt b).value.length ∧
    ((new t k).encrypt b).value.length ≤ b.length + 16 := by
  have h : ((new t k).encrypt b).value.length = 16 * (b.length / 16 + 1) := by
    rw [encrypt_value _ b hne]
    exact process_blocks_length _ (encrypt_block_isBlock _ (new_key_schedule_bytes t k)) _
      (add_padding_bytes b hb) _ (add_padding_length b)
  rw [h]
  omega

/-- C5: for every non-empty plaintext `b`, every key `k` and every byte `v` different
from the final byte of `c = encrypt(b)`, the result `r` of decrypting `c` with its final
byte replaced by `v` either comes from the invalid/corrupt-padding branch, which returns
the whole block-decrypted buffer, or is a buffer different from `b`; in no case is it `b`,
and whenever a padding warning is written the whole block-decrypted buffer is returned. -/
theorem decrypt_tampered (t : Target) (k b : List Nat) (hb : Bytes b) (hne : b ≠ [])
    (c : List Nat) (hc : c = ((new t k).encrypt b).value)
    (v : Nat) (hv : v < 256) (hdiff : v ≠ c.getD (c.length - 1) 0)
    (r : Outcome) (hr : r = (new t k).decrypt (c.set (c.length - 1) v)) :
    (((r.diagnostic = some .invalid_padding ∨ r.diagnostic = some .corrupt_padding) ∧
        r.value = process_blocks (new t k).decrypt_block (c.set (c.length - 1) v)) ∨
      r.value ≠ b) ∧
    r.value ≠ b ∧
    (r.diagnostic ≠ none →
      r.value = process_blocks (new t k).decrypt_block (c.set (c.length - 1) v)) := by
  subst hc hr
  have h := decrypt_tampered_ne _ (new_key_schedule_bytes t k) b hb hne v hv hdiff
  refine ⟨Or.inr h, h, ?_⟩
  have hl : (((new t k).encrypt b).value.set (((new t k).encrypt b).value.length - 1) v).length
      = 16 * (b.length / 16 + 1) := by
    rw [List.length_set, encrypt_value _ b hne]
    exact process_blocks_length _ (encrypt_block_isBlock _ (new_key_schedule_bytes t k)) _
      (add_padding_bytes b hb) _ (add_padding_length b)
  rw [decrypt_whole_blocks _ _ (b.length / 16 + 1) (by omega) hl]
  exact remove_padding_warning _

/-- C2 at the key "key" and the plaintext "Hi". -/
theorem decrypt_encrypt_witness :
    Bytes [72, 105] ∧ [72, 105] ≠ ([] : List Nat) ∧
    (new x86_64 [107, 101, 121]).decrypt ((new x86_64 [107, 101, 121]).encrypt [72, 105]).value
      = ⟨[72, 105], none⟩ :=
  ⟨by decide, by decide, decrypt_encrypt x86_64 [107, 101, 121] [72, 105] (by decide) (by decide)⟩

/-- C4 at the key "key" and a 16-byte plaintext: the ciphertext has 32 bytes. -/
theorem encrypt_length_witness :
    Bytes (List.replicate 16 7) ∧ List.replicate 16 7 ≠ ([] : List Nat) ∧
    ((new x86_64 [107, 101, 121]).encrypt (List.replicate 16 7)).value.length
      = 16 * (((List.replicate 16 7).length + 1 + 15) / 16) ∧
    ((new x86_64 [107, 101, 121]).encrypt (List.replicate 16 7)).value.length % 16 = 0 ∧
    (List.replicate 16 7).length + 1
      ≤ ((new x86_64 [107, 101, 121]).encrypt (List.replicate 16 7)).value.length ∧
    ((new x86_64 [107, 101, 121]).encrypt (List.replicate 16 7)).value.length
      ≤ (List.replicate 16 7).length + 16 :=
  ⟨by decide, by decide,
    encrypt_length x86_64 [107, 101, 121] (List.replicate 16 7) (by decide) (by decide)⟩

/-- C5 at the key "key", the plaintext "Hi" and the replacement byte 0. -/
theorem decrypt_tampered_witness :
    Bytes [72, 105] ∧ [72, 105] ≠ ([] : List Nat) ∧ 0 < 256 ∧
    (0 : Nat) ≠ ((new x86_64 [107, 101, 121]).encrypt [72, 105]).value.getD
      (((new x86_64 [107, 101, 121]).encrypt [72, 105]).value.length - 1) 0 ∧
    (((((new x86_64 [107, 101, 121]).decrypt (((new x86_64 [107, 101, 121]).encrypt [72, 105]).value.set (((new x86_64 [107, 101, 121]).encrypt [72, 105]).value.length - 1) 0)).diagnostic
          = some .invalid_padding ∨
        ((new x86_64 [107, 101, 121]).decrypt (((new x86_64 [107, 101, 121]).encrypt [72, 105]).value.set (((new x86_64 [107, 101, 121]).encrypt [72, 105]).value.length - 1) 0)).diagnostic
          = some .corrupt_padding) ∧
        ((new x86_64 [107, 101, 121]).decrypt (((new x86_64 [107, 101, 121]).encrypt [72, 105]).value.set (((new x86_64 [107, 101, 121]).encrypt [72, 105]).value.length - 1) 0)).value
          = process_blocks (new x86_64 [107, 101, 121]).decrypt_block
              (((new x86_64 [107, 101, 121]).encrypt [72, 105]).value.set (((new x86_64 [107, 101, 121]).encrypt [72, 105]).value.length - 1) 0)) ∨
      ((new x86_64 [107, 101, 121]).decrypt (((new x86_64 [107, 101, 121]).encrypt [72, 105]).value.set (((new x86_64 [107, 101, 121]).encrypt [72, 105]).value.length - 1) 0)).value
        ≠ [72, 105]) ∧
    ((new x86_64 [107, 101, 121]).decrypt (((new x86_64 [107, 101, 121]).encrypt [72, 105]).value.set (((new x86_64 [107, 101, 121]).encrypt [72, 105]).value.length - 1) 0)).value
      ≠ [72, 105] ∧
    (((new x86_64 [107, 101, 121]).decrypt (((new x86_64 [107, 101, 121]).encrypt [72, 105]).value.set (((new x86_64 [107, 101, 121]).encrypt [72, 105]).value.length - 1) 0)).diagnostic
        ≠ none →
      ((new x86_64 [107, 101, 121]).decrypt (((new x86_64 [107, 101, 121]).encrypt [72, 105]).value.set (((new x86_64 [107, 101, 121]).encrypt [72, 105]).value.length - 1) 0)).value
        = process_blocks (new x86_64 [107, 101, 121]).decrypt_block
            (((new x86_64 [107, 101, 121]).encrypt [72, 105]).value.set (((new x86_64 [107, 101, 121]).encrypt [72, 105]).value.length - 1) 0)) :=
  ⟨by decide, by decide, by decide, by decide,
    decrypt_tampered x86_64 [107, 101, 121] [72, 105] (by decide) (by decide) _ rfl 0
      (by decide) (by decide) _ rfl⟩

end AESCipher

/-! ## Maps, the priority queue and the tree of `build_tree` -/

namespace HuffmanCoder

open HuffmanNode

theorem map_get_map_set {V : Type} (m : List (Nat × V)) (k k' : Nat) (v dflt : V) :
    map_get (map_set m k v) k' dflt = if k' = k then v else map_get m k' dflt := by
  induction m with
  | nil => simp [map_set, map_get]
  | cons p rest ih =>
    obtain ⟨k0, v0⟩ := p
    unfold map_set
    by_cases h1 : k < k0
    · simp only [h1, if_true]
      by_cases h : k' = k
      · simp [map_get, h]
      · simp only [map_get, h, if_false]
    · simp only [h1, if_false]
      by_cases h2 : k = k0
      · subst h2
        by_cases h : k' = k
        · simp [map_get, h]
        · simp [map_get, h]
      · simp only [h2, if_false]
        by_cases h : k' = k0
        · have : ¬ k' = k := by omega
          subst h
          simp only [map_get, if_true, if_neg this]
        · simp only [map_get, h, if_false, ih]

theorem mem_keys_map_set {V : Type} (m : List (Nat × V)) (k x : Nat) (v : V) :
    x ∈ keys (map_set m k v) ↔ x = k ∨ x ∈ keys m := by
  induction m with
  | nil => simp [map_set, keys]
  | cons p rest ih =>
    obtain ⟨k0, v0⟩ := p
    unfold map_set
    by_cases h1 : k < k0
    · simp [h1, keys]
    · simp only [h1, if_false]
      by_cases h2 : k = k0
      · subst h2
        simp [keys]
      · simp only [h2, if_false]
        simp only [keys, List.map_cons, List.mem_cons] at ih ⊢
        rw [ih]
        tauto

theorem keys_map_set_sorted {V : Type} (m : List (Nat × V)) (k : Nat) (v : V)
    (h : (keys m).Pairwise (· < ·)) : (keys (map_set m k v)).Pairwise (· < ·) := by
  induction m with
  | nil => simp [map_set, keys]
  | cons p rest ih =>
    obtain ⟨k0, v0⟩ := p
    have h' := h
    simp only [keys, List.map_cons, List.pairwise_cons] at h'
    obtain ⟨hk0, hrest⟩ := h'
    unfold map_set
    by_cases h1 : k < k0
    · simp only [h1, if_true, keys, List.map_cons, List.pairwise_cons]
      refine ⟨?_, hk0, hrest⟩
      intro a ha
      rcases List.mem_cons.mp ha with rfl | ha
      · exact h1
      · exact Nat.lt_trans h1 (hk0 a ha)
    · simp only [h1, if_false]
      by_cases h2 : k = k0
      · subst h2
        simp only [if_true, keys, List.map_cons, List.pairwise_cons]
        exact ⟨hk0, hrest⟩
      · simp only [h2, if_false]
        show (k0 :: keys (map_set rest k v)).Pairwise (· < ·)
        rw [List.pairwise_cons]
        refine ⟨?_, ih hrest⟩
        intro a ha
        rcases (mem_keys_map_set rest k a v).mp ha with rfl | ha
        · omega
        · exact hk0 a ha

theorem count_frequencies_keys (input : List Nat) :
    (keys (count_frequencies input)).Pairwise (· < ·) ∧
    ∀ x, x ∈ keys (count_frequencies input) ↔ x ∈ input := by
  have gen : ∀ (input : List Nat) (m : List (Nat × Nat)), (keys m).Pairwise (· < ·) →
      (keys (input.foldl
        (fun m byte => map_set m byte ((map_get m byte 0 + 1) % 2 ^ 32)) m)).Pairwise (· < ·) ∧
      ∀ x, x ∈ keys (input.foldl
        (fun m byte => map_set m byte ((map_get m byte 0 + 1) % 2 ^ 32)) m)
          ↔ x ∈ keys m ∨ x ∈ input := by
    intro input
    induction input with
    | nil => intro m hm; simp [hm]
    | cons a rest ih =>
      intro m hm
      simp only [List.foldl_cons]
      obtain ⟨h1, h2⟩ := ih _ (keys_map_set_sorted m a ((map_get m a 0 + 1) % 2 ^ 32) hm)
      refine ⟨h1, ?_⟩
      intro x
      rw [h2, mem_keys_map_set, List.mem_cons]
      tauto
  obtain ⟨h1, h2⟩ := gen input [] (by simp [keys])
  refine ⟨h1, ?_⟩
  intro x
  rw [show count_frequencies input = input.foldl
    (fun m byte => map_set m byte ((map_get m byte 0 + 1) % 2 ^ 32)) [] from rfl, h2]
  simp [keys]

theorem sorted_bounded_length (l : List Nat) (n : Nat) (hs : l.Pairwise (· < ·))
    (hb : ∀ x ∈ l, x < n) : l.length ≤ n := by
  have hnd : l.Nodup := hs.imp (fun h => Nat.ne_of_lt h)
  rw [← List.toFinset_card_of_nodup hnd]
  calc l.toFinset.card ≤ (Finset.range n).card := by
        apply Finset.card_le_card
        intro x hx
        rw [List.mem_toFinset] at hx
        exact Finset.mem_range.mpr (hb x hx)
    _ = n := Finset.card_range n

theorem exists_min_frequency (q : List HuffmanNode) (h : q ≠ []) :
    ∃ i, i < q.length ∧ (q.getD i nullptr).frequency = min_frequency q := by
  induction q with
  | nil => exact absurd rfl h
  | cons n rest ih =>
    cases rest with
    | nil => exact ⟨0, by simp, by simp [min_frequency]⟩
    | cons n' rest' =>
      obtain ⟨i, hi, he⟩ := ih (by simp)
      show ∃ i, i < (n :: n' :: rest').length ∧ ((n :: n' :: rest').getD i nullptr).frequency
        = min n.frequency (min_frequency (n' :: rest'))
      by_cases hle : n.frequency ≤ min_frequency (n' :: rest')
      · exact ⟨0, by simp, by simp [Nat.min_eq_left hle]⟩
      · refine ⟨i + 1, by simpa using hi, ?_⟩
        rw [List.getD_cons_succ, he, Nat.min_eq_right (by omega)]

theorem top_index_lt (tie : List HuffmanNode → Nat) (q : List HuffmanNode) (h : q ≠ []) :
    top_index tie q < q.length := by
  obtain ⟨i, hi, he⟩ := exists_min_frequency q h
  have hmem : i ∈ top_candidates q := by
    simp only [top_candidates, List.mem_filter, List.mem_range]
    exact ⟨hi, by simpa using he⟩
  have hpos : 0 < (top_candidates q).length := List.length_pos_of_mem hmem
  have hidx : tie q % (top_candidates q).length < (top_candidates q).length :=
    Nat.mod_lt _ hpos
  have : top_index tie q ∈ top_candidates q := by
    unfold top_index
    rw [List.getD_eq_getElem _ _ hidx]
    exact List.getElem_mem hidx
  simp only [top_candidates, List.mem_filter, List.mem_range] at this
  exact this.1

theorem perm_getD_eraseIdx (q : List HuffmanNode) (i : Nat) (h : i < q.length) :
    q.Perm (q.getD i nullptr :: q.eraseIdx i) := by
  induction q generalizing i with
  | nil => simp at h
  | cons n rest ih =>
    cases i with
    | zero => simp
    | succ i =>
      rw [List.getD_cons_succ, List.eraseIdx_cons_succ]
      have := ih i (by simpa using h)
      exact (List.Perm.cons n this).trans (List.Perm.swap _ _ _)

theorem pq_pop_perm (tie : List HuffmanNode → Nat) (q : List HuffmanNode) (h : q ≠ []) :
    q.Perm ((pq_pop tie q).1 :: (pq_pop tie q).2) :=
  perm_getD_eraseIdx q _ (top_index_lt tie q h)

theorem pq_pop_length (tie : List HuffmanNode → Nat) (q : List HuffmanNode) (h : q ≠ []) :
    (pq_pop tie q).2.length = q.length - 1 := by
  simp only [pq_pop, List.length_eraseIdx, top_index_lt tie q h, if_true]

theorem pq_pop_singleton (tie : List HuffmanNode → Nat) (n : HuffmanNode) :
    (pq_pop tie [n]).1 = n := by
  have h := top_index_lt tie [n] (by simp)
  have h0 : top_index tie [n] = 0 := by simpa using h
  simp [pq_pop, h0]

theorem is_leaf_of_full_left (d f : Nat) (l r : HuffmanNode) (h : Full l) :
    (node d f l r).is_leaf = false := by
  cases h <;> rfl

theorem leaves_leaf (d f : Nat) : leaves (node d f nullptr nullptr) = [d] := rfl

theorem leaves_internal (d f : Nat) (l r : HuffmanNode) (h : Full l) :
    leaves (node d f l r) = leaves l ++ leaves r := by
  simp [leaves, is_leaf_of_full_left d f l r h]

/-- The queue invariant of `build_tree`: every queued node is a full tree. -/
theorem build_loop_spec (tie : List HuffmanNode → Nat) (fuel : Nat) :
    ∀ q : List HuffmanNode, q ≠ [] → q.length ≤ fuel + 1 → (∀ n ∈ q, Full n) →
      ∃ root, build_loop tie fuel q = [root] ∧ Full root ∧
        (leaves root).Perm (q.flatMap leaves) ∧ (2 ≤ q.length → root.is_leaf = false) := by
  induction fuel with
  | zero =>
    intro q hne hlen hfull
    match q, hne, hlen with
    | [n], _, _ =>
      exact ⟨n, rfl, hfull n (by simp), by simp, by intro h; simp at h⟩
  | succ fuel ih =>
    intro q hne hlen hfull
    by_cases h1 : q.length > 1
    · have hp1 := pq_pop_perm tie q hne
      have hl1 := pq_pop_length tie q hne
      have hne1 : (pq_pop tie q).2 ≠ [] := by
        intro h; rw [h] at hl1; simp at hl1; omega
      have hp2 := pq_pop_perm tie _ hne1
      have hl2 := pq_pop_length tie _ hne1
      have hperm : q.Perm ((pq_pop tie q).1 :: (pq_pop tie (pq_pop tie q).2).1
          :: (pq_pop tie (pq_pop tie q).2).2) := hp1.trans (List.Perm.cons _ hp2)
      have hfl : Full (pq_pop tie q).1 := hfull _ (hperm.mem_iff.mpr (by simp))
      have hfr : Full (pq_pop tie (pq_pop tie q).2).1 := hfull _ (hperm.mem_iff.mpr (by simp))
      have hfrest : ∀ n ∈ (pq_pop tie (pq_pop tie q).2).2, Full n := fun n hn =>
        hfull _ (hperm.mem_iff.mpr (by simp [hn]))
      have hq' : ∀ n ∈ (pq_pop tie (pq_pop tie q).2).2 ++
          [internal (((pq_pop tie q).1.frequency
            + (pq_pop tie (pq_pop tie q).2).1.frequency) % 2 ^ 32)
            (pq_pop tie q).1 (pq_pop tie (pq_pop tie q).2).1], Full n := by
        intro n hn
        rcases List.mem_append.mp hn with h | h
        · exact hfrest n h
        · rw [List.mem_singleton.mp h]
          exact Full.internal _ _ _ _ hfl hfr
      obtain ⟨root, hroot, hfroot, hleaves, -⟩ := ih _ (by simp) (by simp; omega) hq'
      refine ⟨root, ?_, hfroot, ?_, ?_⟩
      · rw [build_loop]
        simp only [h1, if_true]
        exact hroot
      · refine hleaves.trans ?_
        rw [List.flatMap_append, List.flatMap_singleton]
        have := (hperm.flatMap_right leaves).symm
        refine List.Perm.trans ?_ this
        simp only [List.flatMap_cons, internal, leaves_internal _ _ _ _ hfl]
        have hc : ((pq_pop tie (pq_pop tie q).2).2.flatMap leaves ++
            (leaves (pq_pop tie q).1 ++ leaves (pq_pop tie (pq_pop tie q).2).1)).Perm
            ((leaves (pq_pop tie q).1 ++ leaves (pq_pop tie (pq_pop tie q).2).1) ++
              (pq_pop tie (pq_pop tie q).2).2.flatMap leaves) := List.perm_append_comm
        simpa only [List.append_assoc] using hc
      · intro _
        cases hfroot with
        | leaf d f =>
          exfalso
          have hlen1 := hleaves.length_eq
          rw [List.flatMap_append, List.flatMap_singleton] at hlen1
          simp only [leaves_leaf, List.length_singleton, List.length_append, internal,
            leaves_internal _ _ _ _ hfl] at hlen1
          have hpos : ∀ t, Full t → 0 < (leaves t).length := by
            intro t ht
            induction ht with
            | leaf d f => simp [leaves_leaf]
            | internal d f l r hl hr ihl ihr =>
              rw [leaves_internal _ _ _ _ hl, List.length_append]; omega
          have := hpos _ hfl
          have := hpos _ hfr
          omega
        | internal d f l r hl hr => exact is_leaf_of_full_left d f l r hl
    · have hq1 : q.length = 1 := by
        have : 0 < q.length := List.length_pos.mpr hne
        omega
      match q, hq1 with
      | [n], _ =>
        refine ⟨n, ?_, hfull n (by simp), by simp, by intro h; simp at h⟩
        rw [build_loop]
        simp

/-- The tree built from a table with at least two symbols: a full tree, not a single
leaf, whose leaves are the symbols of the table. -/
theorem build_tree_spec (tie : List HuffmanNode → Nat) (frequencies : List (Nat × Nat))
    (h : 2 ≤ frequencies.length) :
    Full (build_tree tie frequencies) ∧ (build_tree tie frequencies).is_leaf = false ∧
    (leaves (build_tree tie frequencies)).Perm (keys frequencies) := by
  have hlen : (frequencies.map (fun pair => leaf pair.1 pair.2)).length = frequencies.length := by
    simp
  have hne : frequencies.map (fun pair => leaf pair.1 pair.2) ≠ [] := by
    intro h0; rw [h0] at hlen; simp at hlen; omega
  have hfull : ∀ n ∈ frequencies.map (fun pair => leaf pair.1 pair.2), Full n := by
    intro n hn
    obtain ⟨p, -, rfl⟩ := List.mem_map.mp hn
    exact Full.leaf _ _
  obtain ⟨root, hroot, hfroot, hleaves, hnl⟩ :=
    build_loop_spec tie (frequencies.map (fun pair => leaf pair.1 pair.2)).length _ hne
      (by omega) hfull
  have hbt : build_tree tie frequencies = root := by
    unfold build_tree
    have h1 : ¬ (frequencies.map (fun pair => leaf pair.1 pair.2)).length = 1 := by omega
    simp only [h1, if_false, hroot, pq_pop_singleton]
  rw [hbt]
  refine ⟨hfroot, hnl (by omega), ?_⟩
  have hk : (frequencies.map (fun pair => leaf pair.1 pair.2)).flatMap leaves
      = keys frequencies := by
    clear hlen hne hfull hroot hleaves hbt h hnl
    induction frequencies with
    | nil => rfl
    | cons p rest ih =>
      simp only [List.map_cons, List.flatMap_cons, keys] at ih ⊢
      rw [ih]
      rfl
  rw [← hk]
  exact hleaves

end HuffmanCoder

/-! ## Serialized trees, code tables and the tree walk -/

namespace HuffmanCoder

open HuffmanNode

theorem serialize_tree_append (t : HuffmanNode) :
    ∀ output, serialize_tree t output = output ++ serialize_tree t [] := by
  induction t with
  | nullptr => intro output; simp [serialize_tree]
  | node d f l r ihl ihr =>
    intro output
    unfold serialize_tree
    split
    · simp
    · rw [ihr, ihl, ihr (serialize_tree l ([] ++ [0])), ihl ([] ++ [0])]
      simp

theorem serialize_leaf (d f : Nat) : serialize_tree (node d f nullptr nullptr) [] = [1, d] := rfl

theorem serialize_internal (d f : Nat) (l r : HuffmanNode) (h : Full l) :
    serialize_tree (node d f l r) [] = 0 :: (serialize_tree l [] ++ serialize_tree r []) := by
  rw [serialize_tree]
  simp only [is_leaf_of_full_left d f l r h, Bool.false_eq_true, if_false]
  rw [serialize_tree_append r, serialize_tree_append l]
  simp

theorem leaves_length_pos (t : HuffmanNode) (h : Full t) : 0 < (leaves t).length := by
  induction h with
  | leaf d f => simp [leaves_leaf]
  | internal d f l r hl hr ihl ihr =>
    rw [leaves_internal _ _ _ _ hl, List.length_append]; omega

theorem serialize_length (t : HuffmanNode) (h : Full t) :
    (serialize_tree t []).length + 1 = 3 * (leaves t).length := by
  induction h with
  | leaf d f => simp [serialize_leaf, leaves_leaf]
  | internal d f l r hl hr ihl ihr =>
    rw [serialize_internal _ _ _ _ hl, leaves_internal _ _ _ _ hl]
    simp only [List.length_cons, List.length_append]
    omega

theorem strip_leaf (d f : Nat) : strip (node d f nullptr nullptr) = leaf d 0 := rfl

theorem strip_internal (d f : Nat) (l r : HuffmanNode) (h : Full l) :
    strip (node d f l r) = internal 0 (strip l) (strip r) := by
  simp [strip, is_leaf_of_full_left d f l r h]

theorem strip_full (t : HuffmanNode) (h : Full t) : Full (strip t) := by
  induction h with
  | leaf d f => exact Full.leaf d 0
  | internal d f l r hl hr ihl ihr =>
    rw [strip_internal _ _ _ _ hl]
    exact Full.internal _ _ _ _ ihl ihr

theorem strip_leaves (t : HuffmanNode) (h : Full t) : leaves (strip t) = leaves t := by
  induction h with
  | leaf d f => rfl
  | internal d f l r hl hr ihl ihr =>
    rw [strip_internal _ _ _ _ hl, internal, leaves_internal _ _ _ _ (strip_full l hl),
      leaves_internal _ _ _ _ hl, ihl, ihr]

theorem strip_is_leaf (t : HuffmanNode) (h : Full t) : (strip t).is_leaf = t.is_leaf := by
  cases h with
  | leaf d f => rfl
  | internal d f l r hl hr =>
    rw [strip_internal _ _ _ _ hl, internal, is_leaf_of_full_left _ _ _ _ (strip_full l hl),
      is_leaf_of_full_left _ _ _ _ hl]

theorem path_leaf (d f x : Nat) : path (node d f nullptr nullptr) x = [] := rfl

theorem path_internal (d f : Nat) (l r : HuffmanNode) (h : Full l) (x : Nat) :
    path (node d f l r) x = if x ∈ leaves r then '1' :: path r x else '0' :: path l x := by
  rw [path]
  simp only [is_leaf_of_full_left d f l r h, Bool.false_eq_true, if_false]

theorem strip_path (t : HuffmanNode) (h : Full t) (x : Nat) : path (strip t) x = path t x := by
  induction h with
  | leaf d f => rfl
  | internal d f l r hl hr ihl ihr =>
    rw [strip_internal _ _ _ _ hl, internal, path_internal _ _ _ _ (strip_full l hl),
      path_internal _ _ _ _ hl, ihl, ihr, strip_leaves r hr]

/-- Parsing a serialized full tree: `deserialize_tree` returns the tree, up to the
fields it does not store, and stops right behind it, whatever bytes surround it. -/
theorem deserialize_serialize (t : HuffmanNode) (h : Full t) :
    ∀ (fuel : Nat) (pre suf : List Nat), (serialize_tree t []).length ≤ fuel →
      deserialize_tree_fuel fuel (pre ++ serialize_tree t [] ++ suf) pre.length
        = some (strip t, pre.length + (serialize_tree t []).length) := by
  induction h with
  | leaf d f =>
    intro fuel pre suf hfuel
    rw [serialize_leaf] at hfuel ⊢
    obtain ⟨fuel', rfl⟩ : ∃ n, fuel = n + 1 := ⟨fuel - 1, by simp at hfuel; omega⟩
    have hlen : (pre ++ [1, d] ++ suf).length = pre.length + 2 + suf.length := by
      simp; omega
    have h0 : (pre ++ [1, d] ++ suf).getD pre.length 0 = 1 := by
      rw [List.append_assoc, List.getD_append_right _ _ _ _ (Nat.le_refl _)]
      simp
    have h1 : (pre ++ [1, d] ++ suf).getD (pre.length + 1) 0 = d := by
      rw [List.append_assoc, List.getD_append_right _ _ _ _ (by omega)]
      simp
    rw [deserialize_tree_fuel]
    simp only [hlen, h0, h1, strip_leaf]
    have c1 : ¬ pre.length ≥ pre.length + 2 + suf.length := by omega
    have c2 : ¬ pre.length + 1 ≥ pre.length + 2 + suf.length := by omega
    simp [c1, c2]
  | internal d f l r hl hr ihl ihr =>
    intro fuel pre suf hfuel
    rw [serialize_internal _ _ _ _ hl] at hfuel ⊢
    obtain ⟨fuel', rfl⟩ : ∃ n, fuel = n + 1 := ⟨fuel - 1, by simp at hfuel; omega⟩
    simp only [List.length_cons, List.length_append] at hfuel
    have hlen : (pre ++ 0 :: (serialize_tree l [] ++ serialize_tree r []) ++ suf).length
        = pre.length + 1 + (serialize_tree l []).length + (serialize_tree r []).length
          + suf.length := by
      simp; omega
    have h0 : (pre ++ 0 :: (serialize_tree l [] ++ serialize_tree r []) ++ suf).getD
        pre.length 0 = 0 := by
      rw [List.append_assoc, List.getD_append_right _ _ _ _ (Nat.le_refl _)]
      simp
    have e1 : pre ++ 0 :: (serialize_tree l [] ++ serialize_tree r []) ++ suf
        = (pre ++ [0]) ++ serialize_tree l [] ++ (serialize_tree r [] ++ suf) := by simp
    have e2 : pre ++ 0 :: (serialize_tree l [] ++ serialize_tree r []) ++ suf
        = (pre ++ [0] ++ serialize_tree l []) ++ serialize_tree r [] ++ suf := by simp
    have r1 := ihl fuel' (pre ++ [0]) (serialize_tree r [] ++ suf) (by omega)
    have r2 := ihr fuel' (pre ++ [0] ++ serialize_tree l []) suf (by omega)
    rw [← e1] at r1
    rw [← e2] at r2
    simp only [List.length_append, List.length_singleton] at r1 r2
    rw [deserialize_tree_fuel]
    have c1 : ¬ pre.length ≥ (pre ++ 0 :: (serialize_tree l [] ++ serialize_tree r [])
        ++ suf).length := by rw [hlen]; omega
    simp only [c1, if_false, h0, r1, r2, strip_internal _ _ _ _ hl]
    simp
    omega

/-- The code table of a full tree: the entry of a leaf value is its path. -/
theorem generate_codes_get (t : HuffmanNode) (h : Full t) :
    ∀ (code : List Char) (codes : List (Nat × List Char)) (x : Nat) (dflt : List Char),
      map_get (generate_codes t code codes) x dflt
        = if x ∈ leaves t then code ++ path t x else map_get codes x dflt := by
  induction h with
  | leaf d f =>
    intro code codes x dflt
    rw [generate_codes]
    simp only [show (node d f nullptr nullptr).is_leaf = true from rfl, if_true,
      map_get_map_set, leaves_leaf, path_leaf, List.mem_singleton, List.append_nil]
  | internal d f l r hl hr ihl ihr =>
    intro code codes x dflt
    rw [generate_codes]
    simp only [is_leaf_of_full_left d f l r hl, Bool.false_eq_true, if_false, ihr, ihl,
      leaves_internal _ _ _ _ hl, path_internal _ _ _ _ hl, List.mem_append]
    by_cases h1 : x ∈ leaves r
    · simp [h1]
    · by_cases h2 : x ∈ leaves l
      · simp [h1, h2]
      · simp [h1, h2]

theorem walk_append (root : HuffmanNode) (a b : List Bool) :
    ∀ state, walk root (a ++ b) state
      = match walk root a state with
        | .error f => .error f
        | .ok s => walk root b s := by
  induction a with
  | nil => intro state; rfl
  | cons bit a ih =>
    intro state
    simp only [List.cons_append, walk]
    cases decode_bit root bit state with
    | error f => rfl
    | ok s => exact ih s

/-- Walking down the path of a leaf value from an internal node emits that value
and returns to the root. -/
theorem walk_path (root t : HuffmanNode) (h : Full t) :
    ∀ (x : Nat) (output : List Nat), t.is_leaf = false → x ∈ leaves t →
      walk root ((path t x).map (fun c => decide (c = '1'))) (t, output)
        = .ok (root, output ++ [x]) := by
  induction h with
  | leaf d f =>
    intro x output hnl
    have hl : (node d f nullptr nullptr).is_leaf = true := rfl
    rw [hl] at hnl
    cases hnl
  | internal d f l r hl hr ihl ihr =>
    intro x output _ hx
    rw [leaves_internal _ _ _ _ hl, List.mem_append] at hx
    rw [path_internal _ _ _ _ hl]
    have step : ∀ (c : HuffmanNode), Full c → x ∈ leaves c →
        (∀ output, c.is_leaf = false → x ∈ leaves c →
          walk root ((path c x).map (fun c => decide (c = '1'))) (c, output)
            = .ok (root, output ++ [x])) →
        (match (match c with
            | nullptr => (Except.error Fault.null_dereference :
                Except Fault (HuffmanNode × List Nat))
            | node d f l' r' =>
              if (node d f l' r').is_leaf then Except.ok (root, output ++ [d])
              else Except.ok (node d f l' r', output)) with
          | Except.error f => Except.error f
          | Except.ok s => walk root ((path c x).map (fun c => decide (c = '1'))) s)
          = Except.ok (root, output ++ [x]) := by
      intro c hc hxc ih
      cases hc with
      | leaf d' f' =>
        rw [leaves_leaf, List.mem_singleton] at hxc
        subst hxc
        simp [is_leaf, path_leaf, walk]
      | internal d' f' l' r' hl' hr' =>
        simp only [is_leaf_of_full_left d' f' l' r' hl', Bool.false_eq_true, if_false]
        exact ih output (is_leaf_of_full_left d' f' l' r' hl') hxc
    by_cases h1 : x ∈ leaves r
    · simp only [h1, if_true, List.map_cons, walk, decode_bit]
      simpa using step r hr h1 (ihr x)
    · have h2 : x ∈ leaves l := by tauto
      simp only [h1, if_false, List.map_cons, walk, decode_bit]
      simpa using step l hl h2 (ihl x)

/-- Decoding the concatenated paths of a byte sequence gives the sequence back. -/
theorem walk_encode (root : HuffmanNode) (h : Full root) (hnl : root.is_leaf = false)
    (b : List Nat) : (∀ x ∈ b, x ∈ leaves root) → ∀ output,
      walk root ((b.flatMap (path root)).map (fun c => decide (c = '1'))) (root, output)
        = .ok (root, output ++ b) := by
  induction b with
  | nil => intro _ output; simp [walk]
  | cons x rest ih =>
    intro hb output
    rw [List.flatMap_cons, List.map_append, walk_append,
      walk_path root root h x output hnl (hb x (by simp))]
    simp only
    rw [ih (fun y hy => hb y (by simp [hy]))]
    simp

end HuffmanCoder

/-! ## Packed bits and the decoding loops -/

namespace HuffmanCoder

open HuffmanNode

theorem foldl_or_testBit (c : Nat → Bool) (js : List Nat) :
    ∀ (acc m : Nat),
      (js.foldl (fun byte j => if c j = true then byte ||| (1 <<< (7 - j)) else byte) acc).testBit m
        = (acc.testBit m || js.any (fun j => c j && decide (7 - j = m))) := by
  induction js with
  | nil => intro acc m; simp
  | cons j rest ih =>
    intro acc m
    rw [List.foldl_cons, ih, List.any_cons]
    by_cases hc : c j = true
    · simp only [hc, if_true, Nat.testBit_or, Nat.one_shiftLeft, Nat.testBit_two_pow,
        Bool.true_and, Bool.or_assoc]
    · simp [hc]

/-- Bit `j` of a payload byte, counted from the most significant bit, is the
code bit at position `i + j`. -/
theorem pack_byte_bit (encoded_bits : List Char) (i j : Nat) (hj : j < 8) :
    decide (pack_byte encoded_bits i &&& (1 <<< (7 - j)) ≠ 0)
      = decide (i + j < encoded_bits.length ∧ encoded_bits.getD (i + j) '0' = '1') := by
  have h1 : (pack_byte encoded_bits i &&& (1 <<< (7 - j)) ≠ 0)
      ↔ (pack_byte encoded_bits i).testBit (7 - j) = true := by
    rw [Nat.one_shiftLeft, Nat.and_two_pow]
    cases (pack_byte encoded_bits i).testBit (7 - j) <;> simp
  have h2 : (pack_byte encoded_bits i).testBit (7 - j)
      = decide (i + j < encoded_bits.length ∧ encoded_bits.getD (i + j) '0' = '1') := by
    have := foldl_or_testBit
      (fun j => decide (i + j < encoded_bits.length ∧ encoded_bits.getD (i + j) '0' = '1'))
      (List.range 8) 0 (7 - j)
    simp only [decide_eq_true_eq] at this
    unfold pack_byte
    rw [this]
    simp only [Nat.zero_testBit, Bool.false_or]
    rw [Bool.eq_iff_iff, List.any_eq_true]
    constructor
    · rintro ⟨k, hk, hck⟩
      have hk8 : k < 8 := List.mem_range.mp hk
      simp only [Bool.and_eq_true, decide_eq_true_eq] at hck
      have : k = j := by omega
      subst this
      simpa using hck.1
    · intro hcj
      exact ⟨j, List.mem_range.mpr hj, by simpa using hcj⟩
  rw [← h2]
  cases hb : (pack_byte encoded_bits i).testBit (7 - j)
  · simp [h1, hb]
  · simp [h1, hb]

/-- The bit loop over one payload byte is a walk over the code bits it holds. -/
theorem decode_byte_pack (root : HuffmanNode) (encoded_bits : List Char) (i : Nat) :
    ∀ (count j : Nat) (state : HuffmanNode × List Nat), j + count ≤ 8 →
      i + j + count ≤ encoded_bits.length →
      decode_byte root (pack_byte encoded_bits i) count j state
        = walk root (((encoded_bits.map (fun c => decide (c = '1'))).drop (i + j)).take count)
            state := by
  intro count
  induction count with
  | zero => intro j state _ _; simp [decode_byte, walk]
  | succ count ih =>
    intro j state h8 hn
    have hlt : i + j < (encoded_bits.map (fun c => decide (c = '1'))).length := by
      simp; omega
    have hlt' : i + j < encoded_bits.length := by omega
    rw [decode_byte, List.drop_eq_getElem_cons hlt, List.take_succ_cons, walk,
      pack_byte_bit encoded_bits i j (by omega)]
    have hbit : decide (i + j < encoded_bits.length ∧ encoded_bits.getD (i + j) '0' = '1')
        = (encoded_bits.map (fun c => decide (c = '1')))[i + j] := by
      rw [List.getElem_map, List.getD_eq_getElem _ _ hlt']
      simp [hlt']
    rw [hbit]
    cases decode_bit root (encoded_bits.map (fun c => decide (c = '1')))[i + j] state with
    | error f => rfl
    | ok s =>
      simp only
      rw [ih (j + 1) s (by omega) (by omega)]
      rfl

theorem pack_bits_length (encoded_bits : List Char) :
    (pack_bits encoded_bits).length = (encoded_bits.length + 7) / 8 := by
  simp [pack_bits]

theorem pack_bits_getD (encoded_bits : List Char) (k : Nat)
    (hk : k < (encoded_bits.length + 7) / 8) :
    (pack_bits encoded_bits).getD k 0 = pack_byte encoded_bits (8 * k) := by
  rw [List.getD_eq_getElem _ _ (by rw [pack_bits_length]; exact hk)]
  simp [pack_bits]

/-- The byte loop over the payload is a walk over all code bits. -/
theorem decode_loop_pack (root : HuffmanNode) (pre : List Nat) (encoded_bits : List Char) :
    ∀ (count k : Nat) (state : HuffmanNode × List Nat),
      k + count = (encoded_bits.length + 7) / 8 →
      decode_loop root (pre ++ pack_bits encoded_bits) ((8 - encoded_bits.length % 8) % 8)
          count (pre.length + k) state
        = walk root ((encoded_bits.map (fun c => decide (c = '1'))).drop (8 * k)) state := by
  intro count
  induction count with
  | zero =>
    intro k state hk
    rw [List.drop_of_length_le (by simp; omega)]
    rfl
  | succ count ih =>
    intro k state hk
    have hbyte : (pre ++ pack_bits encoded_bits).getD (pre.length + k) 0
        = pack_byte encoded_bits (8 * k) := by
      rw [List.getD_append_right _ _ _ _ (by omega), Nat.add_sub_cancel_left]
      exact pack_bits_getD encoded_bits k (by omega)
    have hlen : (pre ++ pack_bits encoded_bits).length
        = pre.length + (encoded_bits.length + 7) / 8 := by
      rw [List.length_append, pack_bits_length]
    have hbl : (encoded_bits.map (fun c => decide (c = '1'))).length = encoded_bits.length := by
      simp
    rw [decode_loop]
    simp only [hbyte, hlen]
    by_cases hlast : count = 0
    · subst hlast
      have hc : pre.length + k = pre.length + (encoded_bits.length + 7) / 8 - 1 := by omega
      simp only [hc, if_true]
      have hcnt : ((8 : Int) - (((8 - encoded_bits.length % 8) % 8 : Nat) : Int)).toNat
          = encoded_bits.length - 8 * k := by omega
      rw [hcnt, decode_byte_pack root encoded_bits (8 * k) _ 0 state (by omega) (by omega)]
      rw [Nat.add_zero, List.take_of_length_le (by rw [List.length_drop, hbl])]
      cases walk root ((encoded_bits.map (fun c => decide (c = '1'))).drop (8 * k)) state with
      | error f => rfl
      | ok s => rfl
    · have hc : ¬ pre.length + k = pre.length + (encoded_bits.length + 7) / 8 - 1 := by omega
      simp only [hc, if_false]
      have hcnt : ((8 : Int)).toNat = 8 := rfl
      rw [hcnt, decode_byte_pack root encoded_bits (8 * k) 8 0 state (by omega) (by omega)]
      rw [Nat.add_zero]
      conv_rhs => rw [← List.take_append_drop 8
        ((encoded_bits.map (fun c => decide (c = '1'))).drop (8 * k)), walk_append]
      cases walk root (((encoded_bits.map (fun c => decide (c = '1'))).drop (8 * k)).take 8)
          state with
      | error f => rfl
      | ok s =>
        simp only
        rw [Nat.add_assoc, ih (k + 1) s (by omega), List.drop_drop]
        congr 2

theorem or_shift_eq_add (a b c d : Nat) (hb : b < 256) (hc : c < 256) (hd : d < 256) :
    (a <<< 24) ||| (b <<< 16) ||| (c <<< 8) ||| d = a * 2 ^ 24 + b * 2 ^ 16 + c * 2 ^ 8 + d := by
  simp only [Nat.shiftLeft_eq]
  have h1 : c * 2 ^ 8 ||| d = c * 2 ^ 8 + d := by
    rw [Nat.mul_comm, ← Nat.mul_add_lt_is_or (by simpa using hd)]
  have h2 : b * 2 ^ 16 ||| (c * 2 ^ 8 + d) = b * 2 ^ 16 + (c * 2 ^ 8 + d) := by
    rw [Nat.mul_comm, ← Nat.mul_add_lt_is_or (by omega)]
  have h3 : a * 2 ^ 24 ||| (b * 2 ^ 16 + (c * 2 ^ 8 + d))
      = a * 2 ^ 24 + (b * 2 ^ 16 + (c * 2 ^ 8 + d)) := by
    rw [Nat.mul_comm, ← Nat.mul_add_lt_is_or (by omega)]
  rw [Nat.lor_assoc, Nat.lor_assoc, h1, h2, h3]
  omega

/-- On a byte vector the tree length read by `decompress` is the big-endian value
of the first four bytes. -/
theorem read_tree_size_eq (input : List Nat) (h : Bytes input) :
    read_tree_size input = big_endian32 input := by
  have h0 := getD_lt_of_bytes input h 0
  have h1 := getD_lt_of_bytes input h 1
  have h2 := getD_lt_of_bytes input h 2
  have h3 := getD_lt_of_bytes input h 3
  unfold read_tree_size big_endian32
  rw [or_shift_eq_add _ _ _ _ h1 h2 h3]
  omega

/-- The header written by `compress` is read back by `decompress`. -/
theorem read_tree_size_header (tree_size : Nat) (h : tree_size < 2 ^ 32) (rest : List Nat) :
    read_tree_size (size_header tree_size ++ rest) = tree_size := by
  have m : ∀ x : Nat, x &&& 0xFF = x % 256 := fun x => Nat.and_pow_two_sub_one_eq_mod x 8
  unfold read_tree_size
  simp only [size_header, List.cons_append, List.getD_cons_zero, List.getD_cons_succ, m]
  rw [or_shift_eq_add _ _ _ _ (Nat.mod_lt _ (by norm_num)) (Nat.mod_lt _ (by norm_num))
    (Nat.mod_lt _ (by norm_num))]
  simp only [Nat.shiftRight_eq_div_pow]
  omega

end HuffmanCoder

/-! ## Decompressing a well-formed stream -/

namespace HuffmanCoder

open HuffmanNode

theorem size_header_length (tree_size : Nat) : (size_header tree_size).length = 4 := rfl

theorem full_ne_nullptr (t : HuffmanNode) (h : Full t) : t ≠ nullptr := by
  cases h <;> simp

/-- A stream made of the header, a serialized full tree, the padding count and the
packed code bits is decoded by walking the tree over exactly those bits. -/
theorem decompress_stream (root : HuffmanNode) (hfull : Full root)
    (hsize : (serialize_tree root []).length < 2 ^ 32) (encoded_bits : List Char) :
    decompress (size_header (serialize_tree root []).length ++ serialize_tree root []
        ++ [(8 - encoded_bits.length % 8) % 8] ++ pack_bits encoded_bits)
      = match walk (strip root) (encoded_bits.map (fun c => decide (c = '1')))
          (strip root, []) with
        | .error f => .fault f
        | .ok state => .decoded state.2 := by
  generalize hin : size_header (serialize_tree root []).length ++ serialize_tree root []
    ++ [(8 - encoded_bits.length % 8) % 8] ++ pack_bits encoded_bits = input
  have hlen : input.length
      = 4 + (serialize_tree root []).length + 1 + (encoded_bits.length + 7) / 8 := by
    rw [← hin]
    simp only [List.length_append, size_header_length, List.length_singleton, pack_bits_length]
  have hts : read_tree_size input = (serialize_tree root []).length := by
    rw [← hin, List.append_assoc, List.append_assoc]
    exact read_tree_size_header _ hsize _
  have hdes : deserialize_tree input 4
      = some (strip root, 4 + (serialize_tree root []).length) := by
    unfold deserialize_tree
    have := deserialize_serialize root hfull (input.length - 4 + 1)
      (size_header (serialize_tree root []).length)
      ([(8 - encoded_bits.length % 8) % 8] ++ pack_bits encoded_bits) (by omega)
    rw [size_header_length] at this
    rw [← this, ← hin]
    simp only [List.append_assoc]
  have hpad : input.getD (4 + (serialize_tree root []).length) 0
      = (8 - encoded_bits.length % 8) % 8 := by
    rw [← hin, List.append_assoc,
      List.getD_append_right _ _ _ _ (by simp [size_header_length])]
    simp [size_header_length]
  have hloop := decode_loop_pack (strip root)
    (size_header (serialize_tree root []).length ++ serialize_tree root []
      ++ [(8 - encoded_bits.length % 8) % 8]) encoded_bits
    ((encoded_bits.length + 7) / 8) 0 (strip root, []) (by omega)
  rw [hin] at hloop
  simp only [List.length_append, size_header_length, List.length_singleton, Nat.add_zero,
    Nat.mul_zero, List.drop_zero] at hloop
  unfold decompress
  have c1 : ¬ input.length < 5 := by omega
  have c2 : ¬ 4 + (serialize_tree root []).length ≥ input.length := by omega
  have c3 : strip root ≠ nullptr := full_ne_nullptr _ (strip_full root hfull)
  have c4 : input.length - (4 + (serialize_tree root []).length + 1)
      = (encoded_bits.length + 7) / 8 := by omega
  simp only [c1, if_false, hts, c2, hdes, c3, hpad, c4, hloop]

theorem flatMap_congr_mem (b : List Nat) (f g : Nat → List Char)
    (h : ∀ x ∈ b, f x = g x) : b.flatMap f = b.flatMap g := by
  induction b with
  | nil => rfl
  | cons x rest ih =>
    rw [List.flatMap_cons, List.flatMap_cons, h x (by simp),
      ih (fun y hy => h y (by simp [hy]))]

theorem two_le_length_of_ne (l : List Nat) (x y : Nat) (hx : x ∈ l) (hy : y ∈ l)
    (hne : x ≠ y) : 2 ≤ l.length := by
  match l, hx, hy with
  | [a], hx, hy =>
    simp only [List.mem_singleton] at hx hy
    omega
  | _ :: _ :: _, _, _ => simp

/-- Round trip for every input with at least two distinct byte values, whichever
node of least frequency the priority queue hands out. -/
theorem decompress_compress_of_distinct (tie : List HuffmanNode → Nat) (b : List Nat)
    (hb : Bytes b) (x y : Nat) (hx : x ∈ b) (hy : y ∈ b) (hxy : x ≠ y) :
    decompress (compress tie b) = .decoded b := by
  have hne : b ≠ [] := List.ne_nil_of_mem hx
  obtain ⟨hs, hm⟩ := count_frequencies_keys b
  have hkl : (keys (count_frequencies b)).length = (count_frequencies b).length := by
    simp [keys]
  have h2 : 2 ≤ (count_frequencies b).length := by
    rw [← hkl]
    exact two_le_length_of_ne _ x y ((hm x).mpr hx) ((hm y).mpr hy) hxy
  have h256 : (count_frequencies b).length ≤ 256 := by
    rw [← hkl]
    exact sorted_bounded_length _ 256 hs (fun z hz => hb z ((hm z).mp hz))
  obtain ⟨hfull, hnl, hperm⟩ := build_tree_spec tie (count_frequencies b) h2
  have hunfold : compress tie b
      = size_header ((serialize_tree (build_tree tie (count_frequencies b)) []).length % 2 ^ 32)
        ++ serialize_tree (build_tree tie (count_frequencies b)) []
        ++ [((8 - (encode (generate_codes (build_tree tie (count_frequencies b)) [] []) b).length
              % 8) % 8) % 256]
        ++ pack_bits (encode (generate_codes (build_tree tie (count_frequencies b)) [] []) b) := by
    unfold compress
    simp only [hne, if_false]
  rw [hunfold]
  generalize build_tree tie (count_frequencies b) = root at hfull hnl hperm ⊢
  have hser := serialize_length root hfull
  have hll : (leaves root).length = (count_frequencies b).length := by
    rw [hperm.length_eq, hkl]
  have hsize : (serialize_tree root []).length < 2 ^ 32 := by omega
  have hmem : ∀ z ∈ b, z ∈ leaves root := fun z hz => hperm.mem_iff.mpr ((hm z).mpr hz)
  have henc : encode (generate_codes root [] []) b = b.flatMap (path (strip root)) := by
    apply flatMap_congr_mem
    intro z hz
    rw [generate_codes_get root hfull, if_pos (hmem z hz), strip_path root hfull]
    rfl
  rw [Nat.mod_eq_of_lt hsize,
    Nat.mod_eq_of_lt (show (8 - (encode (generate_codes root [] []) b).length % 8) % 8 < 256
      by omega)]
  rw [decompress_stream root hfull hsize, henc,
    walk_encode (strip root) (strip_full root hfull)
      (by rw [strip_is_leaf root hfull]; exact hnl) b
      (by intro z hz; rw [strip_leaves root hfull]; exact hmem z hz) []]
  rfl

end HuffmanCoder

/-! ## Termination of `deserialize_tree` -/

namespace HuffmanCoder

open HuffmanNode

/-- With `data.length - index + 1` nested calls allowed the recursion bound of
`deserialize_tree_fuel` is never hit, and the index never moves backwards. -/
theorem deserialize_tree_fuel_isSome (fuel : Nat) :
    ∀ (data : List Nat) (index : Nat), data.length ≤ fuel + index →
      ∃ r, deserialize_tree_fuel (fuel + 1) data index = some r ∧ index ≤ r.2 := by
  induction fuel with
  | zero =>
    intro data index h
    refine ⟨(nullptr, index), ?_, Nat.le_refl _⟩
    rw [deserialize_tree_fuel]
    simp only [ge_iff_le, Nat.zero_add] at h ⊢
    rw [if_pos h]
  | succ fuel ih =>
    intro data index h
    rw [deserialize_tree_fuel]
    by_cases h1 : index ≥ data.length
    · exact ⟨(nullptr, index), by rw [if_pos h1], Nat.le_refl _⟩
    · rw [if_neg h1]
      by_cases h2 : data.getD index 0 = 1
      · simp only [h2, if_true]
        by_cases h3 : index + 1 ≥ data.length
        · exact ⟨(nullptr, index + 1), by rw [if_pos h3], by simp only; omega⟩
        · exact ⟨(leaf (data.getD (index + 1) 0) 0, index + 1 + 1), by rw [if_neg h3],
            by simp only; omega⟩
      · simp only [h2, if_false]
        obtain ⟨⟨left, i1⟩, hl, hi1⟩ := ih data (index + 1) (by omega)
        obtain ⟨⟨right, i2⟩, hr, hi2⟩ := ih data i1 (by simp only at hi1; omega)
        refine ⟨(internal 0 left right, i2), ?_, by simp only at hi1 hi2 ⊢; omega⟩
        rw [hl]
        simp only
        rw [hr]

/-- Totality: `deserialize_tree` returns a node (possibly null) and an index for every
input and every start index. -/
theorem deserialize_tree_isSome (data : List Nat) (index : Nat) :
    ∃ r, deserialize_tree data index = some r ∧ index ≤ r.2 :=
  deserialize_tree_fuel_isSome (data.length - index) data index (by omega)

end HuffmanCoder

/-! ## Single-symbol inputs -/

namespace HuffmanCoder

open HuffmanNode

theorem build_tree_single (tie : List HuffmanNode → Nat) (d f : Nat) :
    build_tree tie [(d, f)] = internal f (leaf d f) nullptr := by
  simp [build_tree, pq_pop_singleton, leaf, frequency]

/-- With a single symbol in the table the queue offers no choice. -/
theorem compress_single (tie : List HuffmanNode → Nat) (b : List Nat) (d f : Nat)
    (h : count_frequencies b = [(d, f)]) : compress tie b = compress (fun _ => 0) b := by
  unfold compress
  simp only [h, build_tree_single]

theorem compress_ne_nil (tie : List HuffmanNode → Nat) (b : List Nat) (h : b ≠ []) :
    compress tie b ≠ [] := by
  unfold compress
  simp [h, size_header]

theorem count_frequencies_replicate (n c : Nat) (hn : 0 < n) :
    ∃ f, count_frequencies (List.replicate n c) = [(c, f)] := by
  have gen : ∀ (k m : Nat), ∃ f, (List.replicate k c).foldl
      (fun m byte => map_set m byte ((map_get m byte 0 + 1) % 2 ^ 32)) [(c, m)] = [(c, f)] := by
    intro k
    induction k with
    | zero => intro m; exact ⟨m, rfl⟩
    | succ k ih =>
      intro m
      obtain ⟨f, hf⟩ := ih ((m + 1) % 2 ^ 32)
      refine ⟨f, ?_⟩
      rw [List.replicate_succ, List.foldl_cons]
      simpa [map_set, map_get] using hf
  obtain ⟨k, rfl⟩ : ∃ k, n = k + 1 := ⟨n - 1, by omega⟩
  obtain ⟨f, hf⟩ := gen k ((0 + 1) % 2 ^ 32)
  refine ⟨f, ?_⟩
  unfold count_frequencies
  rw [List.replicate_succ, List.foldl_cons]
  simpa [map_set, map_get] using hf

theorem foldl_or_none (c : Nat → Prop) [DecidablePred c] (h : ∀ j, ¬ c j) (js : List Nat) :
    js.foldl (fun byte j => if c j then byte ||| (1 <<< (7 - j)) else byte) 0 = 0 := by
  induction js with
  | nil => rfl
  | cons j rest ih => rw [List.foldl_cons, if_neg (h j)]; exact ih

theorem pack_bits_zeros (n : Nat) :
    pack_bits (List.replicate n '0') = List.replicate ((n + 7) / 8) 0 := by
  rw [List.eq_replicate_iff]
  refine ⟨by rw [pack_bits_length, List.length_replicate], ?_⟩
  intro x hx
  simp only [pack_bits, List.mem_map] at hx
  obtain ⟨k, -, rfl⟩ := hx
  unfold pack_byte
  apply foldl_or_none
  intro j hj
  have h1 := hj.2
  rw [List.getD_eq_getElem _ _ hj.1, List.getElem_replicate] at h1
  exact absurd h1 (by decide)

theorem encode_replicate (n c : Nat) :
    encode [(c, ['0'])] (List.replicate n c) = List.replicate n '0' := by
  induction n with
  | zero => rfl
  | succ n ih =>
    unfold encode at ih ⊢
    rw [List.replicate_succ, List.flatMap_cons, ih]
    simp [map_get, List.replicate_succ]

/-- The stream `compress` writes for `n` copies of one byte value `c`. -/
theorem compress_replicate (tie : List HuffmanNode → Nat) (n c : Nat) (hn : 0 < n) :
    compress tie (List.replicate n c)
      = [0, 0, 0, 3, 0, 1, c, (8 - n % 8) % 8] ++ List.replicate ((n + 7) / 8) 0 := by
  obtain ⟨f, hf⟩ := count_frequencies_replicate n c hn
  have hne : List.replicate n c ≠ [] := by
    intro h
    have := congrArg List.length h
    simp at this
    omega
  have hcodes : generate_codes (internal f (leaf c f) nullptr) [] [] = [(c, ['0'])] := by
    simp [generate_codes, internal, leaf, is_leaf, map_set]
  have hser : serialize_tree (internal f (leaf c f) nullptr) [] = [0, 1, c] := by
    simp [serialize_tree, internal, leaf, is_leaf]
  unfold compress
  simp only [hne, if_false, hf, build_tree_single, hcodes, hser, encode_replicate,
    List.length_replicate, pack_bits_zeros]
  have hp : (8 - n % 8) % 8 % 256 = (8 - n % 8) % 8 := by omega
  have hh : size_header ([0, 1, c].length % 2 ^ 32) = [0, 0, 0, 3] := by
    show size_header (3 % 2 ^ 32) = [0, 0, 0, 3]
    decide
  rw [hp, hh]
  rfl

theorem deserialize_leaf_step (fuel : Nat) (data : List Nat) (index : Nat)
    (h : index + 1 < data.length) (hm : data.getD index 0 = 1) :
    deserialize_tree_fuel (fuel + 1) data index
      = some (leaf (data.getD (index + 1) 0) 0, index + 1 + 1) := by
  rw [deserialize_tree_fuel]
  have c1 : ¬ index ≥ data.length := by omega
  have c2 : ¬ index + 1 ≥ data.length := by omega
  simp only [c1, if_false, hm, if_true, c2]

theorem deserialize_internal_step (fuel : Nat) (data : List Nat) (index i1 i2 : Nat)
    (l r : HuffmanNode) (h : index < data.length) (hm : data.getD index 0 ≠ 1)
    (hl : deserialize_tree_fuel fuel data (index + 1) = some (l, i1))
    (hr : deserialize_tree_fuel fuel data i1 = some (r, i2)) :
    deserialize_tree_fuel (fuel + 1) data index = some (internal 0 l r, i2) := by
  rw [deserialize_tree_fuel]
  have c1 : ¬ index ≥ data.length := by omega
  simp only [c1, if_false, hm, hl, hr]

/-- When no byte from `index` on is the leaf marker, `deserialize_tree` consumes the
rest of the input. -/
theorem deserialize_no_leaf (fuel : Nat) :
    ∀ (data : List Nat) (index : Nat), data.length ≤ fuel + index → index ≤ data.length →
      (∀ i, index ≤ i → data.getD i 0 ≠ 1) →
      ∃ t, deserialize_tree_fuel (fuel + 1) data index = some (t, data.length) := by
  induction fuel with
  | zero =>
    intro data index h hle _
    have : index = data.length := by omega
    subst this
    exact ⟨nullptr, by rw [deserialize_tree_fuel]; simp⟩
  | succ fuel ih =>
    intro data index h hle hno
    rw [deserialize_tree_fuel]
    by_cases h1 : index ≥ data.length
    · have : index = data.length := by omega
      subst this
      exact ⟨nullptr, by simp⟩
    · rw [if_neg h1]
      simp only [hno index (Nat.le_refl _), if_false]
      obtain ⟨left, hl⟩ := ih data (index + 1) (by omega) (by omega)
        (fun i hi => hno i (by omega))
      obtain ⟨right, hr⟩ := ih data data.length (by omega) (Nat.le_refl _)
        (fun i hi => hno i (by omega))
      exact ⟨internal 0 left right, by rw [hl]; simp only; rw [hr]⟩

theorem decode_bit_length (root : HuffmanNode) (bit : Bool) (s s' : HuffmanNode × List Nat)
    (h : decode_bit root bit s = .ok s') : s'.2.length ≤ s.2.length + 1 := by
  unfold decode_bit at h
  split at h
  · cases h
  · split at h
    · cases h
    · split at h
      · injection h with h; subst h; simp
      · injection h with h; subst h; simp

theorem decode_byte_length (root : HuffmanNode) (byte : Nat) :
    ∀ (count j : Nat) (s s' : HuffmanNode × List Nat),
      decode_byte root byte count j s = .ok s' → s'.2.length ≤ s.2.length + count := by
  intro count
  induction count with
  | zero =>
    intro j s s' h
    rw [decode_byte] at h
    injection h with h; subst h; simp
  | succ count ih =>
    intro j s s' h
    rw [decode_byte] at h
    split at h
    · cases h
    · rename_i s1 h1
      have := decode_bit_length root _ s s1 h1
      have := ih (j + 1) s1 s' h
      omega

/-- The byte loop emits at most eight values per payload byte. -/
theorem decode_loop_length (root : HuffmanNode) (input : List Nat) (padding : Nat) :
    ∀ (count i : Nat) (s s' : HuffmanNode × List Nat),
      decode_loop root input padding count i s = .ok s' →
      s'.2.length ≤ s.2.length + 8 * count := by
  intro count
  induction count with
  | zero =>
    intro i s s' h
    rw [decode_loop] at h
    injection h with h; subst h; simp
  | succ count ih =>
    intro i s s' h
    rw [decode_loop] at h
    split at h
    · cases h
    · rename_i s1 h1
      have hb := decode_byte_length root _ _ 0 s s1 h1
      have hcnt : (if i = input.length - 1 then (8 : Int) - (padding : Int) else 8).toNat ≤ 8 := by
        split <;> omega
      have := ih (i + 1) s1 s' h
      omega

/-- No single-symbol input survives the round trip: for every non-empty input made
of one repeated byte value, `decompress` of the stream written by `compress` does
not return the input. -/
theorem single_symbol_never_roundtrips (tie : List HuffmanNode → Nat) (n c : Nat)
    (hn : 0 < n) :
    decompress (compress tie (List.replicate n c)) ≠ .decoded (List.replicate n c) := by
  rw [compress_replicate tie n c hn]
  obtain ⟨k, hk⟩ : ∃ k, (n + 7) / 8 = k + 1 := ⟨(n + 7) / 8 - 1, by omega⟩
  rw [hk]
  generalize hp : (8 - n % 8) % 8 = p
  generalize hS : [0, 0, 0, 3, 0, 1, c, p] ++ List.replicate (k + 1) 0 = S
  have hlen : S.length = k + 9 := by rw [← hS]; simp
  have g4 : S.getD 4 0 = 0 := by rw [← hS]; rfl
  have g5 : S.getD 5 0 = 1 := by rw [← hS]; rfl
  have g6 : S.getD 6 0 = c := by rw [← hS]; rfl
  have g7 : S.getD 7 0 = p := by rw [← hS]; rfl
  have gz : ∀ i, 8 ≤ i → S.getD i 0 = 0 := by
    intro i hi
    rw [← hS, List.getD_append_right _ _ _ _ (by simpa using hi), List.getD_eq_getElem?_getD,
      List.getElem?_replicate]
    split <;> rfl
  have hts : read_tree_size S = 3 := by rw [← hS]; simp [read_tree_size]
  have c1 : ¬ S.length < 5 := by omega
  have c2 : ¬ 4 + 3 ≥ S.length := by omega
  unfold decompress
  simp only [c1, if_false, hts, c2]
  by_cases hp1 : p = 1
  · have hdes : deserialize_tree S 4
        = some (internal 0 (leaf c 0) (leaf 0 0), 9) := by
      unfold deserialize_tree
      rw [hlen, show k + 9 - 4 + 1 = (k + 4) + 1 + 1 from by omega]
      have hl := deserialize_leaf_step (k + 4) S 5 (by omega) g5
      have hr := deserialize_leaf_step (k + 4) S 7 (by omega) (by rw [g7]; exact hp1)
      rw [g6] at hl
      rw [gz 8 (Nat.le_refl _)] at hr
      exact deserialize_internal_step _ S 4 _ _ _ _ (by omega) (by rw [g4]; decide) hl hr
    rw [hdes]
    simp only [internal, reduceCtorEq, if_false]
    by_cases h9 : 9 ≥ S.length
    · simp [h9]
    · simp only [h9, if_false]
      cases hd : decode_loop (node 0 0 (leaf c 0) (leaf 0 0)) S (S.getD 9 0) (S.length - (9 + 1))
          (9 + 1) (node 0 0 (leaf c 0) (leaf 0 0), []) with
      | error f => simp
      | ok s =>
        simp only
        intro hcon
        injection hcon with hcon
        have hl := decode_loop_length _ _ _ _ _ _ _ hd
        rw [hcon, hlen] at hl
        simp at hl
        omega
  · obtain ⟨t, ht⟩ := deserialize_no_leaf (k + 4) S 7 (by omega) (by omega) (by
      intro i hi
      by_cases h7 : i = 7
      · rw [h7, g7]; exact hp1
      · rw [gz i (by omega)]; decide)
    have hdes : deserialize_tree S 4 = some (internal 0 (leaf c 0) t, S.length) := by
      unfold deserialize_tree
      rw [hlen, show k + 9 - 4 + 1 = (k + 4) + 1 + 1 from by omega]
      have hl := deserialize_leaf_step (k + 4) S 5 (by omega) g5
      rw [g6] at hl
      rw [hlen] at ht
      exact deserialize_internal_step _ S 4 _ _ _ _ (by omega) (by rw [g4]; decide) hl ht
    rw [hdes]
    simp [internal]

end HuffmanCoder

/-! ## Properties of `compress` and `decompress` -/

namespace HuffmanCoder

open HuffmanNode

/-- C1: the round trip fails on the one-byte input "A": `compress` succeeds, and
`decompress` of its output leaves the tree parser at the end of the stream and then
reads the padding count at index 9 of a 9-byte vector instead of returning "A". -/
theorem roundtrip_fails_single_byte (tie : List HuffmanNode → Nat) :
    compress tie [65] = [0, 0, 0, 3, 0, 1, 65, 7, 0] ∧
    decompress (compress tie [65]) = .fault (.read_out_of_bounds 9) ∧
    decompress (compress tie [65]) ≠ .decoded [65] := by
  rw [compress_single tie [65] 65 1 (by decide)]
  decide

/-- C3: the round trip fails on every single-symbol input: for `n + 1` copies of any
byte value `c`, `decompress` of the stream written by `compress` does not return the
input. For "AAAA" the rebuilt tree swallows the padding count and the payload, and
`decompress` reads index 9 of a 9-byte vector; for 23 bytes of "A" no undefined
behaviour is reached and `decompress` returns 8 bytes instead of 23. -/
theorem roundtrip_fails_single_symbol (tie : List HuffmanNode → Nat) :
    (∀ n c : Nat, decompress (compress tie (List.replicate (n + 1) c))
      ≠ .decoded (List.replicate (n + 1) c)) ∧
    compress tie [65, 65, 65, 65] = [0, 0, 0, 3, 0, 1, 65, 4, 0] ∧
    decompress (compress tie [65, 65, 65, 65]) = .fault (.read_out_of_bounds 9) ∧
    deserialize_tree (compress tie [65, 65, 65, 65]) 4
      = some (internal 0 (leaf 65 0)
          (internal 0 (internal 0 nullptr nullptr) nullptr), 9) ∧
    decompress (compress tie (List.replicate 23 65)) = .decoded (List.replicate 8 65) := by
  refine ⟨fun n c => single_symbol_never_roundtrips tie (n + 1) c (by omega), ?_⟩
  rw [compress_single tie [65, 65, 65, 65] 65 4 (by decide),
    compress_single tie (List.replicate 23 65) 65 23 (by decide)]
  decide

/-- C6: `decompress` is not safe on every input. On `[0,0,0,2,1,65,0,0]` the root is
a leaf and the first tree step dereferences a null child; on `[0,0,0,0,1,65]` the
padding count is read at index 6 of a 6-byte vector. Both inputs pass the two
header checks. -/
theorem decompress_unsafe :
    decompress [0, 0, 0, 2, 1, 65, 0, 0] = .fault .null_dereference ∧
    decompress [0, 0, 0, 0, 1, 65] = .fault (.read_out_of_bounds 6) := by
  decide

/-- C7: compressing the 21 bytes "AAAAAABBBBBCCCCDDDEEF" yields a non-empty stream of
header, serialized tree, padding count and packed bits, and `decompress` returns the
21 bytes from it, whichever node of least frequency the priority queue hands out. -/
theorem roundtrip_known_vector (tie : List HuffmanNode → Nat) :
    compress tie [65, 65, 65, 65, 65, 65, 66, 66, 66, 66, 66, 67, 67, 67, 67, 68, 68, 68,
      69, 69, 70] ≠ [] ∧
    (∃ tree_data encoded_bits,
      compress tie [65, 65, 65, 65, 65, 65, 66, 66, 66, 66, 66, 67, 67, 67, 67, 68, 68, 68,
          69, 69, 70]
        = size_header tree_data.length ++ tree_data ++ [(8 - encoded_bits.length % 8) % 8]
            ++ pack_bits encoded_bits) ∧
    decompress (compress tie [65, 65, 65, 65, 65, 65, 66, 66, 66, 66, 66, 67, 67, 67, 67,
      68, 68, 68, 69, 69, 70])
      = .decoded [65, 65, 65, 65, 65, 65, 66, 66, 66, 66, 66, 67, 67, 67, 67, 68, 68, 68,
          69, 69, 70] := by
  refine ⟨compress_ne_nil tie _ (by simp), ?_,
    decompress_compress_of_distinct tie _ (by decide) 65 66 (by simp) (by simp) (by decide)⟩
  have h2 : 2 ≤ (count_frequencies [65, 65, 65, 65, 65, 65, 66, 66, 66, 66, 66, 67, 67, 67,
      67, 68, 68, 68, 69, 69, 70]).length := by decide
  have h6 : (keys (count_frequencies [65, 65, 65, 65, 65, 65, 66, 66, 66, 66, 66, 67, 67, 67,
      67, 68, 68, 68, 69, 69, 70])).length = 6 := by decide
  obtain ⟨hfull, -, hperm⟩ := build_tree_spec tie _ h2
  have hser := serialize_length _ hfull
  rw [hperm.length_eq, h6] at hser
  refine ⟨serialize_tree (build_tree tie (count_frequencies [65, 65, 65, 65, 65, 65, 66, 66,
      66, 66, 66, 67, 67, 67, 67, 68, 68, 68, 69, 69, 70])) [],
    encode (generate_codes (build_tree tie (count_frequencies [65, 65, 65, 65, 65, 65, 66, 66,
      66, 66, 66, 67, 67, 67, 67, 68, 68, 68, 69, 69, 70])) [] [])
      [65, 65, 65, 65, 65, 65, 66, 66, 66, 66, 66, 67, 67, 67, 67, 68, 68, 68, 69, 69, 70], ?_⟩
  unfold compress
  simp only [List.cons_ne_nil, if_false]
  rw [Nat.mod_eq_of_lt (show (serialize_tree _ []).length < 2 ^ 32 by omega),
    Nat.mod_eq_of_lt (show (8 - _ % 8) % 8 < 256 by omega)]

/-- C8: every input of fewer than 5 bytes, the empty input included, makes
`decompress` fail with the "too small" error; nothing is decoded. -/
theorem decompress_too_small (input : List Nat) (h : input.length < 5) :
    decompress input = .error .too_small := by
  simp [decompress, h]

/-- C8 at the empty input. -/
theorem decompress_too_small_witness :
    ([] : List Nat).length < 5 ∧ decompress [] = .error .too_small :=
  ⟨by decide, decompress_too_small [] (by decide)⟩

/-- C9: for every input of at least 5 bytes whose first four bytes, read big-endian,
give a tree length `L` with `4 + L ≥ length`, `decompress` fails with the "invalid
tree size" error. -/
theorem decompress_invalid_tree_size (input : List Nat) (hb : Bytes input)
    (h5 : 5 ≤ input.length) (hL : 4 + big_endian32 input ≥ input.length) :
    decompress input = .error .invalid_tree_size := by
  have h5' : ¬ input.length < 5 := by omega
  have : input.length ≤ 4 + read_tree_size input := by
    rw [read_tree_size_eq input hb]; exact hL
  simp [decompress, h5', this]

/-- C9 at a six-byte input that declares a tree of two bytes. -/
theorem decompress_invalid_tree_size_witness :
    Bytes [0, 0, 0, 2, 1, 65] ∧ 5 ≤ [0, 0, 0, 2, 1, 65].length ∧
    4 + big_endian32 [0, 0, 0, 2, 1, 65] ≥ [0, 0, 0, 2, 1, 65].length ∧
    decompress [0, 0, 0, 2, 1, 65] = .error .invalid_tree_size :=
  ⟨by decide, by decide, by decide,
    decompress_invalid_tree_size [0, 0, 0, 2, 1, 65] (by decide) (by decide) (by decide)⟩

/-- C10: an input that passes both header checks and whose tree runs out of bytes
is not reported. On `[0,0,0,1,0,0]` (a one-byte tree region holding an internal-node
marker, then the padding count) the parser takes the padding count as the left child,
finds no byte for the remaining children and returns a non-null root; `decompress`
takes that root as rebuilt and reads the padding count at index 6 of a 6-byte vector.
The same happens on `[0,0,0,0,0]`, and on `[0,0,0,3,0,1,65,0]`. -/
theorem truncated_tree_not_detected :
    ¬ ([0, 0, 0, 1, 0, 0].length < 5) ∧
    ¬ (4 + read_tree_size [0, 0, 0, 1, 0, 0] ≥ [0, 0, 0, 1, 0, 0].length) ∧
    deserialize_tree [0, 0, 0, 1, 0, 0] 4
      = some (internal 0 (internal 0 nullptr nullptr) nullptr, 6) ∧
    decompress [0, 0, 0, 1, 0, 0] = .fault (.read_out_of_bounds 6) ∧
    decompress [0, 0, 0, 1, 0, 0] ≠ .error .tree_not_rebuilt ∧
    decompress [0, 0, 0, 0, 0] = .fault (.read_out_of_bounds 5) ∧
    decompress [0, 0, 0, 3, 0, 1, 65, 0] = .fault (.read_out_of_bounds 8) := by
  decide

end HuffmanCoder

/-! ## The layout of the compressed stream -/

namespace HuffmanCoder

open HuffmanNode

theorem count_frequencies_ne_nil (b : List Nat) (hne : b ≠ []) : count_frequencies b ≠ [] := by
  obtain ⟨x, hx⟩ := List.exists_mem_of_ne_nil b hne
  have := ((count_frequencies_keys b).2 x).mpr hx
  intro h
  rw [h] at this
  simp [keys] at this

/-- The serialized tree of an input of bytes is shorter than 768 bytes. -/
theorem serialize_build_lt (tie : List HuffmanNode → Nat) (b : List Nat) (hb : Bytes b)
    (hne : b ≠ []) :
    (serialize_tree (build_tree tie (count_frequencies b)) []).length < 768 := by
  obtain ⟨hs, hm⟩ := count_frequencies_keys b
  have hkl : (keys (count_frequencies b)).length = (count_frequencies b).length := by
    simp [keys]
  by_cases h2 : 2 ≤ (count_frequencies b).length
  · have h256 : (count_frequencies b).length ≤ 256 := by
      rw [← hkl]
      exact sorted_bounded_length _ 256 hs (fun z hz => hb z ((hm z).mp hz))
    obtain ⟨hfull, -, hperm⟩ := build_tree_spec tie (count_frequencies b) h2
    have hser := serialize_length _ hfull
    rw [hperm.length_eq, hkl] at hser
    omega
  · have hF := count_frequencies_ne_nil b hne
    match hc : count_frequencies b, hF, h2 with
    | [(d, f)], _, _ =>
      rw [build_tree_single]
      simp [serialize_tree, internal, leaf, is_leaf]
    | _ :: _ :: _, _, h2 => simp at h2

theorem size_header_bytes (n : Nat) : Bytes (size_header n) := by
  intro x hx
  simp only [size_header, List.mem_cons, List.mem_singleton, List.not_mem_nil, or_false] at hx
  rcases hx with rfl | rfl | rfl | rfl <;> exact Nat.and_lt_two_pow (n := 8) _ (by norm_num)

theorem big_endian32_size_header (n : Nat) (h : n < 2 ^ 32) :
    big_endian32 (size_header n) = n := by
  have h1 := read_tree_size_header n h []
  rw [List.append_nil, read_tree_size_eq _ (size_header_bytes n)] at h1
  exact h1

theorem encode_length (codes : List (Nat × List Char)) (b : List Nat) :
    (encode codes b).length = (b.map (fun x => (map_get codes x []).length)).sum := by
  unfold encode
  rw [List.length_flatMap]
  rfl

/-- C15: for every non-empty input `b`, with `T` the serialized tree and `B` the total
number of code bits of `b`, `compress(b)` is the 4-byte big-endian value of `len(T)`,
then `T`, then the byte `p = (8 - B mod 8) mod 8`, at most 7, then `ceil(B/8)` payload
bytes; its length is `4 + len(T) + 1 + ceil(B/8)`. -/
theorem compress_layout (tie : List HuffmanNode → Nat) (b : List Nat) (hb : Bytes b)
    (hne : b ≠ [])
    (T : List Nat) (hT : T = serialize_tree (build_tree tie (count_frequencies b)) [])
    (codes : List (Nat × List Char))
    (hcodes : codes = generate_codes (build_tree tie (count_frequencies b)) [] [])
    (B : Nat) (hB : B = (b.map (fun x => (map_get codes x []).length)).sum) :
    compress tie b
      = size_header T.length ++ T ++ [(8 - B % 8) % 8] ++ pack_bits (encode codes b) ∧
    (size_header T.length).length = 4 ∧ Bytes (size_header T.length) ∧
    big_endian32 (size_header T.length) = T.length ∧
    (8 - B % 8) % 8 ≤ 7 ∧
    (pack_bits (encode codes b)).length = (B + 7) / 8 ∧
    (compress tie b).length = 4 + T.length + 1 + (B + 7) / 8 := by
  have hlt : T.length < 768 := by rw [hT]; exact serialize_build_lt tie b hb hne
  have hBl : (encode codes b).length = B := by rw [hB]; exact encode_length codes b
  have hcomp : compress tie b
      = size_header T.length ++ T ++ [(8 - B % 8) % 8] ++ pack_bits (encode codes b) := by
    unfold compress
    simp only [hne, if_false]
    rw [← hT, ← hcodes, hBl, Nat.mod_eq_of_lt (show T.length < 2 ^ 32 by omega),
      Nat.mod_eq_of_lt (show (8 - B % 8) % 8 < 256 by omega)]
  refine ⟨hcomp, rfl, size_header_bytes _, big_endian32_size_header _ (by omega), by omega,
    by rw [pack_bits_length, hBl], ?_⟩
  rw [hcomp]
  simp only [List.length_append, size_header_length, List.length_singleton, pack_bits_length,
    hBl]

/-- C15 at the input "AB": four header bytes, five tree bytes, the padding count 6
and one payload byte. -/
theorem compress_layout_witness :
    Bytes [65, 66] ∧ [65, 66] ≠ ([] : List Nat) ∧
    compress (fun _ => 0) [65, 66]
      = size_header 5 ++ [0, 1, 65, 1, 66] ++ [(8 - 2 % 8) % 8]
          ++ pack_bits (encode [(65, ['0']), (66, ['1'])] [65, 66]) ∧
    (compress (fun _ => 0) [65, 66]).length = 4 + 5 + 1 + (2 + 7) / 8 :=
  ⟨by decide, by decide,
    (compress_layout (fun _ => 0) [65, 66] (by decide) (by decide) [0, 1, 65, 1, 66]
      (by decide) [(65, ['0']), (66, ['1'])] (by decide) 2 (by decide)).1,
    (compress_layout (fun _ => 0) [65, 66] (by decide) (by decide) [0, 1, 65, 1, 66]
      (by decide) [(65, ['0']), (66, ['1'])] (by decide) 2 (by decide)).2.2.2.2.2.2⟩

/-- C16: `compress` of the empty byte sequence returns the empty byte sequence, and
for every non-empty input the result is non-empty. -/
theorem compress_empty_iff (tie : List HuffmanNode → Nat) :
    compress tie [] = [] ∧ ∀ b : List Nat, b ≠ [] → compress tie b ≠ [] :=
  ⟨rfl, fun b hb => compress_ne_nil tie b hb⟩

/-- C16 at the one-byte input "A". -/
theorem compress_empty_iff_witness :
    [65] ≠ ([] : List Nat) ∧ compress (fun _ => 0) [65] ≠ [] :=
  ⟨by decide, (compress_empty_iff (fun _ => 0)).2 [65] (by decide)⟩

end HuffmanCoder

/-! ## Error results, padding and key handling of the block cipher -/

namespace AESCipher

theorem remove_padding_check_iff (D : List Nat) (p : Nat) (hp1 : 1 ≤ p) (hp2 : p ≤ D.length) :
    (List.range' 1 p).any (fun i => D.getD (D.length - i) 0 ≠ p) = true
      ↔ ∃ x ∈ D.drop (D.length - p), x ≠ p := by
  rw [List.any_eq_true]
  constructor
  · rintro ⟨i, hi, hne⟩
    have hi' := List.mem_range'_1.mp hi
    have hlt : D.length - i < D.length := by omega
    rw [List.getD_eq_getElem _ _ hlt] at hne
    refine ⟨D[D.length - i], ?_, by simpa using hne⟩
    rw [List.mem_iff_getElem]
    refine ⟨p - i, by rw [List.length_drop]; omega, ?_⟩
    rw [List.getElem_drop]
    congr 1
    omega
  · rintro ⟨x, hx, hne⟩
    obtain ⟨j, hj, rfl⟩ := List.getElem_of_mem hx
    rw [List.length_drop] at hj
    rw [List.getElem_drop] at hne
    refine ⟨p - j, List.mem_range'_1.mpr ⟨by omega, by omega⟩, ?_⟩
    have e : D.length - (p - j) = D.length - p + j := by omega
    rw [e, List.getD_eq_getElem _ _ (by omega)]
    simpa using hne

/-- What `remove_padding` returns for a buffer of at least 16 bytes whose last byte is `p`. -/
theorem remove_padding_cases (D : List Nat) (h16 : 16 ≤ D.length) :
    ((D.getD (D.length - 1) 0 = 0 ∨ 16 < D.getD (D.length - 1) 0 ∨
        ∃ x ∈ D.drop (D.length - D.getD (D.length - 1) 0), x ≠ D.getD (D.length - 1) 0) →
      (remove_padding D).value = D) ∧
    (¬ (D.getD (D.length - 1) 0 = 0 ∨ 16 < D.getD (D.length - 1) 0 ∨
        ∃ x ∈ D.drop (D.length - D.getD (D.length - 1) 0), x ≠ D.getD (D.length - 1) 0) →
      (remove_padding D).value = D.take (D.length - D.getD (D.length - 1) 0)) := by
  have hne : D ≠ [] := by
    intro h; rw [h] at h16; simp at h16
  generalize hp : D.getD (D.length - 1) 0 = p
  unfold remove_padding
  simp only [hne, if_false, hp, BLOCK_SIZE]
  by_cases h1 : p > 16 ∨ p = 0
  · simp only [h1, if_true]
    exact ⟨fun _ => by first | rfl | trivial, fun hn => absurd (by tauto) hn⟩
  · simp only [h1, if_false]
    have hiff := remove_padding_check_iff D p (by omega) (by omega)
    by_cases h2 : (List.range' 1 p).any (fun i => D.getD (D.length - i) 0 ≠ p) = true
    · simp only [h2, if_true]
      exact ⟨fun _ => by first | rfl | trivial, fun hn => absurd (Or.inr (Or.inr (hiff.mp h2))) hn⟩
    · simp only [h2, if_false]
      refine ⟨fun hbad => ?_, fun _ => rfl⟩
      rcases hbad with h | h | h
      · omega
      · omega
      · exact absurd (hiff.mpr h) h2

/-- C11: for every key, `encrypt` returns the empty error result on empty input, and
`decrypt` returns the empty error result on the empty input and on every input whose
length is not a multiple of 16. -/
theorem empty_or_misaligned_input (t : Target) (k : List Nat) :
    (new t k).encrypt [] = ⟨[], some .empty_input⟩ ∧
    (new t k).decrypt [] = ⟨[], some .empty_input⟩ ∧
    ∀ c : List Nat, c.length % 16 ≠ 0 → (new t k).decrypt c = ⟨[], some .invalid_size⟩ := by
  refine ⟨rfl, rfl, ?_⟩
  intro c hc
  have hne : c ≠ [] := by
    intro h; rw [h] at hc; simp at hc
  simp only [decrypt, hne, if_false, BLOCK_SIZE, hc, ne_eq, not_false_eq_true, if_true]

/-- C11 at a three-byte ciphertext. -/
theorem empty_or_misaligned_input_witness :
    [1, 2, 3].length % 16 ≠ 0 ∧
    (new x86_64 [107, 101, 121]).decrypt [1, 2, 3] = ⟨[], some .invalid_size⟩ :=
  ⟨by decide, (empty_or_misaligned_input x86_64 [107, 101, 121]).2.2 [1, 2, 3] (by decide)⟩

/-- C13: for every key and every ciphertext `c` whose length is a positive multiple
of 16, with `D` the block-decrypted buffer and `p` its last byte: `D` is as long as `c`;
if `p` is 0, is greater than 16, or some of the last `p` bytes of `D` is not `p`, then
`decrypt` returns the whole of `D`; otherwise it returns `D` without its last `p`
bytes. -/
theorem decrypt_padding_removal (t : Target) (k c : List Nat) (hc : Bytes c)
    (hpos : 0 < c.length) (hmul : c.length % 16 = 0)
    (D : List Nat) (hD : D = process_blocks (new t k).decrypt_block c)
    (p : Nat) (hp : p = D.getD (D.length - 1) 0) :
    D.length = c.length ∧
    ((p = 0 ∨ 16 < p ∨ ∃ x ∈ D.drop (D.length - p), x ≠ p) →
      ((new t k).decrypt c).value = D ∧ ((new t k).decrypt c).value.length = c.length) ∧
    (¬ (p = 0 ∨ 16 < p ∨ ∃ x ∈ D.drop (D.length - p), x ≠ p) →
      ((new t k).decrypt c).value = D.take (D.length - p) ∧
      ((new t k).decrypt c).value.length = c.length - p) := by
  have hcl : c.length = 16 * (c.length / 16) := by omega
  have hDl : D.length = c.length := by
    rw [hD, process_blocks_length _ (decrypt_block_isBlock _ (new_key_schedule_bytes t k)) c hc
      _ hcl]
    exact hcl.symm
  have hdec : (new t k).decrypt c = remove_padding D := by
    rw [hD]
    exact decrypt_whole_blocks _ c (c.length / 16) (by omega) hcl
  obtain ⟨h1, h2⟩ := remove_padding_cases D (by omega)
  rw [← hp] at h1 h2
  refine ⟨hDl, fun hbad => ?_, fun hgood => ?_⟩
  · rw [hdec, h1 hbad]
    exact ⟨rfl, hDl⟩
  · rw [hdec, h2 hgood]
    refine ⟨rfl, ?_⟩
    rw [List.length_take, hDl]
    omega

/-- C13 at a 16-byte ciphertext of zero bytes under the key "key". -/
theorem decrypt_padding_removal_witness :
    Bytes (List.replicate 16 0) ∧ 0 < (List.replicate 16 0).length ∧
    (List.replicate 16 0).length % 16 = 0 ∧
    (process_blocks (new x86_64 [107, 101, 121]).decrypt_block (List.replicate 16 0)).length
      = (List.replicate 16 0).length ∧
    ((((process_blocks (new x86_64 [107, 101, 121]).decrypt_block (List.replicate 16 0)).getD ((process_blocks (new x86_64 [107, 101, 121]).decrypt_block (List.replicate 16 0)).length - 1) 0) = 0 ∨
        16 < ((process_blocks (new x86_64 [107, 101, 121]).decrypt_block (List.replicate 16 0)).getD ((process_blocks (new x86_64 [107, 101, 121]).decrypt_block (List.replicate 16 0)).length - 1) 0) ∨
        ∃ x ∈ (process_blocks (new x86_64 [107, 101, 121]).decrypt_block (List.replicate 16 0)).drop
            ((process_blocks (new x86_64 [107, 101, 121]).decrypt_block (List.replicate 16 0)).length
              - ((process_blocks (new x86_64 [107, 101, 121]).decrypt_block (List.replicate 16 0)).getD ((process_blocks (new x86_64 [107, 101, 121]).decrypt_block (List.replicate 16 0)).length - 1) 0)),
          x ≠ ((process_blocks (new x86_64 [107, 101, 121]).decrypt_block (List.replicate 16 0)).getD ((process_blocks (new x86_64 [107, 101, 121]).decrypt_block (List.replicate 16 0)).length - 1) 0)) →
      ((new x86_64 [107, 101, 121]).decrypt (List.replicate 16 0)).value
        = (process_blocks (new x86_64 [107, 101, 121]).decrypt_block (List.replicate 16 0)) ∧
      ((new x86_64 [107, 101, 121]).decrypt (List.replicate 16 0)).value.length
        = (List.replicate 16 0).length) ∧
    (¬ (((process_blocks (new x86_64 [107, 101, 121]).decrypt_block (List.replicate 16 0)).getD ((process_blocks (new x86_64 [107, 101, 121]).decrypt_block (List.replicate 16 0)).length - 1) 0) = 0 ∨
        16 < ((process_blocks (new x86_64 [107, 101, 121]).decrypt_block (List.replicate 16 0)).getD ((process_blocks (new x86_64 [107, 101, 121]).decrypt_block (List.replicate 16 0)).length - 1) 0) ∨
        ∃ x ∈ (process_blocks (new x86_64 [107, 101, 121]).decrypt_block (List.replicate 16 0)).drop
            ((process_blocks (new x86_64 [107, 101, 121]).decrypt_block (List.replicate 16 0)).length
              - ((process_blocks (new x86_64 [107, 101, 121]).decrypt_block (List.replicate 16 0)).getD ((process_blocks (new x86_64 [107, 101, 121]).decrypt_block (List.replicate 16 0)).length - 1) 0)),
          x ≠ ((process_blocks (new x86_64 [107, 101, 121]).decrypt_block (List.replicate 16 0)).getD ((process_blocks (new x86_64 [107, 101, 121]).decrypt_block (List.replicate 16 0)).length - 1) 0)) →
      ((new x86_64 [107, 101, 121]).decrypt (List.replicate 16 0)).value
        = (process_blocks (new x86_64 [107, 101, 121]).decrypt_block (List.replicate 16 0)).take
            ((process_blocks (new x86_64 [107, 101, 121]).decrypt_block (List.replicate 16 0)).length
              - ((process_blocks (new x86_64 [107, 101, 121]).decrypt_block (List.replicate 16 0)).getD ((process_blocks (new x86_64 [107, 101, 121]).decrypt_block (List.replicate 16 0)).length - 1) 0)) ∧
      ((new x86_64 [107, 101, 121]).decrypt (List.replicate 16 0)).value.length
        = (List.replicate 16 0).length
          - ((process_blocks (new x86_64 [107, 101, 121]).decrypt_block (List.replicate 16 0)).getD ((process_blocks (new x86_64 [107, 101, 121]).decrypt_block (List.replicate 16 0)).length - 1) 0)) :=
  ⟨by decide, by decide, by decide,
    decrypt_padding_removal x86_64 [107, 101, 121] (List.replicate 16 0) (by decide)
      (by decide) (by decide) _ rfl _ rfl⟩

/-- C14: for every byte sequence `d`, `add_padding(d)` is `d` followed by `p` bytes of
value `p`, where `p = 16 - (len(d) mod 16)` lies between 1 and 16; when `len(d)` is a
multiple of 16, sixteen bytes of value 16 are appended. -/
theorem add_padding_spec (d : List Nat) :
    add_padding d = d ++ List.replicate (16 - d.length % 16) (16 - d.length % 16) ∧
    1 ≤ 16 - d.length % 16 ∧ 16 - d.length % 16 ≤ 16 ∧
    (d.length % 16 = 0 → add_padding d = d ++ List.replicate 16 16) := by
  refine ⟨add_padding_eq d, by omega, by omega, ?_⟩
  intro h
  rw [add_padding_eq, h]

/-- C14 at a 16-byte input: a full block of padding is appended. -/
theorem add_padding_spec_witness :
    (List.replicate 16 7).length % 16 = 0 ∧
    add_padding (List.replicate 16 7) = List.replicate 16 7 ++ List.replicate 16 16 :=
  ⟨by decide, (add_padding_spec (List.replicate 16 7)).2.2.2 (by decide)⟩

end AESCipher

/-! ## Blocks of the ciphertext and the role of the key -/

namespace AESCipher

theorem encrypt_block_at (self : AESCipher) (hk : Bytes self.key_schedule) (b : List Nat)
    (hb : Bytes b) (hne : b ≠ []) (i : Nat) (hi : i < (add_padding b).length / 16) :
    block_at (self.encrypt b).value (16 * i)
      = self.encrypt_block (block_at (add_padding b) (16 * i)) := by
  have hP := add_padding_length b
  have hi' : i < b.length / 16 + 1 := by rw [hP] at hi; omega
  rw [encrypt_value self b hne, process_blocks_eq _ _ _ hP]
  exact block_at_flatten (fun k => self.encrypt_block (block_at (add_padding b) (16 * k)))
    (fun k => (encrypt_block_isBlock self hk _ (block_at_isBlock _ (add_padding_bytes b hb) _)).1)
    _ i hi'

theorem encrypt_value_length (self : AESCipher) (hk : Bytes self.key_schedule) (b : List Nat)
    (hb : Bytes b) (hne : b ≠ []) :
    (self.encrypt b).value.length = 16 * (b.length / 16 + 1) := by
  rw [encrypt_value self b hne]
  exact process_blocks_length _ (encrypt_block_isBlock self hk) _ (add_padding_bytes b hb) _
    (add_padding_length b)

theorem prepare_key_of_same_head (t : Target) (k1 k2 : List Nat) (h1 : 16 ≤ k1.length)
    (h2 : 16 ≤ k2.length) (h : k1.take 16 = k2.take 16) :
    prepare_key t k1 = prepare_key t k2 := by
  unfold prepare_key
  apply List.map_congr_left
  intro i hi
  have hi' : i < 16 := by simpa [KEY_SIZE] using hi
  have e1 : i < k1.length := by omega
  have e2 : i < k2.length := by omega
  rw [if_pos e1, if_pos e2, ← getD_take k1 16 i hi', ← getD_take k2 16 i hi', h]

theorem new_of_same_head (t : Target) (k1 k2 : List Nat) (h1 : 16 ≤ k1.length)
    (h2 : 16 ≤ k2.length) (h : k1.take 16 = k2.take 16) : new t k1 = new t k2 := by
  unfold new
  rw [prepare_key_of_same_head t k1 k2 h1 h2 h]

theorem prepare_key_empty (t : Target) : (prepare_key t []).take 4 = [5, 21, 0, 0] := by
  have h : List.range KEY_SIZE = [0, 1, 2, 3, 4, 5, 6, 7, 8, 9, 10, 11, 12, 13, 14, 15] := by
    decide
  simp only [prepare_key, h, List.map_cons, List.take_succ_cons, List.take_zero,
    List.length_nil, Nat.lt_irrefl, Nat.not_lt_zero, if_false, shift_right32, key_hash,
    List.foldl_nil]
  rw [if_pos (by decide), if_pos (by decide), if_pos (by decide), if_pos (by decide)]
  decide

/-- C17: for every key and non-empty plaintext, the ciphertext has as many blocks as
the padded plaintext, block `i` of the ciphertext is `encrypt_block` of block `i` of
the padded plaintext, and equal blocks of the padded plaintext give equal blocks of
the ciphertext. -/
theorem encrypt_blockwise (t : Target) (k b : List Nat) (hb : Bytes b) (hne : b ≠ []) :
    ((new t k).encrypt b).value.length = (add_padding b).length ∧
    (∀ i, i < (add_padding b).length / 16 →
      block_at ((new t k).encrypt b).value (16 * i)
        = (new t k).encrypt_block (block_at (add_padding b) (16 * i))) ∧
    (∀ i j, i < (add_padding b).length / 16 → j < (add_padding b).length / 16 →
      block_at (add_padding b) (16 * i) = block_at (add_padding b) (16 * j) →
      block_at ((new t k).encrypt b).value (16 * i)
        = block_at ((new t k).encrypt b).value (16 * j)) := by
  have hk := new_key_schedule_bytes t k
  refine ⟨?_, fun i hi => encrypt_block_at _ hk b hb hne i hi, ?_⟩
  · rw [encrypt_value_length _ hk b hb hne, add_padding_length]
  · intro i j hi hj h
    rw [encrypt_block_at _ hk b hb hne i hi, encrypt_block_at _ hk b hb hne j hj, h]

/-- C17 at a plaintext of 32 equal bytes: the first two ciphertext blocks are equal. -/
theorem encrypt_blockwise_witness :
    Bytes (List.replicate 32 7) ∧ List.replicate 32 7 ≠ ([] : List Nat) ∧
    (0 : Nat) < (add_padding (List.replicate 32 7)).length / 16 ∧
    (1 : Nat) < (add_padding (List.replicate 32 7)).length / 16 ∧
    block_at (add_padding (List.replicate 32 7)) (16 * 0)
      = block_at (add_padding (List.replicate 32 7)) (16 * 1) ∧
    block_at ((new x86_64 [107, 101, 121]).encrypt (List.replicate 32 7)).value (16 * 0)
      = block_at ((new x86_64 [107, 101, 121]).encrypt (List.replicate 32 7)).value (16 * 1) :=
  ⟨by decide, by decide, by decide, by decide, by decide,
    (encrypt_blockwise x86_64 [107, 101, 121] (List.replicate 32 7) (by decide)
      (by decide)).2.2 0 1 (by decide) (by decide) (by decide)⟩

/-- C18: two user keys of at least 16 bytes that agree on their first 16 bytes give
the same cipher object, hence the same round-key schedule and the same `encrypt`
and `decrypt` results on every input. -/
theorem key_truncated (t : Target) (k1 k2 : List Nat) (h1 : 16 ≤ k1.length)
    (h2 : 16 ≤ k2.length) (h : k1.take 16 = k2.take 16) :
    (new t k1).key_schedule = (new t k2).key_schedule ∧
    ∀ input, (new t k1).encrypt input = (new t k2).encrypt input ∧
      (new t k1).decrypt input = (new t k2).decrypt input := by
  rw [new_of_same_head t k1 k2 h1 h2 h]
  exact ⟨rfl, fun _ => ⟨rfl, rfl⟩⟩

/-- C18 at sixteen bytes "a" and the same key followed by "b". -/
theorem key_truncated_witness :
    16 ≤ (List.replicate 16 97).length ∧ 16 ≤ (List.replicate 16 97 ++ [98]).length ∧
    (List.replicate 16 97).take 16 = (List.replicate 16 97 ++ [98]).take 16 ∧
    (new x86_64 (List.replicate 16 97)).key_schedule
      = (new x86_64 (List.replicate 16 97 ++ [98])).key_schedule :=
  ⟨by decide, by decide, by decide,
    (key_truncated x86_64 (List.replicate 16 97) (List.replicate 16 97 ++ [98]) (by decide)
      (by decide) (by decide)).1⟩

end AESCipher

/-! ## The XOR cipher -/

namespace XORCipher

theorem rotate_right_rotate_left : ∀ x < 256, ∀ s < 8,
    rotate_right (rotate_left x s) s = x := by
  decide!

theorem apply_inverse_sbox_apply_sbox : ∀ x < 256, apply_inverse_sbox (apply_sbox x) = x := by
  decide!

set_option maxRecDepth 4096 in
theorem sbox_length : sbox.length = 256 := by decide

theorem apply_sbox_lt (x : Nat) : apply_sbox x < 256 := by
  by_cases h : x < 256
  · revert x; decide!
  · unfold apply_sbox
    rw [List.getD_eq_default]
    · decide
    · have hl := sbox_length
      omega

theorem xor_lt_256 {x y : Nat} (hx : x < 256) (hy : y < 256) : x ^^^ y < 256 :=
  Nat.xor_lt_two_pow (n := 8) hx hy

theorem and_255_lt (x : Nat) : x &&& 0xFF < 256 :=
  Nat.and_lt_two_pow (n := 8) x (by norm_num)

theorem xor_xor_cancel (a b : Nat) : (a ^^^ b) ^^^ b = a := by
  rw [Nat.xor_assoc, Nat.xor_self, Nat.xor_zero]

/-- The byte loops undo each other from every position and state. -/
theorem decrypt_loop_encrypt_loop (self : XORCipher) (hk : Bytes self.expanded_key) :
    ∀ (p : List Nat) (i state : Nat), Bytes p → state < 256 →
      decrypt_loop self (encrypt_loop self p i state) i state = p := by
  intro p
  induction p with
  | nil => intro i state _ _; rfl
  | cons b rest ih =>
    intro i state hb hs
    have hb0 : b < 256 := hb b (by simp)
    have hrest : Bytes rest := fun x hx => hb x (by simp [hx])
    have hkb := getD_lt_of_bytes self.expanded_key hk (i % KEY_EXPANSION_SIZE)
    have h1 := xor_lt_256 hb0 hkb
    have h3 := xor_lt_256 (apply_sbox_lt (b ^^^ self.expanded_key.getD (i % KEY_EXPANSION_SIZE) 0)) hs
    simp only [encrypt_loop, decrypt_loop]
    rw [xor_xor_cancel, rotate_right_rotate_left _ h3 _ (Nat.mod_lt _ (by norm_num)),
      xor_xor_cancel, apply_inverse_sbox_apply_sbox _ h1, xor_xor_cancel,
      ih _ _ hrest (and_255_lt _)]

theorem encrypt_loop_length (self : XORCipher) :
    ∀ (p : List Nat) (i state : Nat), (encrypt_loop self p i state).length = p.length := by
  intro p
  induction p with
  | nil => intro i state; rfl
  | cons b rest ih => intro i state; simp only [encrypt_loop, List.length_cons, ih]

theorem foldl_xor_lt (v : List Nat) (h : Bytes v) :
    ∀ state, state < 256 → v.foldl (fun state k => state ^^^ k) state < 256 := by
  induction v with
  | nil => intro state hs; exact hs
  | cons k rest ih =>
    intro state hs
    rw [List.foldl_cons]
    exact ih (fun x hx => h x (by simp [hx])) _ (xor_lt_256 hs (h k (by simp)))

theorem expand_key_spec (t : Target) (key : List Nat) :
    Bytes (expand_key t key) ∧ (expand_key t key).length = 256 := by
  unfold expand_key
  split
  · refine ⟨?_, by simp only [KEY_EXPANSION_SIZE, List.length_replicate]⟩
    intro x hx
    rw [List.eq_of_mem_replicate hx]
    decide
  · have gen : ∀ (js : List Nat) (acc : Nat × List Nat), Bytes acc.2 → acc.2.length = 256 →
        Bytes (js.foldl
          (fun (acc : Nat × List Nat) i =>
            (((mix_key t key i acc.1 >>> 8) ||| (mix_key t key i acc.1 <<< 24)) % 2 ^ 32,
              acc.2.set i (mix_key t key i acc.1 &&& 0xFF))) acc).2 ∧
        (js.foldl
          (fun (acc : Nat × List Nat) i =>
            (((mix_key t key i acc.1 >>> 8) ||| (mix_key t key i acc.1 <<< 24)) % 2 ^ 32,
              acc.2.set i (mix_key t key i acc.1 &&& 0xFF))) acc).2.length = 256 := by
      intro js
      induction js with
      | nil => intro acc h1 h2; exact ⟨h1, h2⟩
      | cons j rest ih =>
        intro acc h1 h2
        rw [List.foldl_cons]
        exact ih _ (AESCipher.bytes_set _ _ _ h1 (and_255_lt _))
          (by rw [List.length_set]; exact h2)
    exact gen _ _ (by
      intro x hx
      rw [List.eq_of_mem_replicate hx]
      decide) (by simp only [KEY_EXPANSION_SIZE, List.length_replicate])

/-- C20: for every non-empty plaintext `p` and every key `k` (empty or not), with one
`XORCipher` built from `k`, `decrypt(encrypt(p))` returns exactly `p`. -/
theorem decrypt_encrypt_xor (t : Target) (k p : List Nat) (hp : Bytes p) (hne : p ≠ []) :
    (new t k).decrypt ((new t k).encrypt p) = p := by
  obtain ⟨hkb, hkl⟩ := expand_key_spec t k
  have hek : (new t k).expanded_key ≠ [] := by
    intro h
    have := congrArg List.length h
    rw [show (new t k).expanded_key = expand_key t k from rfl, hkl] at this
    simp at this
  have henc : (new t k).encrypt p = encrypt_loop (new t k) p 0 (new t k).initial_state := by
    simp only [encrypt, hne, hek, if_false]
  have hcne : encrypt_loop (new t k) p 0 (new t k).initial_state ≠ [] := by
    intro h
    have := congrArg List.length h
    rw [encrypt_loop_length] at this
    exact hne (List.length_eq_zero.mp this)
  rw [henc]
  simp only [decrypt, hcne, hek, if_false]
  exact decrypt_loop_encrypt_loop _ hkb p 0 _ hp (foldl_xor_lt _ hkb 0 (by norm_num))

/-- C20 at the key and the message of `test-xor.cpp`. -/
theorem decrypt_encrypt_xor_witness :
    Bytes [69, 115, 116, 101, 32, 101, 115, 32, 117, 110, 32, 109, 101, 110, 115, 97, 106, 101,
      32, 115, 117, 112, 101, 114, 32, 115, 101, 99, 114, 101, 116, 111, 33] ∧
    [69, 115, 116, 101, 32, 101, 115, 32, 117, 110, 32, 109, 101, 110, 115, 97, 106, 101,
      32, 115, 117, 112, 101, 114, 32, 115, 101, 99, 114, 101, 116, 111, 33] ≠ ([] : List Nat) ∧
    (new x86_64 [77, 105, 67, 108, 97, 118, 101, 83, 101, 99, 114, 101, 116, 97, 49, 50, 51]).decrypt
      ((new x86_64 [77, 105, 67, 108, 97, 118, 101, 83, 101, 99, 114, 101, 116, 97, 49, 50,
        51]).encrypt
        [69, 115, 116, 101, 32, 101, 115, 32, 117, 110, 32, 109, 101, 110, 115, 97, 106, 101,
          32, 115, 117, 112, 101, 114, 32, 115, 101, 99, 114, 101, 116, 111, 33])
      = [69, 115, 116, 101, 32, 101, 115, 32, 117, 110, 32, 109, 101, 110, 115, 97, 106, 101,
          32, 115, 117, 112, 101, 114, 32, 115, 101, 99, 114, 101, 116, 111, 33] :=
  ⟨by decide, by decide, decrypt_encrypt_xor x86_64 _ _ (by decide) (by decide)⟩

end XORCipher

/-! ## Inverse pairs: Huffman round trip, block round trip, MixColumns, tree format -/

namespace HuffmanCoder

open HuffmanNode

/-- C21: for every byte sequence `b` holding two distinct byte values `x ≠ y`, and for
every order `tie` in which the priority queue hands out nodes of equal frequency,
`decompress (compress b)` decodes exactly `b`. -/
theorem decompress_compress (tie : List HuffmanNode → Nat) (b : List Nat) (hb : Bytes b)
    (x y : Nat) (hx : x ∈ b) (hy : y ∈ b) (hxy : x ≠ y) :
    decompress (compress tie b) = .decoded b :=
  decompress_compress_of_distinct tie b hb x y hx hy hxy

/-- C21 at the input "ABA", the queue taking the first or the last candidate. -/
theorem decompress_compress_witness :
    Bytes [65, 66, 65] ∧ 65 ∈ [65, 66, 65] ∧ 66 ∈ [65, 66, 65] ∧ 65 ≠ 66 ∧
    decompress (compress (fun _ => 0) [65, 66, 65]) = .decoded [65, 66, 65] ∧
    decompress (compress (fun q => q.length) [65, 66, 65]) = .decoded [65, 66, 65] :=
  ⟨by decide, by decide, by decide, by decide,
    decompress_compress (fun _ => 0) [65, 66, 65] (by decide) 65 66 (by decide) (by decide)
      (by decide),
    decompress_compress (fun q => q.length) [65, 66, 65] (by decide) 65 66 (by decide)
      (by decide) (by decide)⟩

/-- C30: the tree format is self-delimiting. For every tree `t` whose internal nodes all
have two children and every byte suffix `s`, `deserialize_tree` started at index 0 of
`serialize_tree t` followed by `s` returns the tree of the same shape and leaf values
(`strip t`: the format stores no frequencies) and stops at index `len (serialize_tree t)`. -/
theorem deserialize_tree_serialize_tree (t : HuffmanNode) (h : Full t) (s : List Nat) :
    deserialize_tree (serialize_tree t [] ++ s) 0
      = some (strip t, (serialize_tree t []).length) ∧
    leaves (strip t) = leaves t := by
  constructor
  · have := deserialize_serialize t h ((serialize_tree t [] ++ s).length - 0 + 1) [] s
      (by simp only [List.length_append]; omega)
    simpa [deserialize_tree] using this
  · exact strip_leaves t h

/-- C30 at the tree with leaves 'A' (left) and 'B' (right), followed by the bytes 7, 0. -/
theorem deserialize_tree_serialize_tree_witness :
    Full (internal 2 (leaf 65 1) (leaf 66 1)) ∧
    serialize_tree (internal 2 (leaf 65 1) (leaf 66 1)) [] = [0, 1, 65, 1, 66] ∧
    deserialize_tree ([0, 1, 65, 1, 66] ++ [7, 0]) 0
      = some (internal 0 (leaf 65 0) (leaf 66 0), 5) :=
  ⟨Full.internal _ _ _ _ (Full.leaf _ _) (Full.leaf _ _), rfl,
    (deserialize_tree_serialize_tree (internal 2 (leaf 65 1) (leaf 66 1))
      (Full.internal _ _ _ _ (Full.leaf _ _) (Full.leaf _ _)) [7, 0]).1⟩

end HuffmanCoder

namespace AESCipher

/-- C22: under the round-key schedule the constructor builds from any user key (on any
target), `decrypt_block (encrypt_block x) = x` for every 16-byte block `x`. -/
theorem decrypt_block_encrypt_block_new (t : Target) (user_key : List Nat) (x : List Nat)
    (h : IsBlock x) :
    (new t user_key).decrypt_block ((new t user_key).encrypt_block x) = x :=
  decrypt_block_encrypt_block _ (new_key_schedule_bytes t user_key) x h

/-- C22 at the key "key" and the block 0, 1, ..., 15. -/
theorem decrypt_block_encrypt_block_new_witness :
    IsBlock (List.range 16) ∧
    (new x86_64 [107, 101, 121]).decrypt_block
      ((new x86_64 [107, 101, 121]).encrypt_block (List.range 16)) = List.range 16 :=
  ⟨⟨by decide, by decide⟩, decrypt_block_encrypt_block_new x86_64 [107, 101, 121] (List.range 16) ⟨by decide, by decide⟩⟩

/-- C23: for every 16-byte state `s`, `inv_mix_columns (mix_columns s) = s`: on each group
`(a, b, c, d)` of bytes the combination with the coefficients 14, 11, 13, 9 undoes the
combination with the coefficients 2, 3, 1, 1 (and the other way round). -/
theorem inv_mix_columns_mix_columns_id (s : List Nat) (h : IsBlock s) :
    inv_mix_columns (mix_columns s) = s ∧ mix_columns (inv_mix_columns s) = s ∧
    ∀ a b c d, a < 256 → b < 256 → c < 256 → d < 256 →
      (match mix_column a b c d with
        | [p, q, r, u] => inv_mix_column p q r u
        | _ => []) = [a, b, c, d] :=
  ⟨inv_mix_columns_mix_columns s h, mix_columns_inv_mix_columns s h,
    fun a b c d ha hb hc hd => inv_mix_column_mix_column a b c d ha hb hc hd⟩

/-- C23 at the state 0, 1, ..., 15. -/
theorem inv_mix_columns_mix_columns_id_witness :
    IsBlock (List.range 16) ∧ inv_mix_columns (mix_columns (List.range 16)) = List.range 16 :=
  ⟨⟨by decide, by decide⟩, (inv_mix_columns_mix_columns_id (List.range 16) ⟨by decide, by decide⟩).1⟩

end AESCipher

/-! ## The round-key schedule -/

namespace AESCipher

end AESCipher

/-! ## The code table -/

namespace HuffmanCoder

open HuffmanNode

/-- In a full tree the paths to two different leaf values branch apart: neither path
is an initial segment of the other. -/
theorem path_not_initial (t : HuffmanNode) (h : Full t) :
    ∀ x y, x ∈ leaves t → y ∈ leaves t → x ≠ y → ¬ (path t x <+: path t y) := by
  induction h with
  | leaf d f =>
    intro x y hx hy hxy
    rw [leaves_leaf, List.mem_singleton] at hx hy
    exact absurd (hx.trans hy.symm) hxy
  | internal d f l r hl hr ihl ihr =>
    intro x y hx hy hxy
    rw [leaves_internal _ _ _ _ hl, List.mem_append] at hx hy
    rw [path_internal _ _ _ _ hl, path_internal _ _ _ _ hl]
    by_cases hxr : x ∈ leaves r <;> by_cases hyr : y ∈ leaves r
    · rw [if_pos hxr, if_pos hyr, List.cons_prefix_cons]
      exact fun hp => ihr x y hxr hyr hxy hp.2
    · rw [if_pos hxr, if_neg hyr, List.cons_prefix_cons]
      exact fun hp => absurd hp.1 (by decide)
    · rw [if_neg hxr, if_pos hyr, List.cons_prefix_cons]
      exact fun hp => absurd hp.1 (by decide)
    · rw [if_neg hxr, if_neg hyr, List.cons_prefix_cons]
      exact fun hp => ihl x y (hx.resolve_right hxr) (hy.resolve_right hyr) hxy hp.2

/-- Below a root that is no leaf every path takes at least one branch. -/
theorem path_ne_nil (t : HuffmanNode) (h : Full t) (hleaf : t.is_leaf = false) (x : Nat) :
    path t x ≠ [] := by
  cases h with
  | leaf d f => exact absurd hleaf (by simp [is_leaf])
  | internal d f l r hl hr =>
    rw [path_internal _ _ _ _ hl]
    split <;> simp

/-- The keys `generate_codes` writes are the leaf values of the tree. -/
theorem keys_generate_codes (t : HuffmanNode) :
    ∀ (code : List Char) (codes : List (Nat × List Char)) (x : Nat),
      x ∈ keys (generate_codes t code codes) ↔ x ∈ leaves t ∨ x ∈ keys codes := by
  induction t with
  | nullptr =>
    intro code codes x
    simp [generate_codes, leaves]
  | node d f l r ihl ihr =>
    intro code codes x
    unfold generate_codes leaves
    by_cases hleaf : (node d f l r).is_leaf = true
    · simp only [hleaf, if_true, mem_keys_map_set, List.mem_singleton]
    · simp only [hleaf, if_false, Bool.false_eq_true, ihr, ihl, List.mem_append]
      tauto

/-- The tree of an input with two distinct byte values, and the code of each byte. -/
theorem build_tree_codes (tie : List HuffmanNode → Nat) (input : List Nat) (x y : Nat)
    (hx : x ∈ input) (hy : y ∈ input) (hxy : x ≠ y) :
    Full (build_tree tie (count_frequencies input)) ∧
    (build_tree tie (count_frequencies input)).is_leaf = false ∧
    (∀ z, z ∈ leaves (build_tree tie (count_frequencies input)) ↔ z ∈ input) ∧
    ∀ z, z ∈ input →
      map_get (generate_codes (build_tree tie (count_frequencies input)) [] []) z []
        = path (build_tree tie (count_frequencies input)) z := by
  obtain ⟨-, hm⟩ := count_frequencies_keys input
  have hkl : (keys (count_frequencies input)).length = (count_frequencies input).length := by
    simp [keys]
  have h2 : 2 ≤ (count_frequencies input).length := by
    rw [← hkl]
    exact two_le_length_of_ne _ x y ((hm x).mpr hx) ((hm y).mpr hy) hxy
  obtain ⟨hfull, hleaf, hperm⟩ := build_tree_spec tie _ h2
  have hmem : ∀ z, z ∈ leaves (build_tree tie (count_frequencies input)) ↔ z ∈ input :=
    fun z => (hperm.mem_iff).trans (hm z)
  refine ⟨hfull, hleaf, hmem, ?_⟩
  intro z hz
  rw [generate_codes_get _ hfull, if_pos ((hmem z).mpr hz), List.nil_append]

/-- C28: the code table `compress` derives for an input is free of initial segments:
for two distinct byte values `x`, `y` of the input, the code of `x` is no initial
segment of the code of `y` (and, exchanging the two, the code of `y` none of the code
of `x`), for every order in which the queue hands out equal frequencies. -/
theorem codes_branch_apart (tie : List HuffmanNode → Nat) (input : List Nat) (x y : Nat)
    (hx : x ∈ input) (hy : y ∈ input) (hxy : x ≠ y) :
    ¬ (map_get (generate_codes (build_tree tie (count_frequencies input)) [] []) x []
        <+: map_get (generate_codes (build_tree tie (count_frequencies input)) [] []) y []) ∧
    ¬ (map_get (generate_codes (build_tree tie (count_frequencies input)) [] []) y []
        <+: map_get (generate_codes (build_tree tie (count_frequencies input)) [] []) x []) := by
  obtain ⟨hfull, -, hmem, hcode⟩ := build_tree_codes tie input x y hx hy hxy
  rw [hcode x hx, hcode y hy]
  exact ⟨path_not_initial _ hfull x y ((hmem x).mpr hx) ((hmem y).mpr hy) hxy,
    path_not_initial _ hfull y x ((hmem y).mpr hy) ((hmem x).mpr hx) (Ne.symm hxy)⟩

/-- C28 at the input "ABBC": the codes of 'A' and 'B'. -/
theorem codes_branch_apart_witness :
    65 ∈ [65, 66, 66, 67] ∧ 66 ∈ [65, 66, 66, 67] ∧ 65 ≠ 66 ∧
    generate_codes (build_tree (fun _ => 0) (count_frequencies [65, 66, 66, 67])) [] []
      = [(65, ['1', '0']), (66, ['0']), (67, ['1', '1'])] ∧
    ¬ (map_get (generate_codes (build_tree (fun _ => 0)
          (count_frequencies [65, 66, 66, 67])) [] []) 65 []
        <+: map_get (generate_codes (build_tree (fun _ => 0)
          (count_frequencies [65, 66, 66, 67])) [] []) 66 []) :=
  ⟨by decide, by decide, by decide, by decide,
    (codes_branch_apart (fun _ => 0) [65, 66, 66, 67] 65 66 (by decide) (by decide)
      (by decide)).1⟩

theorem eq_replicate_of_all_eq (input : List Nat) (x : Nat) (h : ∀ y ∈ input, y = x) :
    input = List.replicate input.length x :=
  List.eq_replicate_iff.mpr ⟨rfl, h⟩

/-- The code table of an input made of one repeated byte value. -/
theorem codes_single (tie : List HuffmanNode → Nat) (input : List Nat) (x : Nat)
    (hx : x ∈ input) (h : ∀ y ∈ input, y = x) :
    generate_codes (build_tree tie (count_frequencies input)) [] [] = [(x, ['0'])] := by
  have hpos : 0 < input.length := List.length_pos_of_mem hx
  obtain ⟨f, hf⟩ := count_frequencies_replicate input.length x hpos
  rw [← eq_replicate_of_all_eq input x h] at hf
  rw [hf, build_tree_single]
  rfl

/-- C29: for every non-empty input, every byte value `x` occurring in it has an entry
in the code table and its code is not empty; when `x` is the only byte value of the
input the table is the single entry `x ↦ "0"`. -/
theorem every_symbol_has_code (tie : List HuffmanNode → Nat) (input : List Nat) (x : Nat)
    (hx : x ∈ input) :
    x ∈ keys (generate_codes (build_tree tie (count_frequencies input)) [] []) ∧
    map_get (generate_codes (build_tree tie (count_frequencies input)) [] []) x [] ≠ [] ∧
    ((∀ y ∈ input, y = x) →
      generate_codes (build_tree tie (count_frequencies input)) [] [] = [(x, ['0'])] ∧
      map_get (generate_codes (build_tree tie (count_frequencies input)) [] []) x []
        = ['0']) := by
  have hsingle : (∀ y ∈ input, y = x) →
      generate_codes (build_tree tie (count_frequencies input)) [] [] = [(x, ['0'])] ∧
      map_get (generate_codes (build_tree tie (count_frequencies input)) [] []) x []
        = ['0'] := by
    intro h
    have e := codes_single tie input x hx h
    refine ⟨e, ?_⟩
    rw [e]
    simp [map_get]
  by_cases hall : ∀ y ∈ input, y = x
  · obtain ⟨e, hc⟩ := hsingle hall
    refine ⟨?_, ?_, hsingle⟩
    · rw [e]; simp [keys]
    · rw [hc]; simp
  · have hex : ∃ y, y ∈ input ∧ y ≠ x := by
      by_contra hno
      exact hall (fun y hy => by_contra (fun hne => hno ⟨y, hy, hne⟩))
    obtain ⟨y, hy, hyx⟩ := hex
    obtain ⟨hfull, hleaf, hmem, hcode⟩ := build_tree_codes tie input x y hx hy (Ne.symm hyx)
    refine ⟨?_, ?_, hsingle⟩
    · exact (keys_generate_codes _ _ _ _).mpr (Or.inl ((hmem x).mpr hx))
    · rw [hcode x hx]
      exact path_ne_nil _ hfull hleaf x

/-- C29 at the inputs "AAA" (one byte value, code "0") and "AB". -/
theorem every_symbol_has_code_witness :
    65 ∈ [65, 65, 65] ∧ (∀ y ∈ [65, 65, 65], y = 65) ∧
    generate_codes (build_tree (fun _ => 0) (count_frequencies [65, 65, 65])) [] []
      = [(65, ['0'])] ∧
    66 ∈ keys (generate_codes (build_tree (fun _ => 0) (count_frequencies [65, 66])) [] []) ∧
    map_get (generate_codes (build_tree (fun _ => 0) (count_frequencies [65, 66])) [] []) 66 []
      ≠ [] :=
  ⟨by decide, by decide,
    ((every_symbol_has_code (fun _ => 0) [65, 65, 65] 65 (by decide)).2.2 (by decide)).1,
    (every_symbol_has_code (fun _ => 0) [65, 66] 66 (by decide)).1,
    (every_symbol_has_code (fun _ => 0) [65, 66] 66 (by decide)).2.1⟩

end HuffmanCoder

/-! ## The four 4-byte groups of a state -/

namespace AESCipher

theorem shift_rows_length (s : List Nat) : (shift_rows s).length = s.length := by
  unfold shift_rows
  split <;> rfl

theorem mix_columns_length (s : List Nat) : (mix_columns s).length = s.length := by
  unfold mix_columns
  split <;> rfl

theorem group_sub_bytes (x y : List Nat) (g : Nat) (h : group x g = group y g) :
    group (sub_bytes x) g = group (sub_bytes y) g := by
  simp only [group, sub_bytes, ← List.map_drop, ← List.map_take] at h ⊢
  rw [h]

theorem group_shift_rows (x y : List Nat) (hx : x.length = 16) (hy : y.length = 16) (g : Nat)
    (hg : g < 4) (h : group x g = group y g) :
    group (shift_rows x) g = group (shift_rows y) g := by
  obtain ⟨x0, x1, x2, x3, x4, x5, x6, x7, x8, x9, x10, x11, x12, x13, x14, x15, rfl⟩ :=
    length_16_cases x hx
  obtain ⟨y0, y1, y2, y3, y4, y5, y6, y7, y8, y9, y10, y11, y12, y13, y14, y15, rfl⟩ :=
    length_16_cases y hy
  interval_cases g <;> simp [group] at h <;> obtain ⟨rfl, rfl, rfl, rfl⟩ := h <;> rfl

theorem group_mix_columns (x y : List Nat) (hx : x.length = 16) (hy : y.length = 16) (g : Nat)
    (hg : g < 4) (h : group x g = group y g) :
    group (mix_columns x) g = group (mix_columns y) g := by
  obtain ⟨x0, x1, x2, x3, x4, x5, x6, x7, x8, x9, x10, x11, x12, x13, x14, x15, rfl⟩ :=
    length_16_cases x hx
  obtain ⟨y0, y1, y2, y3, y4, y5, y6, y7, y8, y9, y10, y11, y12, y13, y14, y15, rfl⟩ :=
    length_16_cases y hy
  interval_cases g <;> simp [group] at h <;> obtain ⟨rfl, rfl, rfl, rfl⟩ := h <;> rfl

theorem group_getD (s : List Nat) (g j : Nat) (hj : j < 4) :
    (group s g).getD j 0 = s.getD (4 * g + j) 0 := by
  simp [group, List.getD_eq_getElem?_getD, List.getElem?_take, hj]

theorem group_length (s : List Nat) (hs : s.length = 16) (g : Nat) (hg : g < 4) :
    (group s g).length = 4 := by
  simp only [group, List.length_take, List.length_drop, hs]
  omega

/-- Two states have the same group `g` when they agree on the bytes `4g .. 4g+3`. -/
theorem group_eq_iff (x y : List Nat) (hx : x.length = 16) (hy : y.length = 16) (g : Nat)
    (hg : g < 4) :
    group x g = group y g ↔ ∀ j, j < 4 → x.getD (4 * g + j) 0 = y.getD (4 * g + j) 0 := by
  constructor
  · intro h j hj
    rw [← group_getD x g j hj, ← group_getD y g j hj, h]
  · intro h
    apply List.ext_getElem
    · rw [group_length x hx g hg, group_length y hy g hg]
    · intro j h1 h2
      have hj : j < 4 := by rw [group_length x hx g hg] at h1; exact h1
      rw [← List.getD_eq_getElem _ 0 h1, ← List.getD_eq_getElem _ 0 h2, group_getD x g j hj,
        group_getD y g j hj]
      exact h j hj

theorem add_round_key_getD (self : AESCipher) (s : List Nat) (round i : Nat)
    (h : i < s.length) :
    (self.add_round_key s round).getD i 0
      = s.getD i 0 ^^^ self.key_schedule.getD (round * 16 + i) 0 := by
  rw [List.getD_eq_getElem _ _ (by rw [add_round_key_length]; exact h),
    List.getD_eq_getElem _ _ h]
  simp [add_round_key]

theorem group_add_round_key (self : AESCipher) (round : Nat) (x y : List Nat)
    (hx : x.length = 16) (hy : y.length = 16) (g : Nat) (hg : g < 4)
    (h : group x g = group y g) :
    group (self.add_round_key x round) g = group (self.add_round_key y round) g := by
  rw [group_eq_iff _ _ (by rw [add_round_key_length, hx]) (by rw [add_round_key_length, hy])
    g hg]
  rw [group_eq_iff x y hx hy g hg] at h
  intro j hj
  rw [add_round_key_getD _ _ _ _ (by omega), add_round_key_getD _ _ _ _ (by omega), h j hj]

/-- One main round of `encrypt_block` keeps two states equal on a group. -/
theorem group_round (self : AESCipher) (round : Nat) (x y : List Nat)
    (hx : x.length = 16) (hy : y.length = 16) (g : Nat) (hg : g < 4)
    (h : group x g = group y g) :
    group (self.add_round_key (mix_columns (shift_rows (sub_bytes x))) round) g
      = group (self.add_round_key (mix_columns (shift_rows (sub_bytes y))) round) g := by
  have hsx : (sub_bytes x).length = 16 := by rw [sub_bytes_length, hx]
  have hsy : (sub_bytes y).length = 16 := by rw [sub_bytes_length, hy]
  have hrx : (shift_rows (sub_bytes x)).length = 16 := by rw [shift_rows_length, hsx]
  have hry : (shift_rows (sub_bytes y)).length = 16 := by rw [shift_rows_length, hsy]
  exact group_add_round_key self round _ _ (by rw [mix_columns_length, hrx])
    (by rw [mix_columns_length, hry]) g hg
    (group_mix_columns _ _ hrx hry g hg
      (group_shift_rows _ _ hsx hsy g hg (group_sub_bytes x y g h)))

theorem round_length (self : AESCipher) (round : Nat) (x : List Nat) (hx : x.length = 16) :
    (self.add_round_key (mix_columns (shift_rows (sub_bytes x))) round).length = 16 := by
  rw [add_round_key_length, mix_columns_length, shift_rows_length, sub_bytes_length, hx]

/-- The groups of `encrypt_block`: equal input groups give equal output groups. -/
theorem encrypt_block_group (self : AESCipher) (g : Nat) (hg : g < 4) (x y : List Nat)
    (hx : x.length = 16) (hy : y.length = 16) (h : group x g = group y g) :
    group (self.encrypt_block x) g = group (self.encrypt_block y) g := by
  have l0x : (self.add_round_key x 0).length = 16 := by rw [add_round_key_length, hx]
  have l0y : (self.add_round_key y 0).length = 16 := by rw [add_round_key_length, hy]
  have l1x := round_length self 1 _ l0x
  have l1y := round_length self 1 _ l0y
  have l2x := round_length self 2 _ l1x
  have l2y := round_length self 2 _ l1y
  have l3x := round_length self 3 _ l2x
  have l3y := round_length self 3 _ l2y
  have g0 := group_add_round_key self 0 x y hx hy g hg h
  have g1 := group_round self 1 _ _ l0x l0y g hg g0
  have g2 := group_round self 2 _ _ l1x l1y g hg g1
  have g3 := group_round self 3 _ _ l2x l2y g hg g2
  have s3x : (sub_bytes (self.add_round_key (mix_columns (shift_rows (sub_bytes
      (self.add_round_key (mix_columns (shift_rows (sub_bytes (self.add_round_key
        (mix_columns (shift_rows (sub_bytes (self.add_round_key x 0)))) 1)))) 2)))) 3)).length
      = 16 := by rw [sub_bytes_length, l3x]
  have s3y : (sub_bytes (self.add_round_key (mix_columns (shift_rows (sub_bytes
      (self.add_round_key (mix_columns (shift_rows (sub_bytes (self.add_round_key
        (mix_columns (shift_rows (sub_bytes (self.add_round_key y 0)))) 1)))) 2)))) 3)).length
      = 16 := by rw [sub_bytes_length, l3y]
  show group (self.add_round_key (shift_rows (sub_bytes
      (List.foldl _ (self.add_round_key x 0) [1, 2, 3]))) NUM_ROUNDS) g
    = group (self.add_round_key (shift_rows (sub_bytes
      (List.foldl _ (self.add_round_key y 0) [1, 2, 3]))) NUM_ROUNDS) g
  simp only [List.foldl]
  exact group_add_round_key self NUM_ROUNDS _ _ (by rw [shift_rows_length, s3x])
    (by rw [shift_rows_length, s3y]) g hg
    (group_shift_rows _ _ s3x s3y g hg (group_sub_bytes _ _ g g3))

theorem encrypt_block_length (self : AESCipher) (x : List Nat) (hx : x.length = 16) :
    (self.encrypt_block x).length = 16 := by
  have l0 : (self.add_round_key x 0).length = 16 := by rw [add_round_key_length, hx]
  have l3 := round_length self 3 _ (round_length self 2 _ (round_length self 1 _ l0))
  show (self.add_round_key (shift_rows (sub_bytes
      (List.foldl _ (self.add_round_key x 0) [1, 2, 3]))) NUM_ROUNDS).length = 16
  simp only [List.foldl]
  rw [add_round_key_length, shift_rows_length, sub_bytes_length, l3]

/-- C25: `encrypt_block` has no diffusion across the four 4-byte groups of a block: for
every cipher object (every round-key schedule), every `g` in `0..3` and any two 16-byte
blocks `x`, `y` that agree on the bytes `4g .. 4g+3`, the blocks `encrypt_block x` and
`encrypt_block y` agree on the bytes `4g .. 4g+3`. -/
theorem encrypt_block_no_diffusion (self : AESCipher) (g : Nat) (hg : g < 4) (x y : List Nat)
    (hx : x.length = 16) (hy : y.length = 16)
    (h : ∀ j, j < 4 → x.getD (4 * g + j) 0 = y.getD (4 * g + j) 0) :
    ∀ j, j < 4 →
      (self.encrypt_block x).getD (4 * g + j) 0 = (self.encrypt_block y).getD (4 * g + j) 0 :=
  (group_eq_iff _ _ (encrypt_block_length self x hx) (encrypt_block_length self y hy) g hg).mp
    (encrypt_block_group self g hg x y hx hy ((group_eq_iff x y hx hy g hg).mpr h))

/-- C25 at the key "key": two blocks that agree on the bytes 4..7 only; their
ciphertext blocks agree on byte 5. -/
theorem encrypt_block_no_diffusion_witness :
    (∀ j, j < 4 → (List.range 16).getD (4 * 1 + j) 0
      = (List.replicate 4 9 ++ [4, 5, 6, 7] ++ List.replicate 8 9).getD (4 * 1 + j) 0) ∧
    ((new x86_64 [107, 101, 121]).encrypt_block (List.range 16)).getD (4 * 1 + 1) 0
      = ((new x86_64 [107, 101, 121]).encrypt_block
          (List.replicate 4 9 ++ [4, 5, 6, 7] ++ List.replicate 8 9)).getD (4 * 1 + 1) 0 :=
  ⟨by decide,
    encrypt_block_no_diffusion (new x86_64 [107, 101, 121]) 1 (by decide) (List.range 16)
      (List.replicate 4 9 ++ [4, 5, 6, 7] ++ List.replicate 8 9) (by decide) (by decide)
      (by decide) 1 (by decide)⟩

/-- C24: `mix_columns` does not mix the columns of the row-major matrix of `shift_rows`.
On the state whose only non-zero byte is a 1 at index 0 the code changes the bytes at the
indices 0, 1, 2, 3 (row 0), where the column combination changes the bytes at the indices
0, 4, 8, 12 (column 0); and the output byte at index 0 depends on the input byte at
index 1, a byte of column 1. -/
theorem mix_columns_mixes_rows :
    mix_columns [1, 0, 0, 0, 0, 0, 0, 0, 0, 0, 0, 0, 0, 0, 0, 0]
      = [2, 1, 1, 3, 0, 0, 0, 0, 0, 0, 0, 0, 0, 0, 0, 0] ∧
    mix_columns_of_matrix [1, 0, 0, 0, 0, 0, 0, 0, 0, 0, 0, 0, 0, 0, 0, 0]
      = [2, 0, 0, 0, 1, 0, 0, 0, 1, 0, 0, 0, 3, 0, 0, 0] ∧
    (mix_columns [0, 1, 0, 0, 0, 0, 0, 0, 0, 0, 0, 0, 0, 0, 0, 0]).getD 0 0 = 3 ∧
    (mix_columns [0, 0, 0, 0, 0, 0, 0, 0, 0, 0, 0, 0, 0, 0, 0, 0]).getD 0 0 = 0 ∧
    (mix_columns [0, 0, 0, 0, 1, 0, 0, 0, 0, 0, 0, 0, 0, 0, 0, 0]).getD 0 0 = 0 := by
  decide

end AESCipher

/-! ## `galois_multiply` as multiplication in GF(2^8) -/

namespace AESCipher

theorem ite_xor_zero (c : Prop) [Decidable c] (r x : Nat) :
    (if c then r ^^^ x else r) = r ^^^ (if c then x else 0) := by
  split <;> simp

theorem ite_xor_ite (c : Prop) [Decidable c] (x y : Nat) :
    (if c then x ^^^ y else 0) = (if c then x else 0) ^^^ (if c then y else 0) := by
  split <;> simp

theorem ite_bool_xor (p q : Bool) (x : Nat) :
    (if (p ^^ q) = true then x else 0) = (if p = true then x else 0) ^^^ (if q = true then x else 0) := by
  cases p <;> cases q <;> simp

theorem and_one_ne_zero (n : Nat) : (n &&& 1 ≠ 0) ↔ n.testBit 0 = true := by
  have h : (1 : Nat) = 2 ^ 0 := by norm_num
  rw [h, Nat.and_two_pow]
  cases n.testBit 0 <;> simp

/-- The loop of `galois_multiply` written out: bit `j` of `b` adds `a` doubled `j` times. -/
theorem galois_multiply_unroll (a b : Nat) :
    galois_multiply a b
      = (if b.testBit 0 then a else 0)
        ^^^ (if b.testBit 1 then xtime a else 0)
        ^^^ (if b.testBit 2 then xtime (xtime a) else 0)
        ^^^ (if b.testBit 3 then xtime (xtime (xtime a)) else 0)
        ^^^ (if b.testBit 4 then xtime (xtime (xtime (xtime a))) else 0)
        ^^^ (if b.testBit 5 then xtime (xtime (xtime (xtime (xtime a)))) else 0)
        ^^^ (if b.testBit 6 then xtime (xtime (xtime (xtime (xtime (xtime a))))) else 0)
        ^^^ (if b.testBit 7 then xtime (xtime (xtime (xtime (xtime (xtime (xtime a))))))
              else 0) := by
  unfold galois_multiply
  simp only [galois_loop_succ, and_one_ne_zero, Nat.testBit_shiftRight, ite_xor_zero,
    Nat.zero_xor]
  rfl

theorem xtime_zero : xtime 0 = 0 := by decide

theorem galois_multiply_zero_left (b : Nat) : galois_multiply 0 b = 0 := by
  simp [galois_multiply_unroll, xtime_zero]

theorem galois_multiply_xor_left (x y b : Nat) :
    galois_multiply (x ^^^ y) b = galois_multiply x b ^^^ galois_multiply y b := by
  simp only [galois_multiply_unroll, xtime_xor, ite_xor_ite]
  ac_rfl

theorem galois_multiply_ite_left (c : Prop) [Decidable c] (k b : Nat) :
    galois_multiply (if c then k else 0) b = if c then galois_multiply k b else 0 := by
  split
  · rfl
  · exact galois_multiply_zero_left b

theorem galois_multiply_one (a : Nat) : galois_multiply a 1 = a := by
  have h : galois_multiply a 1 = 0 ^^^ a := rfl
  rw [h, Nat.zero_xor]

/-- A byte is the sum of its bits. -/
theorem byte_bits : ∀ b < 256,
    b = (if b.testBit 0 then 1 else 0) ^^^ (if b.testBit 1 then 2 else 0)
        ^^^ (if b.testBit 2 then 4 else 0) ^^^ (if b.testBit 3 then 8 else 0)
        ^^^ (if b.testBit 4 then 16 else 0) ^^^ (if b.testBit 5 then 32 else 0)
        ^^^ (if b.testBit 6 then 64 else 0) ^^^ (if b.testBit 7 then 128 else 0) := by
  decide!

theorem galois_multiply_pow_0 : ∀ a < 256, galois_multiply 1 a = a := by
  decide!

theorem galois_multiply_pow_1 : ∀ a < 256, galois_multiply 2 a = xtime a := by
  decide!

theorem galois_multiply_pow_2 : ∀ a < 256, galois_multiply 4 a = xtime (xtime a) := by
  decide!

theorem galois_multiply_pow_3 : ∀ a < 256, galois_multiply 8 a = xtime (xtime (xtime a)) := by
  decide!

theorem galois_multiply_pow_4 : ∀ a < 256, galois_multiply 16 a = xtime (xtime (xtime (xtime a))) := by
  decide!

theorem galois_multiply_pow_5 : ∀ a < 256, galois_multiply 32 a = xtime (xtime (xtime (xtime (xtime a)))) := by
  decide!

theorem galois_multiply_pow_6 : ∀ a < 256, galois_multiply 64 a = xtime (xtime (xtime (xtime (xtime (xtime a))))) := by
  decide!

theorem galois_multiply_pow_7 : ∀ a < 256, galois_multiply 128 a = xtime (xtime (xtime (xtime (xtime (xtime (xtime a)))))) := by
  decide!

/-- Commutativity of `galois_multiply` on bytes. -/
theorem galois_multiply_comm_bytes (a b : Nat) (ha : a < 256) (hb : b < 256) :
    galois_multiply a b = galois_multiply b a := by
  have hbits := byte_bits b hb
  have h : galois_multiply b a
      = galois_multiply ((if b.testBit 0 then 1 else 0) ^^^ (if b.testBit 1 then 2 else 0)
        ^^^ (if b.testBit 2 then 4 else 0) ^^^ (if b.testBit 3 then 8 else 0)
        ^^^ (if b.testBit 4 then 16 else 0) ^^^ (if b.testBit 5 then 32 else 0)
        ^^^ (if b.testBit 6 then 64 else 0) ^^^ (if b.testBit 7 then 128 else 0)) a :=
    congrArg (fun v => galois_multiply v a) hbits
  rw [h, galois_multiply_unroll a b]
  simp only [galois_multiply_xor_left, galois_multiply_ite_left,
    galois_multiply_pow_0 a ha, galois_multiply_pow_1 a ha, galois_multiply_pow_2 a ha,
    galois_multiply_pow_3 a ha, galois_multiply_pow_4 a ha, galois_multiply_pow_5 a ha,
    galois_multiply_pow_6 a ha, galois_multiply_pow_7 a ha]

theorem galois_multiply_lt_256 (a b : Nat) (ha : a < 256) : galois_multiply a b < 256 := by
  have hi : ∀ (c : Prop) [Decidable c] (x : Nat), x < 2 ^ 8 → (if c then x else 0) < 2 ^ 8 := by
    intro c _ x hx
    split
    · exact hx
    · norm_num
  have hx : ∀ v, xtime v < 2 ^ 8 := xtime_lt
  rw [galois_multiply_unroll]
  exact Nat.xor_lt_two_pow (Nat.xor_lt_two_pow (Nat.xor_lt_two_pow (Nat.xor_lt_two_pow
    (Nat.xor_lt_two_pow (Nat.xor_lt_two_pow (Nat.xor_lt_two_pow (hi _ _ ha) (hi _ _ (hx _)))
      (hi _ _ (hx _))) (hi _ _ (hx _))) (hi _ _ (hx _))) (hi _ _ (hx _))) (hi _ _ (hx _)))
    (hi _ _ (hx _))

/-! ### The polynomial product and its remainder modulo 0x11B -/

theorem poly_mul_unroll (a b : Nat) :
    poly_mul a b
      = (if b.testBit 0 then a <<< 0 else 0) ^^^ (if b.testBit 1 then a <<< 1 else 0)
        ^^^ (if b.testBit 2 then a <<< 2 else 0) ^^^ (if b.testBit 3 then a <<< 3 else 0)
        ^^^ (if b.testBit 4 then a <<< 4 else 0) ^^^ (if b.testBit 5 then a <<< 5 else 0)
        ^^^ (if b.testBit 6 then a <<< 6 else 0) ^^^ (if b.testBit 7 then a <<< 7 else 0) := by
  have h : poly_mul a b = List.foldl
      (fun acc i => if b.testBit i then acc ^^^ (a <<< i) else acc) 0 [0, 1, 2, 3, 4, 5, 6, 7] :=
    rfl
  rw [h]
  simp only [List.foldl, ite_xor_zero, Nat.zero_xor]

theorem poly_reduce_xor (k p q : Nat) :
    poly_reduce k (p ^^^ q) = poly_reduce k p ^^^ poly_reduce k q := by
  unfold poly_reduce
  rw [Nat.testBit_xor]
  cases p.testBit (k + 8) <;> cases q.testBit (k + 8) <;> simp
  · ac_rfl
  · ac_rfl
  · calc p ^^^ q = (283 <<< k ^^^ 283 <<< k) ^^^ (p ^^^ q) := by simp
      _ = _ := by ac_rfl

theorem poly_reduce_zero (k : Nat) : poly_reduce k 0 = 0 := by
  simp [poly_reduce]

theorem poly_mod_xor (p q : Nat) : poly_mod (p ^^^ q) = poly_mod p ^^^ poly_mod q := by
  simp only [poly_mod, List.foldl, poly_reduce_xor]

theorem poly_mod_zero : poly_mod 0 = 0 := by
  simp only [poly_mod, List.foldl, poly_reduce_zero]

theorem poly_mod_ite (c : Prop) [Decidable c] (x : Nat) :
    poly_mod (if c then x else 0) = if c then poly_mod x else 0 := by
  split
  · rfl
  · exact poly_mod_zero

theorem poly_mod_shift_0 : ∀ a < 256, poly_mod (a <<< 0) = a := by
  decide!

theorem poly_mod_shift_1 : ∀ a < 256, poly_mod (a <<< 1) = xtime a := by
  decide!

theorem poly_mod_shift_2 : ∀ a < 256, poly_mod (a <<< 2) = xtime (xtime a) := by
  decide!

theorem poly_mod_shift_3 : ∀ a < 256, poly_mod (a <<< 3) = xtime (xtime (xtime a)) := by
  decide!

theorem poly_mod_shift_4 : ∀ a < 256, poly_mod (a <<< 4) = xtime (xtime (xtime (xtime a))) := by
  decide!

theorem poly_mod_shift_5 : ∀ a < 256, poly_mod (a <<< 5) = xtime (xtime (xtime (xtime (xtime a)))) := by
  decide!

theorem poly_mod_shift_6 : ∀ a < 256, poly_mod (a <<< 6) = xtime (xtime (xtime (xtime (xtime (xtime a))))) := by
  decide!

theorem poly_mod_shift_7 : ∀ a < 256, poly_mod (a <<< 7) = xtime (xtime (xtime (xtime (xtime (xtime (xtime a)))))) := by
  decide!

/-- The loop of `galois_multiply` computes the remainder of the polynomial product. -/
theorem galois_multiply_eq_poly_mod (a b : Nat) (ha : a < 256) :
    galois_multiply a b = poly_mod (poly_mul a b) := by
  rw [galois_multiply_unroll, poly_mul_unroll]
  simp only [poly_mod_xor, poly_mod_ite, poly_mod_shift_0 a ha, poly_mod_shift_1 a ha,
    poly_mod_shift_2 a ha, poly_mod_shift_3 a ha, poly_mod_shift_4 a ha, poly_mod_shift_5 a ha,
    poly_mod_shift_6 a ha, poly_mod_shift_7 a ha]


/-! ### `poly_mod` is the remainder of the division by 0x11B -/

theorem poly_mul_zero_right (a : Nat) : poly_mul a 0 = 0 := by
  simp [poly_mul_unroll]

theorem poly_mul_xor_right (a q r : Nat) :
    poly_mul a (q ^^^ r) = poly_mul a q ^^^ poly_mul a r := by
  simp only [poly_mul_unroll, Nat.testBit_xor, ite_bool_xor]
  ac_rfl

theorem poly_mul_modulus_pow (k : Nat) (hk : k < 7) : poly_mul 0x11B (2 ^ k) = 0x11B <<< k := by
  interval_cases k <;> decide

/-- One step of the long division subtracts a multiple of the modulus. -/
theorem poly_reduce_quotient (k : Nat) (hk : k < 7) (p : Nat) :
    ∃ q, q < 128 ∧ p = poly_mul 0x11B q ^^^ poly_reduce k p := by
  unfold poly_reduce
  by_cases h : p.testBit (k + 8) = true
  · refine ⟨2 ^ k, ?_, ?_⟩
    · calc 2 ^ k < 2 ^ 7 := Nat.pow_lt_pow_right (by norm_num) hk
        _ = 128 := by norm_num
    · rw [if_pos h, poly_mul_modulus_pow k hk]
      calc p = (283 <<< k ^^^ 283 <<< k) ^^^ p := by simp
        _ = _ := by ac_rfl
  · refine ⟨0, by norm_num, ?_⟩
    rw [if_neg h, poly_mul_zero_right, Nat.zero_xor]

theorem poly_quotient_trans {p p1 p2 : Nat}
    (h1 : ∃ q, q < 128 ∧ p = poly_mul 0x11B q ^^^ p1)
    (h2 : ∃ q, q < 128 ∧ p1 = poly_mul 0x11B q ^^^ p2) :
    ∃ q, q < 128 ∧ p = poly_mul 0x11B q ^^^ p2 := by
  obtain ⟨q, hq, e1⟩ := h1
  obtain ⟨r, hr, e2⟩ := h2
  refine ⟨q ^^^ r, Nat.xor_lt_two_pow (n := 7) hq hr, ?_⟩
  rw [poly_mul_xor_right, e1, e2]
  ac_rfl

/-- The value `poly_mod p` differs from `p` by a multiple of the modulus 0x11B. -/
theorem poly_mod_quotient (p : Nat) : ∃ q, q < 128 ∧ p = poly_mul 0x11B q ^^^ poly_mod p := by
  simp only [poly_mod, List.foldl]
  exact poly_quotient_trans (poly_reduce_quotient 6 (by norm_num) _)
    (poly_quotient_trans (poly_reduce_quotient 5 (by norm_num) _)
    (poly_quotient_trans (poly_reduce_quotient 4 (by norm_num) _)
    (poly_quotient_trans (poly_reduce_quotient 3 (by norm_num) _)
    (poly_quotient_trans (poly_reduce_quotient 2 (by norm_num) _)
    (poly_quotient_trans (poly_reduce_quotient 1 (by norm_num) _)
      (poly_reduce_quotient 0 (by norm_num) _))))))

/-- C26: for all bytes `a` and `b`, `galois_multiply a b` is the product of `a` and `b`
as polynomials over GF(2) reduced modulo `x^8 + x^4 + x^3 + x + 1` (0x11B): it is the
result of the long division (`poly_mod`), a polynomial of degree below 8 that differs
from the product by a multiple `q` of the modulus; the multiplication is commutative
and `galois_multiply a 1 = a`. -/
theorem galois_multiply_spec (a b : Nat) (ha : a < 256) (hb : b < 256) :
    galois_multiply a b = poly_mod (poly_mul a b) ∧
    galois_multiply a b < 256 ∧
    (∃ q, q < 128 ∧ poly_mul a b = poly_mul 0x11B q ^^^ galois_multiply a b) ∧
    galois_multiply a b = galois_multiply b a ∧
    galois_multiply a 1 = a := by
  refine ⟨galois_multiply_eq_poly_mod a b ha, galois_multiply_lt_256 a b ha, ?_,
    galois_multiply_comm_bytes a b ha hb, galois_multiply_one a⟩
  rw [galois_multiply_eq_poly_mod a b ha]
  exact poly_mod_quotient _

/-- C26 at the bytes 0x57 and 0x83, whose product in GF(2^8) is 0xC1. -/
theorem galois_multiply_spec_witness :
    (0x57 : Nat) < 256 ∧ (0x83 : Nat) < 256 ∧
    galois_multiply 0x57 0x83 = poly_mod (poly_mul 0x57 0x83) ∧
    galois_multiply 0x57 0x83 = galois_multiply 0x83 0x57 ∧
    galois_multiply 0x57 0x83 = 0xC1 ∧ poly_mul 0x57 0x83 = 0x2B79 :=
  ⟨by decide, by decide, (galois_multiply_spec 0x57 0x83 (by decide) (by decide)).1,
    (galois_multiply_spec 0x57 0x83 (by decide) (by decide)).2.2.2.1, by decide, by decide⟩

end AESCipher

/-! ## ShiftRows, the block bijection and the substitution tables -/

namespace AESCipher

/-- C32: on every 16-byte state `shift_rows` is the permutation that keeps row 0 and
rotates the rows 1, 2, 3 of the row-major 4x4 matrix left by 1, 2, 3 positions, and
`inv_shift_rows (shift_rows s) = s`. -/
theorem shift_rows_spec (s0 s1 s2 s3 s4 s5 s6 s7 s8 s9 s10 s11 s12 s13 s14 s15 : Nat) :
    shift_rows [s0, s1, s2, s3, s4, s5, s6, s7, s8, s9, s10, s11, s12, s13, s14, s15]
      = [s0, s1, s2, s3, s5, s6, s7, s4, s10, s11, s8, s9, s15, s12, s13, s14] ∧
    inv_shift_rows
        (shift_rows [s0, s1, s2, s3, s4, s5, s6, s7, s8, s9, s10, s11, s12, s13, s14, s15])
      = [s0, s1, s2, s3, s4, s5, s6, s7, s8, s9, s10, s11, s12, s13, s14, s15] ∧
    (∀ r c, r < 4 → c < 4 →
      (shift_rows [s0, s1, s2, s3, s4, s5, s6, s7, s8, s9, s10, s11, s12, s13, s14, s15]).getD
          (4 * r + c) 0
        = [s0, s1, s2, s3, s4, s5, s6, s7, s8, s9, s10, s11, s12, s13, s14, s15].getD
            (4 * r + (c + r) % 4) 0) ∧
    ∀ s : List Nat, s.length = 16 → inv_shift_rows (shift_rows s) = s := by
  refine ⟨rfl, rfl, ?_, fun s hs => inv_shift_rows_shift_rows s hs⟩
  intro r c hr hc
  interval_cases r <;> interval_cases c <;> rfl

/-- C32 at the state 0, 1, ..., 15. -/
theorem shift_rows_spec_witness :
    shift_rows (List.range 16) = [0, 1, 2, 3, 5, 6, 7, 4, 10, 11, 8, 9, 15, 12, 13, 14] ∧
    inv_shift_rows (shift_rows (List.range 16)) = List.range 16 :=
  ⟨(shift_rows_spec 0 1 2 3 4 5 6 7 8 9 10 11 12 13 14 15).1,
    (shift_rows_spec 0 1 2 3 4 5 6 7 8 9 10 11 12 13 14 15).2.2.2 (List.range 16) (by decide)⟩

/-- C38: under the schedule the constructor builds from any user key,
`encrypt_block (decrypt_block x) = x` for every 16-byte block `x`; together with the
other order and with both functions mapping 16-byte blocks to 16-byte blocks this makes
`encrypt_block` and `decrypt_block` bijections on the 16-byte blocks, inverse to each
other. -/
theorem encrypt_block_decrypt_block_new (t : Target) (user_key : List Nat) (x : List Nat)
    (h : IsBlock x) :
    (new t user_key).encrypt_block ((new t user_key).decrypt_block x) = x ∧
    (new t user_key).decrypt_block ((new t user_key).encrypt_block x) = x ∧
    IsBlock ((new t user_key).encrypt_block x) ∧ IsBlock ((new t user_key).decrypt_block x) ∧
    (∀ y, IsBlock y → (new t user_key).encrypt_block x = (new t user_key).encrypt_block y →
      x = y) ∧
    (∀ y, IsBlock y → (new t user_key).decrypt_block x = (new t user_key).decrypt_block y →
      x = y) := by
  have hk := new_key_schedule_bytes t user_key
  refine ⟨encrypt_block_decrypt_block _ hk x h, decrypt_block_encrypt_block _ hk x h,
    encrypt_block_isBlock _ hk x h, decrypt_block_isBlock _ hk x h, ?_, ?_⟩
  · intro y hy e
    rw [← decrypt_block_encrypt_block _ hk x h, e, decrypt_block_encrypt_block _ hk y hy]
  · intro y hy e
    rw [← encrypt_block_decrypt_block _ hk x h, e, encrypt_block_decrypt_block _ hk y hy]

/-- C38 at the key "key" and the block 0, 1, ..., 15. -/
theorem encrypt_block_decrypt_block_new_witness :
    IsBlock (List.range 16) ∧
    (new x86_64 [107, 101, 121]).encrypt_block
      ((new x86_64 [107, 101, 121]).decrypt_block (List.range 16)) = List.range 16 :=
  ⟨⟨by decide, by decide⟩,
    (encrypt_block_decrypt_block_new x86_64 [107, 101, 121] (List.range 16)
      ⟨by decide, by decide⟩).1⟩

/-- C39: the two substitution tables are inverse permutations of the byte values: for
every byte `x`, `INV_SBOX[SBOX[x]] = x` and `SBOX[INV_SBOX[x]] = x`, both tables have
256 entries and every entry is a byte; `sub_bytes` and `inv_sub_bytes` apply them to
every byte of a state. -/
theorem sbox_inverse_tables (x : Nat) (h : x < 256) :
    INV_SBOX.getD (SBOX.getD x 0) 0 = x ∧ SBOX.getD (INV_SBOX.getD x 0) 0 = x ∧
    SBOX.getD x 0 < 256 ∧ INV_SBOX.getD x 0 < 256 ∧
    SBOX.length = 256 ∧ INV_SBOX.length = 256 ∧
    inv_sub_bytes (sub_bytes [x]) = [x] ∧ sub_bytes (inv_sub_bytes [x]) = [x] :=
  ⟨inv_sbox_sbox x h, sbox_inv_sbox x h, sbox_lt x, inv_sbox_lt x, SBOX_length,
    INV_SBOX_length,
    inv_sub_bytes_sub_bytes [x] (by intro y hy; rw [List.mem_singleton] at hy; omega),
    sub_bytes_inv_sub_bytes [x] (by intro y hy; rw [List.mem_singleton] at hy; omega)⟩

/-- C39 at the byte 0x53: `SBOX[0x53] = 0xED` and `INV_SBOX[0xED] = 0x53`. -/
theorem sbox_inverse_tables_witness :
    (0x53 : Nat) < 256 ∧ SBOX.getD 0x53 0 = 0xED ∧ INV_SBOX.getD (SBOX.getD 0x53 0) 0 = 0x53 ∧
    SBOX.getD (INV_SBOX.getD 0x53 0) 0 = 0x53 :=
  ⟨by decide, by decide, (sbox_inverse_tables 0x53 (by decide)).1,
    (sbox_inverse_tables 0x53 (by decide)).2.1⟩

end AESCipher

/-! ## Payload bits, tree shape and the header of `decompress` -/

namespace HuffmanCoder

open HuffmanNode

theorem pack_byte_testBit (encoded_bits : List Char) (i j : Nat) (hj : j < 8) :
    (pack_byte encoded_bits i).testBit (7 - j)
      = decide (i + j < encoded_bits.length ∧ encoded_bits.getD (i + j) '0' = '1') := by
  have h := pack_byte_bit encoded_bits i j hj
  have h1 : (pack_byte encoded_bits i &&& (1 <<< (7 - j)) ≠ 0)
      ↔ (pack_byte encoded_bits i).testBit (7 - j) = true := by
    rw [Nat.one_shiftLeft, Nat.and_two_pow]
    cases (pack_byte encoded_bits i).testBit (7 - j) <;> simp
  rw [← h]
  cases hb : (pack_byte encoded_bits i).testBit (7 - j)
  · simp [h1, hb]
  · simp [h1, hb]

theorem pack_byte_lt (encoded_bits : List Char) (i : Nat) : pack_byte encoded_bits i < 256 := by
  show pack_byte encoded_bits i < 2 ^ 8
  apply Nat.lt_pow_two_of_testBit _
  intro k hk
  have := foldl_or_testBit
    (fun j => decide (i + j < encoded_bits.length ∧ encoded_bits.getD (i + j) '0' = '1'))
    (List.range 8) 0 k
  simp only [decide_eq_true_eq] at this
  unfold pack_byte
  rw [this]
  simp only [Nat.zero_testBit, Bool.false_or]
  rw [Bool.eq_false_iff]
  intro hany
  rw [List.any_eq_true] at hany
  obtain ⟨j, -, hj⟩ := hany
  simp only [Bool.and_eq_true, decide_eq_true_eq] at hj
  omega

/-- The payload byte `m` of the output of `compress`. -/
theorem compress_payload_getD (tie : List HuffmanNode → Nat) (input : List Nat)
    (hne : input ≠ []) (m : Nat)
    (hm : m < ((encode (generate_codes (build_tree tie (count_frequencies input)) [] [])
      input).length + 7) / 8) :
    (compress tie input).getD
        (4 + (serialize_tree (build_tree tie (count_frequencies input)) []).length + 1 + m) 0
      = pack_byte (encode (generate_codes (build_tree tie (count_frequencies input)) [] [])
          input) (8 * m) := by
  unfold compress
  simp only [hne, if_false]
  rw [List.getD_append_right _ _ _ _
    (by simp only [List.length_append, size_header_length, List.length_singleton]; omega)]
  have e : 4 + (serialize_tree (build_tree tie (count_frequencies input)) []).length + 1 + m
      - (size_header ((serialize_tree (build_tree tie (count_frequencies input)) []).length
            % 2 ^ 32) ++ serialize_tree (build_tree tie (count_frequencies input)) []
          ++ [(8 - (encode (generate_codes (build_tree tie (count_frequencies input)) [] [])
            input).length % 8) % 8 % 256]).length = m := by
    simp only [List.length_append, size_header_length, List.length_singleton]
    omega
  rw [e]
  exact pack_bits_getD _ m hm

/-- C33: for every non-empty input with code-bit string `e`, the payload bytes of the
output of `compress` start behind the header, the tree and the padding count; bit `7-j`
of payload byte `m` is set exactly when `e[8m+j]` is `'1'`, for every position
`8m+j < len e`, and the bits of the last payload byte at the positions beyond `len e`
are 0. -/
theorem payload_bits (tie : List HuffmanNode → Nat) (input : List Nat) (hne : input ≠ [])
    (e : List Char)
    (he : e = encode (generate_codes (build_tree tie (count_frequencies input)) [] []) input)
    (offset : Nat)
    (ho : offset
      = 4 + (serialize_tree (build_tree tie (count_frequencies input)) []).length + 1) :
    (compress tie input).length = offset + (e.length + 7) / 8 ∧
    (∀ m j, j < 8 → 8 * m + j < e.length →
      ((compress tie input).getD (offset + m) 0).testBit (7 - j)
        = decide (e.getD (8 * m + j) '0' = '1')) ∧
    (∀ m j, j < 8 → m < (e.length + 7) / 8 → e.length ≤ 8 * m + j →
      ((compress tie input).getD (offset + m) 0).testBit (7 - j) = false) ∧
    ∀ m, m < (e.length + 7) / 8 → (compress tie input).getD (offset + m) 0 < 256 := by
  subst he ho
  refine ⟨?_, ?_, ?_, ?_⟩
  · unfold compress
    simp only [hne, if_false, List.length_append, size_header_length, List.length_singleton,
      pack_bits_length]
  · intro m j hj hlt
    rw [compress_payload_getD tie input hne m (by omega), pack_byte_testBit _ _ _ hj]
    simp [hlt]
  · intro m j hj hm hge
    rw [compress_payload_getD tie input hne m hm, pack_byte_testBit _ _ _ hj]
    simp only [decide_eq_false_iff_not, not_and]
    intro hlt
    omega
  · intro m hm
    rw [compress_payload_getD tie input hne m hm]
    exact pack_byte_lt _ _

/-- C33 at the input "ABBC" (codes A = 10, B = 0, C = 11): the six code bits 100011 are
the high bits of the one payload byte 0x8C, whose two low bits are 0. -/
theorem payload_bits_witness :
    [65, 66, 66, 67] ≠ ([] : List Nat) ∧
    encode (generate_codes (build_tree (fun _ => 0) (count_frequencies [65, 66, 66, 67]))
      [] []) [65, 66, 66, 67] = ['1', '0', '0', '0', '1', '1'] ∧
    (compress (fun _ => 0) [65, 66, 66, 67]).getD (13 + 0) 0 = 0x8C ∧
    ((compress (fun _ => 0) [65, 66, 66, 67]).getD (13 + 0) 0).testBit (7 - 4)
      = decide (['1', '0', '0', '0', '1', '1'].getD (8 * 0 + 4) '0' = '1') :=
  ⟨by decide, by decide, by decide,
    (payload_bits (fun _ => 0) [65, 66, 66, 67] (by decide) ['1', '0', '0', '0', '1', '1']
      (by decide) 13 (by decide)).2.1 0 4 (by decide) (by decide)⟩

/-- C34: for every frequency table (a `std::map`, keys ascending) with at least two
symbols every internal node of the tree `build_tree` returns has two children and the
leaves are the byte values of the table, each once; for a table with one symbol the
result is a root whose left child is the leaf of that symbol and whose right child is
null. -/
theorem build_tree_shape (tie : List HuffmanNode → Nat) (frequencies : List (Nat × Nat))
    (hmap : (keys frequencies).Pairwise (· < ·)) :
    (2 ≤ frequencies.length →
      Full (build_tree tie frequencies) ∧
      (leaves (build_tree tie frequencies)).Perm (keys frequencies) ∧
      (leaves (build_tree tie frequencies)).Nodup ∧
      (leaves (build_tree tie frequencies)).length = frequencies.length) ∧
    (∀ d f, frequencies = [(d, f)] →
      build_tree tie frequencies = node 0 f (node d f nullptr nullptr) nullptr) := by
  constructor
  · intro h2
    obtain ⟨hfull, -, hperm⟩ := build_tree_spec tie frequencies h2
    have hnd : (keys frequencies).Nodup := hmap.imp (fun h => Nat.ne_of_lt h)
    refine ⟨hfull, hperm, hperm.nodup_iff.mpr hnd, ?_⟩
    rw [hperm.length_eq]
    simp [keys]
  · intro d f hf
    rw [hf, build_tree_single]
    rfl

/-- C34 at the table of "ABBC" and at the table of "AAA". -/
theorem build_tree_shape_witness :
    (keys [(65, 1), (66, 2), (67, 1)]).Pairwise (· < ·) ∧
    Full (build_tree (fun _ => 0) [(65, 1), (66, 2), (67, 1)]) ∧
    leaves (build_tree (fun _ => 0) [(65, 1), (66, 2), (67, 1)]) = [66, 65, 67] ∧
    build_tree (fun _ => 0) [(65, 3)] = node 0 3 (node 65 3 nullptr nullptr) nullptr :=
  ⟨by decide,
    ((build_tree_shape (fun _ => 0) [(65, 1), (66, 2), (67, 1)] (by decide)).1 (by decide)).1,
    by decide,
    (build_tree_shape (fun _ => 0) [(65, 3)] (by decide)).2 65 3 rfl⟩

end HuffmanCoder

/-! ## What `decompress` reads of its input -/

namespace HuffmanCoder

open HuffmanNode

/-- The parser `deserialize_tree` started at `index ≥ k` reads only the length of the
input and bytes at positions `≥ k`. -/
theorem deserialize_tree_fuel_congr (x y : List Nat) (k : Nat) (hlen : x.length = y.length)
    (hxy : ∀ j, k ≤ j → x.getD j 0 = y.getD j 0) (fuel : Nat) :
    ∀ index, k ≤ index →
      deserialize_tree_fuel fuel x index = deserialize_tree_fuel fuel y index ∧
      ∀ r, deserialize_tree_fuel fuel x index = some r → index ≤ r.2 := by
  induction fuel with
  | zero =>
    intro index _
    exact ⟨rfl, by intro r h; simp [deserialize_tree_fuel] at h⟩
  | succ fuel ih =>
    intro index hk
    rw [deserialize_tree_fuel, deserialize_tree_fuel]
    dsimp only
    rw [← hlen, ← hxy index hk, ← hxy (index + 1) (by omega)]
    by_cases h1 : index ≥ x.length
    · simp only [h1, if_true]
      exact ⟨trivial, by intro r h; cases h; exact Nat.le_refl _⟩
    · simp only [h1, if_false]
      by_cases h2 : x.getD index 0 = 1
      · simp only [h2, if_true]
        by_cases h3 : index + 1 ≥ x.length
        · simp only [h3, if_true]
          exact ⟨trivial, by intro r h; cases h; exact Nat.le_succ _⟩
        · simp only [h3, if_false]
          exact ⟨trivial, by intro r h; cases h; simp only; omega⟩
      · simp only [h2, if_false]
        obtain ⟨e1, m1⟩ := ih (index + 1) (by omega)
        rw [← e1]
        cases hl : deserialize_tree_fuel fuel x (index + 1) with
        | none => exact ⟨rfl, by intro r h; cases h⟩
        | some p =>
          obtain ⟨left, i1⟩ := p
          have hi1 : index + 1 ≤ i1 := m1 _ hl
          obtain ⟨e2, m2⟩ := ih i1 (by omega)
          simp only
          rw [← e2]
          cases hr : deserialize_tree_fuel fuel x i1 with
          | none => exact ⟨rfl, by intro r h; cases h⟩
          | some p2 =>
            obtain ⟨right, i2⟩ := p2
            have hi2 : i1 ≤ i2 := m2 _ hr
            exact ⟨rfl, by intro r h; cases h; simp only; omega⟩

/-- The byte loop of `decompress` started at `i ≥ k` reads only the length of the input
and bytes at positions `≥ k`. -/
theorem decode_loop_congr (root : HuffmanNode) (x y : List Nat) (k : Nat)
    (hlen : x.length = y.length) (hxy : ∀ j, k ≤ j → x.getD j 0 = y.getD j 0)
    (padding : Nat) (count : Nat) :
    ∀ (i : Nat) (state : HuffmanNode × List Nat), k ≤ i →
      decode_loop root x padding count i state = decode_loop root y padding count i state := by
  induction count with
  | zero => intro i state _; rfl
  | succ count ih =>
    intro i state hk
    rw [decode_loop, decode_loop, ← hlen, ← hxy i hk]
    cases decode_byte root (x.getD i 0)
        (if i = x.length - 1 then 8 - (padding : Int) else 8).toNat 0 state with
    | error f => rfl
    | ok s => exact ih (i + 1) s (by omega)

/-- C36: the declared tree length is used by the acceptance check only. Two inputs of
equal length that agree from byte 4 on and both pass the check
`4 + declared length < input length` get the same result from `decompress`: the tree is
parsed from the bytes behind the header, wherever the declared length says it ends. -/
theorem decompress_ignores_declared_length (x y : List Nat) (hlen : x.length = y.length)
    (hxy : x.drop 4 = y.drop 4)
    (hx : 4 + read_tree_size x < x.length) (hy : 4 + read_tree_size y < y.length) :
    decompress x = decompress y := by
  have hget : ∀ j, 4 ≤ j → x.getD j 0 = y.getD j 0 := by
    intro j hj
    have e := congrArg (fun l => l.getD (j - 4) 0) hxy
    simp only [List.getD_eq_getElem?_getD, List.getElem?_drop] at e ⊢
    rwa [Nat.add_sub_cancel' hj] at e
  have c1x : ¬ x.length < 5 := by omega
  have c1y : ¬ y.length < 5 := by omega
  have c2x : ¬ 4 + read_tree_size x ≥ x.length := by omega
  have c2y : ¬ 4 + read_tree_size y ≥ x.length := by omega
  have hd : deserialize_tree x 4 = deserialize_tree y 4 := by
    unfold deserialize_tree
    rw [← hlen]
    exact (deserialize_tree_fuel_congr x y 4 hlen hget _ 4 (Nat.le_refl _)).1
  obtain ⟨⟨root, index⟩, hr, hi⟩ := deserialize_tree_isSome x 4
  unfold decompress
  simp only [c1x, c1y, c2x, c2y, if_false, ← hd, hr, ← hlen]
  by_cases hroot : root = nullptr
  · simp only [hroot, if_true]
  · simp only [hroot, if_false]
    by_cases hidx : index ≥ x.length
    · simp only [hidx, if_true]
    · simp only [hidx, if_false]
      rw [← hget index (by simp only at hi; omega),
        decode_loop_congr root x y 4 hlen hget _ _ (index + 1) _ (by simp only at hi; omega)]

/-- C36 at two 11-byte streams that declare the tree lengths 3 and 0 over the same
bytes: both decode to "AB". -/
theorem decompress_ignores_declared_length_witness :
    [0, 0, 0, 3, 0, 1, 65, 1, 66, 6, 64].drop 4 = [0, 0, 0, 0, 0, 1, 65, 1, 66, 6, 64].drop 4 ∧
    read_tree_size [0, 0, 0, 3, 0, 1, 65, 1, 66, 6, 64] = 3 ∧
    read_tree_size [0, 0, 0, 0, 0, 1, 65, 1, 66, 6, 64] = 0 ∧
    decompress [0, 0, 0, 0, 0, 1, 65, 1, 66, 6, 64] = .decoded [65, 66] ∧
    decompress [0, 0, 0, 3, 0, 1, 65, 1, 66, 6, 64]
      = decompress [0, 0, 0, 0, 0, 1, 65, 1, 66, 6, 64] :=
  ⟨by decide, by decide, by decide, by decide,
    decompress_ignores_declared_length [0, 0, 0, 3, 0, 1, 65, 1, 66, 6, 64]
      [0, 0, 0, 0, 0, 1, 65, 1, 66, 6, 64] (by decide) (by decide) (by decide) (by decide)⟩

/-- The root `deserialize_tree` returns for an input of at least five bytes. -/
theorem deserialize_root (input : List Nat) (h : 5 ≤ input.length) :
    ∃ root index, deserialize_tree input 4 = some (root, index) ∧
      (root = nullptr ↔ input.length = 5 ∧ input.getD 4 0 = 1) := by
  unfold deserialize_tree
  obtain ⟨f, hf⟩ : ∃ f, input.length - 4 = f + 1 := ⟨input.length - 5, by omega⟩
  rw [hf]
  by_cases hm : input.getD 4 0 = 1
  · by_cases h5 : input.length = 5
    · refine ⟨nullptr, 5, ?_, ⟨fun _ => ⟨h5, hm⟩, fun _ => rfl⟩⟩
      rw [deserialize_tree_fuel]
      have c1 : ¬ 4 ≥ input.length := by omega
      have c2 : 4 + 1 ≥ input.length := by omega
      simp only [c1, if_false, hm, if_true, c2]
    · refine ⟨leaf (input.getD (4 + 1) 0) 0, 4 + 1 + 1,
        deserialize_leaf_step _ input 4 (by omega) hm,
        ⟨fun e => by simp [leaf] at e, fun e => absurd e.1 h5⟩⟩
  · obtain ⟨⟨left, i1⟩, hl, hi1⟩ := deserialize_tree_fuel_isSome f input (4 + 1) (by omega)
    obtain ⟨⟨right, i2⟩, hr, -⟩ := deserialize_tree_fuel_isSome f input i1
      (by simp only at hi1; omega)
    refine ⟨internal 0 left right, i2,
      deserialize_internal_step _ input 4 i1 i2 left right (by omega) hm hl hr,
      ⟨fun e => by simp [internal] at e, fun e => absurd e.2 hm⟩⟩

/-- C37, counterexample: the five bytes 0, 0, 0, 0, 1 pass both header checks of
`decompress`, `deserialize_tree` returns the null root for them, and `decompress` takes
the 'tree could not be reconstructed' branch. -/
theorem null_root_after_header_checks :
    ¬ ([0, 0, 0, 0, 1].length < 5) ∧
    ¬ (4 + read_tree_size [0, 0, 0, 0, 1] ≥ [0, 0, 0, 0, 1].length) ∧
    deserialize_tree [0, 0, 0, 0, 1] 4 = some (nullptr, 5) ∧
    decompress [0, 0, 0, 0, 1] = .error .tree_not_rebuilt := by
  decide

/-- C37, amended: for an input that passes the two header checks of `decompress`,
`deserialize_tree` returns the null root exactly when the input has five bytes and
byte 4 is the leaf marker 1 (a leaf whose value byte is missing); exactly then
`decompress` takes the 'tree could not be reconstructed' branch. For every other input
that passes the checks the root is a node. -/
theorem tree_not_rebuilt_iff (input : List Nat) (h1 : ¬ input.length < 5)
    (h2 : ¬ 4 + read_tree_size input ≥ input.length) :
    (∃ root index, deserialize_tree input 4 = some (root, index) ∧
      (root = nullptr ↔ input.length = 5 ∧ input.getD 4 0 = 1)) ∧
    (decompress input = .error .tree_not_rebuilt ↔ input.length = 5 ∧ input.getD 4 0 = 1) := by
  obtain ⟨root, index, hd, hiff⟩ := deserialize_root input (by omega)
  refine ⟨⟨root, index, hd, hiff⟩, ?_⟩
  rw [← hiff]
  unfold decompress
  simp only [h1, h2, if_false, hd]
  by_cases hroot : root = nullptr
  · simp only [hroot, if_true]
  · simp only [hroot, if_false, iff_false]
    by_cases hidx : index ≥ input.length
    · simp only [hidx, if_true]
      exact fun h => by cases h
    · simp only [hidx, if_false]
      cases decode_loop root input (input.getD index 0) (input.length - (index + 1))
          (index + 1) (root, []) with
      | error f => exact fun h => by cases h
      | ok s => exact fun h => by cases h

/-- C37, amended, at the streams 0, 0, 0, 0, 1 (null root) and 0, 0, 0, 0, 1, 65 (the
leaf 'A'). -/
theorem tree_not_rebuilt_iff_witness :
    (decompress [0, 0, 0, 0, 1] = .error .tree_not_rebuilt
      ↔ [0, 0, 0, 0, 1].length = 5 ∧ [0, 0, 0, 0, 1].getD 4 0 = 1) ∧
    (decompress [0, 0, 0, 0, 1, 65] = .error .tree_not_rebuilt
      ↔ [0, 0, 0, 0, 1, 65].length = 5 ∧ [0, 0, 0, 0, 1, 65].getD 4 0 = 1) :=
  ⟨(tree_not_rebuilt_iff [0, 0, 0, 0, 1] (by decide) (by decide)).2,
    (tree_not_rebuilt_iff [0, 0, 0, 0, 1, 65] (by decide) (by decide)).2⟩

end HuffmanCoder

/-! ## The pipeline of `process_file` -/

namespace HuffmanCoder

open HuffmanNode

/-- Every byte `serialize_tree` appends is a marker or a leaf value. -/
theorem serialize_tree_mem (t : HuffmanNode) :
    ∀ (output : List Nat) (x : Nat), x ∈ serialize_tree t output →
      x ∈ output ∨ x = 0 ∨ x = 1 ∨ x ∈ leaves t := by
  induction t with
  | nullptr => intro output x hx; exact Or.inl hx
  | node d f l r ihl ihr =>
    intro output x hx
    unfold serialize_tree at hx
    unfold leaves
    by_cases hleaf : (node d f l r).is_leaf = true
    · simp only [hleaf, if_true, List.mem_append, List.mem_cons, List.mem_singleton,
        List.not_mem_nil, or_false] at hx ⊢
      rcases hx with h | h | h
      · exact Or.inl h
      · exact Or.inr (Or.inr (Or.inl h))
      · exact Or.inr (Or.inr (Or.inr h))
    · simp only [hleaf, if_false, Bool.false_eq_true, List.mem_append] at hx ⊢
      rcases ihr _ x hx with h | h | h | h
      · rcases ihl _ x h with h' | h' | h' | h'
        · rcases List.mem_append.mp h' with h'' | h''
          · exact Or.inl h''
          · exact Or.inr (Or.inl (List.mem_singleton.mp h''))
        · exact Or.inr (Or.inl h')
        · exact Or.inr (Or.inr (Or.inl h'))
        · exact Or.inr (Or.inr (Or.inr (Or.inl h')))
      · exact Or.inr (Or.inl h)
      · exact Or.inr (Or.inr (Or.inl h))
      · exact Or.inr (Or.inr (Or.inr (Or.inr h)))

/-- The leaf values of the tree of an input are byte values of the input. -/
theorem leaves_build_tree_mem (tie : List HuffmanNode → Nat) (input : List Nat) (x : Nat)
    (hx : x ∈ leaves (build_tree tie (count_frequencies input))) : x ∈ input := by
  obtain ⟨-, hm⟩ := count_frequencies_keys input
  have hkl : (keys (count_frequencies input)).length = (count_frequencies input).length := by
    simp [keys]
  by_cases h2 : 2 ≤ (count_frequencies input).length
  · obtain ⟨-, -, hperm⟩ := build_tree_spec tie _ h2
    exact (hm x).mp (hperm.mem_iff.mp hx)
  · match hc : count_frequencies input, h2 with
    | [], _ =>
      rw [hc] at hx
      simp [build_tree, pq_pop, top_index, top_candidates, leaves, min_frequency] at hx
    | [(d, f)], _ =>
      rw [hc, build_tree_single] at hx
      have hd : x = d := by simpa [internal, leaf, leaves, is_leaf] using hx
      subst hd
      exact (hm x).mp (by rw [hc]; simp [keys])
    | _ :: _ :: _, h => exact absurd (by simp) h

/-- The output of `compress` is a byte vector. -/
theorem compress_bytes (tie : List HuffmanNode → Nat) (b : List Nat) (hb : Bytes b) :
    Bytes (compress tie b) := by
  unfold compress
  by_cases hne : b = []
  · simp only [hne, if_true]
    intro x hx
    cases hx
  · simp only [hne, if_false]
    refine AESCipher.bytes_append (AESCipher.bytes_append
      (AESCipher.bytes_append (size_header_bytes _) ?_) ?_) ?_
    · intro x hx
      rcases serialize_tree_mem _ [] x hx with h | h | h | h
      · cases h
      · omega
      · omega
      · exact hb x (leaves_build_tree_mem tie b x h)
    · intro x hx
      rw [List.mem_singleton] at hx
      omega
    · intro x hx
      simp only [pack_bits, List.mem_map] at hx
      obtain ⟨k, -, rfl⟩ := hx
      exact pack_byte_lt _ _

end HuffmanCoder

/-- C31: the write path of the driver followed by its read path restores the data. For
every non-empty key `k` and every input `b` with two distinct byte values,
`decompress (decrypt (encrypt (compress b)))` decodes `b`, none of the intermediate
vectors is empty, and `process_file` reports no failure: run with compression and
encryption it writes the bytes `c = encrypt (compress b)`, and run on `c` with
decryption and decompression under the same key it writes `b`. -/
theorem process_file_roundtrip (tie : List HuffmanNode → Nat) (t : Target) (k : List Nat)
    (_hk : k ≠ []) (b : List Nat) (hb : Bytes b) (x y : Nat) (hx : x ∈ b) (hy : y ∈ b)
    (hxy : x ≠ y) :
    HuffmanCoder.decompress
        ((AESCipher.new t k).decrypt
          ((AESCipher.new t k).encrypt (HuffmanCoder.compress tie b)).value).value
      = .decoded b ∧
    HuffmanCoder.compress tie b ≠ [] ∧
    ((AESCipher.new t k).encrypt (HuffmanCoder.compress tie b)).value ≠ [] ∧
    ((AESCipher.new t k).decrypt
      ((AESCipher.new t k).encrypt (HuffmanCoder.compress tie b)).value).value ≠ [] ∧
    b ≠ [] ∧
    process_file tie t ⟨true, false, true, false, k⟩ b
      = .written ((AESCipher.new t k).encrypt (HuffmanCoder.compress tie b)).value ∧
    process_file tie t ⟨false, true, false, true, k⟩
        ((AESCipher.new t k).encrypt (HuffmanCoder.compress tie b)).value
      = .written b := by
  have hne : b ≠ [] := List.ne_nil_of_mem hx
  have hc : HuffmanCoder.compress tie b ≠ [] := HuffmanCoder.compress_ne_nil tie b hne
  have hcb : Bytes (HuffmanCoder.compress tie b) := HuffmanCoder.compress_bytes tie b hb
  have hks := AESCipher.new_key_schedule_bytes t k
  have hdec := AESCipher.decrypt_encrypt_of_bytes (AESCipher.new t k) hks _ hcb hc
  have hround := HuffmanCoder.decompress_compress_of_distinct tie b hb x y hx hy hxy
  have hlen := AESCipher.encrypt_value_length (AESCipher.new t k) hks _ hcb hc
  have he : ((AESCipher.new t k).encrypt (HuffmanCoder.compress tie b)).value ≠ [] := by
    intro h
    rw [h] at hlen
    simp at hlen
  refine ⟨by rw [hdec]; exact hround, hc, he, by rw [hdec]; exact hc, hne, ?_, ?_⟩
  · simp [process_file, process_encrypt, process_decrypt, process_decompress, hne, hc, he]
  · simp [process_file, process_encrypt, process_decrypt, process_decompress, hne, hc, he,
      hdec, hround]

/-- C31 at the key "key" and the input "AB". -/
theorem process_file_roundtrip_witness :
    [107, 101, 121] ≠ ([] : List Nat) ∧ Bytes [65, 66] ∧
    process_file (fun _ => 0) x86_64 ⟨false, true, false, true, [107, 101, 121]⟩
        ((AESCipher.new x86_64 [107, 101, 121]).encrypt
          (HuffmanCoder.compress (fun _ => 0) [65, 66])).value
      = .written [65, 66] :=
  ⟨by decide, by decide,
    (process_file_roundtrip (fun _ => 0) x86_64 [107, 101, 121] (by decide) [65, 66]
      (by decide) 65 66 (by decide) (by decide) (by decide)).2.2.2.2.2.2⟩

/-! ## Merging the two lightest entries of a code-length assignment -/

namespace HuffmanCoder

open HuffmanNode

theorem cost_cons (p : Nat × Nat) (L : List (Nat × Nat)) : cost (p :: L) = p.1 * p.2 + cost L := by
  simp [cost]

theorem cost_perm {L M : List (Nat × Nat)} (h : L.Perm M) : cost L = cost M := by
  unfold cost
  exact (h.map _).sum_eq

theorem kraft_cons (p : Nat × Nat) (L : List (Nat × Nat)) :
    kraft (p :: L) = (1 / 2 : ℚ) ^ p.2 + kraft L := by
  simp [kraft]

theorem kraft_eq_of_depths {L M : List (Nat × Nat)} (h : (L.map Prod.snd).Perm (M.map Prod.snd)) :
    kraft L = kraft M := by
  have e : ∀ K : List (Nat × Nat),
      kraft K = ((K.map Prod.snd).map (fun d => (1 / 2 : ℚ) ^ d)).sum := by
    intro K
    simp [kraft, List.map_map, Function.comp_def]
  rw [e L, e M]
  exact (h.map _).sum_eq

/-- An entry of given weight can be moved to the front. -/
theorem perm_cons_of_map_fst {L : List (Nat × Nat)} {a : Nat} {W : List Nat}
    (h : (L.map Prod.fst).Perm (a :: W)) :
    ∃ d R, L.Perm ((a, d) :: R) ∧ (R.map Prod.fst).Perm W := by
  have ha : a ∈ L.map Prod.fst := h.mem_iff.mpr (by simp)
  obtain ⟨p, hp, rfl⟩ := List.mem_map.mp ha
  obtain ⟨s, t, rfl⟩ := List.append_of_mem hp
  refine ⟨p.2, s ++ t, List.perm_middle, ?_⟩
  have h1 : ((s ++ p :: t).map Prod.fst).Perm (p.1 :: (s ++ t).map Prod.fst) := by
    simp
  exact (List.Perm.cons_inv (h1.symm.trans h))

/-- Exchanging the depths of a lighter, shallower entry and a heavier, deeper entry does
not increase the cost. -/
theorem swap_cost (w w' d d' : Nat) (hw : w ≤ w') (hd : d ≤ d') :
    w * d' + w' * d ≤ w * d + w' * d' := by
  obtain ⟨u, rfl⟩ := Nat.exists_eq_add_of_le hw
  obtain ⟨e, rfl⟩ := Nat.exists_eq_add_of_le hd
  nlinarith [Nat.zero_le (u * e)]

/-- The lightest entry can be given the greatest depth without increasing the cost:
the weights and the depths stay the same up to order. -/
theorem deepen_head (w0 : Nat) :
    ∀ (R : List (Nat × Nat)) (d0 : Nat), (∀ p ∈ R, w0 ≤ p.1) →
      ∃ d0' R', (R'.map Prod.fst).Perm (R.map Prod.fst) ∧
        (((w0, d0') :: R').map Prod.snd).Perm (((w0, d0) :: R).map Prod.snd) ∧
        cost ((w0, d0') :: R') ≤ cost ((w0, d0) :: R) ∧ ∀ p ∈ R', p.2 ≤ d0' := by
  intro R
  induction R with
  | nil =>
    intro d0 _
    exact ⟨d0, [], List.Perm.refl _, List.Perm.refl _, Nat.le_refl _, by simp⟩
  | cons p R0 ih =>
    intro d0 hmin
    obtain ⟨d1, R1, hw, hd, hc, hmax⟩ := ih d0 (fun q hq => hmin q (List.mem_cons_of_mem _ hq))
    have hp : w0 ≤ p.1 := hmin p (List.mem_cons_self _ _)
    simp only [cost_cons, List.map_cons] at hc hd ⊢
    by_cases hle : p.2 ≤ d1
    · refine ⟨d1, p :: R1, ?_, ?_, ?_, ?_⟩
      · simpa using hw.cons p.1
      · exact (List.Perm.swap _ _ _).trans ((hd.cons p.2).trans (List.Perm.swap _ _ _))
      · simp only [cost_cons]
        omega
      · intro q hq
        rcases List.mem_cons.mp hq with rfl | h
        · exact hle
        · exact hmax q h
    · have hlt : d1 ≤ p.2 := by omega
      refine ⟨p.2, (p.1, d1) :: R1, ?_, ?_, ?_, ?_⟩
      · simpa using hw.cons p.1
      · simp only [List.map_cons]
        exact (hd.cons p.2).trans (List.Perm.swap _ _ _)
      · simp only [cost_cons]
        have := swap_cost w0 p.1 d1 p.2 hp hlt
        omega
      · intro q hq
        rcases List.mem_cons.mp hq with rfl | h
        · exact hlt
        · exact Nat.le_trans (hmax q h) hlt

/-- The Kraft sum of entries of depth at most `D` is a multiple of `2^(-D)`. -/
theorem kraft_integral (D : Nat) :
    ∀ N : List (Nat × Nat), (∀ p ∈ N, p.2 ≤ D) → ∃ m : Nat, kraft N = (m : ℚ) / 2 ^ D := by
  intro N
  induction N with
  | nil => intro _; exact ⟨0, by simp [kraft]⟩
  | cons p N ih =>
    intro h
    obtain ⟨m, hm⟩ := ih (fun q hq => h q (List.mem_cons_of_mem _ hq))
    have hp : p.2 ≤ D := h p (List.mem_cons_self _ _)
    refine ⟨2 ^ (D - p.2) + m, ?_⟩
    rw [kraft_cons, hm]
    have e : (1 / 2 : ℚ) ^ p.2 = (2 : ℚ) ^ (D - p.2) / 2 ^ D := by
      rw [one_div, inv_pow, eq_div_iff (by positivity), inv_mul_eq_div,
        div_eq_iff (by positivity), ← pow_add]
      congr 1
      omega
    rw [e]
    push_cast
    ring

/-- Two deepest entries can be replaced by one entry one level higher. -/
theorem kraft_merge (a b D1 D2 : Nat) (N : List (Nat × Nat)) (hD : D2 ≤ D1)
    (hN : ∀ p ∈ N, p.2 ≤ D2) (hk : kraft ((a, D1) :: (b, D2) :: N) ≤ 1) :
    1 ≤ D2 ∧ kraft ((a + b, D2 - 1) :: N) ≤ 1 := by
  obtain ⟨m, hm⟩ := kraft_integral D2 N hN
  rw [kraft_cons, kraft_cons, hm] at hk
  simp only at hk
  have hpos1 : (0 : ℚ) < (1 / 2) ^ D1 := by positivity
  have h2 : (0 : ℚ) < 2 ^ D2 := by positivity
  have e2 : (1 / 2 : ℚ) ^ D2 = 1 / 2 ^ D2 := by rw [one_div, inv_pow, one_div]
  rw [e2] at hk
  have hlt : ((1 : ℚ) + m) / 2 ^ D2 < 1 := by
    have : ((1 : ℚ) + m) / 2 ^ D2 = 1 / 2 ^ D2 + m / 2 ^ D2 := by ring
    rw [this]
    linarith
  rw [div_lt_one h2] at hlt
  have hnat : 1 + m < 2 ^ D2 := by exact_mod_cast hlt
  have hD2 : 1 ≤ D2 := by
    by_contra h0
    have : D2 = 0 := by omega
    rw [this] at hnat
    simp at hnat
  refine ⟨hD2, ?_⟩
  rw [kraft_cons, hm]
  simp only
  have e3 : (1 / 2 : ℚ) ^ (D2 - 1) = 2 / 2 ^ D2 := by
    obtain ⟨k, rfl⟩ : ∃ k, D2 = k + 1 := ⟨D2 - 1, by omega⟩
    rw [Nat.add_sub_cancel, one_div, inv_pow, pow_succ]
    field_simp
  rw [e3, ← add_div, div_le_one h2]
  have : 2 + m ≤ 2 ^ D2 := by omega
  exact_mod_cast this

/-- The step of the exchange argument: from a code-length assignment for the weights
`a`, `b` and `W`, where `a` and `b` are the two lightest, one obtains an assignment for
`a + b` and `W` that saves `a + b` bits. -/
theorem merge_step (L : List (Nat × Nat)) (a b : Nat) (W : List Nat)
    (hL : (L.map Prod.fst).Perm (a :: b :: W)) (hab : a ≤ b) (hb : ∀ w ∈ W, b ≤ w)
    (hk : kraft L ≤ 1) :
    ∃ L', (L'.map Prod.fst).Perm ((a + b) :: W) ∧ kraft L' ≤ 1 ∧ cost L' + a + b ≤ cost L := by
  obtain ⟨da, R, hLR, hR⟩ := perm_cons_of_map_fst hL
  have hminR : ∀ p ∈ R, a ≤ p.1 := by
    intro p hp
    have : p.1 ∈ b :: W := hR.mem_iff.mp (List.mem_map_of_mem _ hp)
    rcases List.mem_cons.mp this with h | h
    · omega
    · exact Nat.le_trans hab (hb _ h)
  obtain ⟨D1, R1, hw1, hd1, hc1, hmax1⟩ := deepen_head a R da hminR
  obtain ⟨db, R2, hR12, hR2⟩ := perm_cons_of_map_fst (hw1.trans hR)
  have hminR2 : ∀ p ∈ R2, b ≤ p.1 := by
    intro p hp
    exact hb _ (hR2.mem_iff.mp (List.mem_map_of_mem _ hp))
  obtain ⟨D2, N, hw2, hd2, hc2, hmax2⟩ := deepen_head b R2 db hminR2
  -- depths
  have hdR1 : (((b, D2) :: N).map Prod.snd).Perm (R1.map Prod.snd) :=
    hd2.trans (hR12.map Prod.snd).symm
  have hD21 : D2 ≤ D1 := by
    have hmem : D2 ∈ R1.map Prod.snd := hdR1.mem_iff.mp (by simp)
    obtain ⟨p, hp, rfl⟩ := List.mem_map.mp hmem
    exact hmax1 p hp
  have hdepth : (((a, D1) :: (b, D2) :: N).map Prod.snd).Perm (L.map Prod.snd) := by
    have h1 : (((a, D1) :: (b, D2) :: N).map Prod.snd).Perm (((a, D1) :: R1).map Prod.snd) := by
      simp only [List.map_cons]
      exact List.Perm.cons _ (by simpa using hdR1)
    exact h1.trans (hd1.trans (hLR.map Prod.snd).symm)
  have hkF : kraft ((a, D1) :: (b, D2) :: N) ≤ 1 := by
    rw [kraft_eq_of_depths hdepth]
    exact hk
  have hcF : cost ((a, D1) :: (b, D2) :: N) ≤ cost L := by
    rw [cost_perm hLR]
    refine Nat.le_trans ?_ hc1
    have e := cost_perm hR12
    simp only [cost_cons] at hc2 e ⊢
    omega
  obtain ⟨hD2pos, hkm⟩ := kraft_merge a b D1 D2 N hD21 hmax2 hkF
  refine ⟨(a + b, D2 - 1) :: N, ?_, hkm, ?_⟩
  · simp only [List.map_cons]
    exact List.Perm.cons _ (hw2.trans hR2)
  · refine Nat.le_trans ?_ hcF
    simp only [cost_cons]
    obtain ⟨k, rfl⟩ : ∃ k, D2 = k + 1 := ⟨D2 - 1, by omega⟩
    obtain ⟨e, rfl⟩ := Nat.exists_eq_add_of_le hD21
    simp only [Nat.add_sub_cancel]
    nlinarith [Nat.zero_le (a * e)]

end HuffmanCoder

/-! ## The merge loop of `build_tree` follows the exchange argument -/

namespace HuffmanCoder

open HuffmanNode

theorem min_frequency_le (q : List HuffmanNode) : ∀ n ∈ q, min_frequency q ≤ n.frequency := by
  induction q with
  | nil => intro n hn; cases hn
  | cons m rest ih =>
    intro n hn
    cases rest with
    | nil =>
      rw [List.mem_singleton] at hn
      rw [hn]
      exact Nat.le_refl _
    | cons m' rest' =>
      show min m.frequency (min_frequency (m' :: rest')) ≤ n.frequency
      rcases List.mem_cons.mp hn with rfl | h
      · exact Nat.min_le_left _ _
      · exact Nat.le_trans (Nat.min_le_right _ _) (ih n h)

/-- The node `top()` returns has the least frequency of the queue. -/
theorem pq_pop_min (tie : List HuffmanNode → Nat) (q : List HuffmanNode) (h : q ≠ []) :
    ∀ n ∈ q, (pq_pop tie q).1.frequency ≤ n.frequency := by
  obtain ⟨i, hi, he⟩ := exists_min_frequency q h
  have hmem : i ∈ top_candidates q := by
    simp only [top_candidates, List.mem_filter, List.mem_range]
    exact ⟨hi, by simpa using he⟩
  have hpos : 0 < (top_candidates q).length := List.length_pos_of_mem hmem
  have hidx : tie q % (top_candidates q).length < (top_candidates q).length :=
    Nat.mod_lt _ hpos
  have hc : top_index tie q ∈ top_candidates q := by
    unfold top_index
    rw [List.getD_eq_getElem _ _ hidx]
    exact List.getElem_mem hidx
  simp only [top_candidates, List.mem_filter, List.mem_range, decide_eq_true_eq] at hc
  intro n hn
  show (q.getD (top_index tie q) nullptr).frequency ≤ n.frequency
  rw [hc.2]
  exact min_frequency_le q n hn

theorem cost_append (L M : List (Nat × Nat)) : cost (L ++ M) = cost L + cost M := by
  simp [cost]

theorem cost_deeper (L : List (Nat × Nat)) :
    cost (L.map (fun p => (p.1, p.2 + 1))) = cost L + (L.map Prod.fst).sum := by
  induction L with
  | nil => rfl
  | cons p L ih =>
    simp only [List.map_cons, cost_cons, ih, List.sum_cons]
    ring

theorem weights_deeper (L : List (Nat × Nat)) :
    (L.map (fun p => (p.1, p.2 + 1))).map Prod.fst = L.map Prod.fst := by
  simp [List.map_map, Function.comp_def]

theorem leaf_weights_internal (d f : Nat) (l r : HuffmanNode) (h : Full l) :
    leaf_weights (node d f l r)
      = (leaf_weights l ++ leaf_weights r).map (fun p => (p.1, p.2 + 1)) := by
  simp [leaf_weights, is_leaf_of_full_left d f l r h]

theorem leaf_depths_internal (d f : Nat) (l r : HuffmanNode) (h : Full l) :
    leaf_depths (node d f l r)
      = (leaf_depths l ++ leaf_depths r).map (fun p => (p.1, p.2 + 1)) := by
  simp [leaf_depths, is_leaf_of_full_left d f l r h]

/-- The cost of a merged node: the costs of its subtrees and one more bit for every
occurrence of their symbols. -/
theorem cost_internal (d f : Nat) (l r : HuffmanNode) (h : Full l) :
    cost (leaf_weights (node d f l r))
      = cost (leaf_weights l) + cost (leaf_weights r)
        + ((leaf_weights l).map Prod.fst).sum + ((leaf_weights r).map Prod.fst).sum := by
  rw [leaf_weights_internal d f l r h, cost_deeper, cost_append, List.map_append,
    List.sum_append]
  ring

/-- The invariant of the queued nodes: a full tree whose `frequency` is the sum of the
frequencies of its leaves, each leaf holding the frequency `freq` of its byte value. -/
theorem merged_invariant (freq : Nat → Nat) (l r : HuffmanNode)
    (hl : Full l ∧ l.frequency = ((leaf_weights l).map Prod.fst).sum ∧
      leaf_weights l = (leaf_depths l).map (fun p => (freq p.1, p.2)))
    (hr : Full r ∧ r.frequency = ((leaf_weights r).map Prod.fst).sum ∧
      leaf_weights r = (leaf_depths r).map (fun p => (freq p.1, p.2))) :
    Full (internal (l.frequency + r.frequency) l r) ∧
    (internal (l.frequency + r.frequency) l r).frequency
      = ((leaf_weights (internal (l.frequency + r.frequency) l r)).map Prod.fst).sum ∧
    leaf_weights (internal (l.frequency + r.frequency) l r)
      = (leaf_depths (internal (l.frequency + r.frequency) l r)).map
          (fun p => (freq p.1, p.2)) := by
  refine ⟨Full.internal _ _ _ _ hl.1 hr.1, ?_, ?_⟩
  · rw [internal, leaf_weights_internal _ _ _ _ hl.1, weights_deeper, List.map_append,
      List.sum_append, ← hl.2.1, ← hr.2.1]
    rfl
  · rw [internal, leaf_weights_internal _ _ _ _ hl.1, leaf_depths_internal _ _ _ _ hl.1,
      hl.2.2, hr.2.2]
    simp [List.map_map, Function.comp_def]

/-- The merge loop is optimal: the tree it builds from the queue costs no more than the
queued trees hung below any code-length assignment for their frequencies. -/
theorem build_loop_optimal (tie : List HuffmanNode → Nat) (freq : Nat → Nat) (fuel : Nat) :
    ∀ q : List HuffmanNode, q ≠ [] → q.length ≤ fuel + 1 →
      (∀ n ∈ q, Full n ∧ n.frequency = ((leaf_weights n).map Prod.fst).sum ∧
        leaf_weights n = (leaf_depths n).map (fun p => (freq p.1, p.2))) →
      (q.map frequency).sum < 2 ^ 32 →
      ∃ root, build_loop tie fuel q = [root] ∧
        leaf_weights root = (leaf_depths root).map (fun p => (freq p.1, p.2)) ∧
        ∀ L : List (Nat × Nat), kraft L ≤ 1 → (L.map Prod.fst).Perm (q.map frequency) →
          cost (leaf_weights root) ≤ (q.map (fun n => cost (leaf_weights n))).sum + cost L := by
  induction fuel with
  | zero =>
    intro q hne hlen hinv _
    match q, hne, hlen with
    | [n], _, _ =>
      refine ⟨n, rfl, (hinv n (by simp)).2.2, ?_⟩
      intro L _ _
      simp
  | succ fuel ih =>
    intro q hne hlen hinv hsum
    by_cases h1 : q.length > 1
    · have hp1 := pq_pop_perm tie q hne
      have hl1 := pq_pop_length tie q hne
      have hne1 : (pq_pop tie q).2 ≠ [] := by
        intro h; rw [h] at hl1; simp at hl1; omega
      have hp2 := pq_pop_perm tie _ hne1
      have hl2 := pq_pop_length tie _ hne1
      have hmin1 := pq_pop_min tie q hne
      have hmin2 := pq_pop_min tie _ hne1
      have hstep : build_loop tie (fuel + 1) q
          = build_loop tie fuel ((pq_pop tie (pq_pop tie q).2).2 ++
              [internal (((pq_pop tie q).1.frequency
                + (pq_pop tie (pq_pop tie q).2).1.frequency) % 2 ^ 32)
                (pq_pop tie q).1 (pq_pop tie (pq_pop tie q).2).1]) := by
        rw [build_loop]
        simp only [h1, if_true]
      rw [hstep]
      generalize (pq_pop tie q).1 = l at hp1 hmin1 ⊢
      generalize (pq_pop tie q).2 = q1 at hp1 hl1 hne1 hp2 hl2 hmin2 ⊢
      generalize (pq_pop tie q1).1 = r at hp2 hmin2 ⊢
      generalize (pq_pop tie q1).2 = q2 at hp2 hl2 ⊢
      have hperm : q.Perm (l :: r :: q2) := hp1.trans (List.Perm.cons _ hp2)
      have hil := hinv l (hperm.mem_iff.mpr (by simp))
      have hir := hinv r (hperm.mem_iff.mpr (by simp))
      have hab : l.frequency ≤ r.frequency := hmin1 r (hperm.mem_iff.mpr (by simp))
      have hbw : ∀ w ∈ q2.map frequency, r.frequency ≤ w := by
        intro w hw
        obtain ⟨n, hn, rfl⟩ := List.mem_map.mp hw
        exact hmin2 n (hp2.mem_iff.mpr (List.mem_cons_of_mem _ hn))
      have hfreq : (q.map frequency).Perm (l.frequency :: r.frequency :: q2.map frequency) := by
        simpa using hperm.map frequency
      have hsum' : l.frequency + r.frequency + (q2.map frequency).sum < 2 ^ 32 := by
        rw [hfreq.sum_eq] at hsum
        simp only [List.sum_cons] at hsum
        omega
      have hmod : (l.frequency + r.frequency) % 2 ^ 32 = l.frequency + r.frequency :=
        Nat.mod_eq_of_lt (by omega)
      rw [hmod]
      have him := merged_invariant freq l r hil hir
      have hq' : ∀ n ∈ q2 ++ [internal (l.frequency + r.frequency) l r],
          Full n ∧ n.frequency = ((leaf_weights n).map Prod.fst).sum ∧
            leaf_weights n = (leaf_depths n).map (fun p => (freq p.1, p.2)) := by
        intro n hn
        rcases List.mem_append.mp hn with h | h
        · exact hinv n (hperm.mem_iff.mpr (by simp [h]))
        · rw [List.mem_singleton.mp h]
          exact him
      have hsumq' : ((q2 ++ [internal (l.frequency + r.frequency) l r]).map frequency).sum
          < 2 ^ 32 := by
        simp only [List.map_append, List.sum_append, List.map_cons, List.map_nil,
          List.sum_cons, List.sum_nil]
        show (q2.map frequency).sum + (l.frequency + r.frequency + 0) < 2 ^ 32
        omega
      obtain ⟨root, hroot, hrw, hopt⟩ := ih _ (by simp) (by simp; omega) hq' hsumq'
      refine ⟨root, hroot, hrw, ?_⟩
      intro L hk hL
      obtain ⟨L', hL', hk', hc'⟩ := merge_step L l.frequency r.frequency (q2.map frequency)
        (hL.trans hfreq) hab hbw hk
      have hL'' : (L'.map Prod.fst).Perm
          ((q2 ++ [internal (l.frequency + r.frequency) l r]).map frequency) := by
        refine hL'.trans ?_
        simp only [List.map_append, List.map_cons, List.map_nil]
        exact (List.perm_append_singleton _ _).symm
      have h3 := hopt L' hk' hL''
      have hcq : (q.map (fun n => cost (leaf_weights n))).sum
          = cost (leaf_weights l) + (cost (leaf_weights r)
              + (q2.map (fun n => cost (leaf_weights n))).sum) := by
        rw [(hperm.map (fun n => cost (leaf_weights n))).sum_eq]
        simp only [List.map_cons, List.sum_cons]
      have hcm : cost (leaf_weights (internal (l.frequency + r.frequency) l r))
          = cost (leaf_weights l) + cost (leaf_weights r) + l.frequency + r.frequency := by
        rw [internal, cost_internal _ _ _ _ hil.1, ← hil.2.1, ← hir.2.1]
      simp only [List.map_append, List.sum_append, List.map_cons, List.map_nil,
        List.sum_cons, List.sum_nil, hcm] at h3
      rw [hcq]
      omega
    · have hq1 : q.length = 1 := by
        have : 0 < q.length := List.length_pos.mpr hne
        omega
      match q, hq1 with
      | [n], _ =>
        refine ⟨n, ?_, (hinv n (by simp)).2.2, ?_⟩
        · rw [build_loop]
          simp
        · intro L _ _
          simp

end HuffmanCoder

/-! ## Code lengths of an arbitrary code tree -/

namespace HuffmanCoder

open HuffmanNode

theorem kraft_append (L M : List (Nat × Nat)) : kraft (L ++ M) = kraft L + kraft M := by
  simp [kraft]

theorem kraft_deeper (L : List (Nat × Nat)) :
    kraft (L.map (fun p => (p.1, p.2 + 1))) = kraft L / 2 := by
  induction L with
  | nil => simp [kraft]
  | cons p L ih =>
    simp only [List.map_cons, kraft_cons, ih, pow_succ]
    ring

theorem kraft_nonneg (L : List (Nat × Nat)) : 0 ≤ kraft L := by
  induction L with
  | nil => simp [kraft]
  | cons p L ih =>
    rw [kraft_cons]
    positivity

/-- Kraft's inequality for the leaves of a binary tree. -/
theorem kraft_leaf_depths (t : HuffmanNode) : kraft (leaf_depths t) ≤ 1 := by
  induction t with
  | nullptr => simp [leaf_depths, kraft]
  | node d f l r ihl ihr =>
    unfold leaf_depths
    by_cases hleaf : (node d f l r).is_leaf = true
    · simp [hleaf, kraft]
    · simp only [hleaf, if_false, Bool.false_eq_true, kraft_deeper, kraft_append]
      linarith

theorem leaf_depths_fst (t : HuffmanNode) : (leaf_depths t).map Prod.fst = leaves t := by
  induction t with
  | nullptr => rfl
  | node d f l r ihl ihr =>
    unfold leaf_depths leaves
    by_cases hleaf : (node d f l r).is_leaf = true
    · simp [hleaf]
    · simp only [hleaf, if_false, Bool.false_eq_true, List.map_map, Function.comp_def,
        ← ihl, ← ihr, List.map_append]

/-- The code table of any tree: the entry of a leaf value is its path. -/
theorem generate_codes_get_any (t : HuffmanNode) :
    ∀ (code : List Char) (codes : List (Nat × List Char)) (x : Nat) (dflt : List Char),
      map_get (generate_codes t code codes) x dflt
        = if x ∈ leaves t then code ++ path t x else map_get codes x dflt := by
  induction t with
  | nullptr =>
    intro code codes x dflt
    simp [generate_codes, leaves]
  | node d f l r ihl ihr =>
    intro code codes x dflt
    unfold generate_codes leaves path
    by_cases hleaf : (node d f l r).is_leaf = true
    · simp only [hleaf, if_true, map_get_map_set, List.mem_singleton, List.append_nil]
    · simp only [hleaf, if_false, Bool.false_eq_true, ihr, ihl, List.mem_append]
      by_cases h1 : x ∈ leaves r
      · simp [h1]
      · by_cases h2 : x ∈ leaves l
        · simp [h1, h2]
        · simp [h1, h2]

/-- In a tree with distinct leaf values the path of a leaf value has the length of
the depth of its leaf. -/
theorem path_length_of_mem (t : HuffmanNode) :
    (leaves t).Nodup → ∀ p ∈ leaf_depths t, (path t p.1).length = p.2 := by
  induction t with
  | nullptr => intro _ p hp; simp [leaf_depths] at hp
  | node d f l r ihl ihr =>
    intro hnd p hp
    unfold leaf_depths at hp
    unfold leaves at hnd
    unfold path
    by_cases hleaf : (node d f l r).is_leaf = true
    · simp only [hleaf, if_true, List.mem_singleton] at hp ⊢
      rw [hp]
      rfl
    · simp only [hleaf, if_false, Bool.false_eq_true, List.mem_map, List.mem_append] at hp hnd ⊢
      obtain ⟨q, hq, rfl⟩ := hp
      rw [List.nodup_append] at hnd
      obtain ⟨hndl, hndr, hdisj⟩ := hnd
      rcases hq with hq | hq
      · have hql : q.1 ∈ leaves l := by
          rw [← leaf_depths_fst]
          exact List.mem_map_of_mem _ hq
        have hqr : q.1 ∉ leaves r := fun h => hdisj hql h
        simp only [hqr, if_false, List.length_cons, ihl hndl q hq]
      · have hqr : q.1 ∈ leaves r := by
          rw [← leaf_depths_fst]
          exact List.mem_map_of_mem _ hq
        simp only [hqr, if_true, List.length_cons, ihr hndr q hq]

/-- The cost of a tree with distinct leaf values, counted over its leaf values. -/
theorem cost_leaf_depths (freq : Nat → Nat) (t : HuffmanNode) (hnd : (leaves t).Nodup) :
    cost ((leaf_depths t).map (fun p => (freq p.1, p.2)))
      = ((leaves t).map (fun x => freq x * (path t x).length)).sum := by
  rw [← leaf_depths_fst, cost, List.map_map, List.map_map]
  congr 1
  apply List.map_congr_left
  intro p hp
  simp only [Function.comp_def]
  rw [path_length_of_mem t hnd p hp]

end HuffmanCoder

/-! ## The frequency table counts the input -/

namespace HuffmanCoder

open HuffmanNode

theorem map_get_of_not_mem {V : Type} (m : List (Nat × V)) (k : Nat) (dflt : V)
    (h : k ∉ keys m) : map_get m k dflt = dflt := by
  induction m with
  | nil => rfl
  | cons p rest ih =>
    obtain ⟨k0, v0⟩ := p
    simp only [keys, List.map_cons, List.mem_cons, not_or] at h
    unfold map_get
    rw [if_neg h.1]
    exact ih (by simpa [keys] using h.2)

/-- In a map every stored entry is what a read of its key returns. -/
theorem map_get_of_mem {V : Type} (m : List (Nat × V)) (dflt : V)
    (hs : (keys m).Pairwise (· < ·)) : ∀ p ∈ m, map_get m p.1 dflt = p.2 := by
  induction m with
  | nil => intro p hp; cases hp
  | cons q rest ih =>
    obtain ⟨k0, v0⟩ := q
    simp only [keys, List.map_cons, List.pairwise_cons] at hs
    intro p hp
    unfold map_get
    rcases List.mem_cons.mp hp with rfl | h
    · simp
    · have hlt : k0 < p.1 := hs.1 p.1 (List.mem_map_of_mem _ h)
      rw [if_neg (by omega)]
      exact ih hs.2 p h

/-- Counting one more occurrence of `k` adds `g k` to a sum over the table. -/
theorem sum_map_set_succ (g : Nat → Nat) (m : List (Nat × Nat)) (k : Nat)
    (hs : (keys m).Pairwise (· < ·)) :
    ((map_set m k (map_get m k 0 + 1)).map (fun p => p.2 * g p.1)).sum
      = (m.map (fun p => p.2 * g p.1)).sum + g k := by
  induction m with
  | nil => simp [map_set, map_get]
  | cons q rest ih =>
    obtain ⟨k0, v0⟩ := q
    simp only [keys, List.map_cons, List.pairwise_cons] at hs
    unfold map_set
    by_cases h1 : k < k0
    · have hnot : k ∉ keys ((k0, v0) :: rest) := by
        simp only [keys, List.map_cons, List.mem_cons, not_or]
        refine ⟨by omega, ?_⟩
        intro hk
        have := hs.1 k hk
        omega
      rw [if_pos h1, map_get_of_not_mem _ _ _ hnot]
      simp only [List.map_cons, List.sum_cons]
      ring
    · rw [if_neg h1]
      by_cases h2 : k = k0
      · subst h2
        simp only [if_true, map_get, List.map_cons, List.sum_cons]
        ring
      · rw [if_neg h2]
        have e : map_get ((k0, v0) :: rest) k 0 = map_get rest k 0 := by
          rw [map_get]
          simp only [h2, if_false]
        rw [e]
        simp only [List.map_cons, List.sum_cons]
        have := ih (by simpa [keys] using hs.2)
        rw [this]
        ring

theorem map_get_le_sum (m : List (Nat × Nat)) (k : Nat) :
    map_get m k 0 ≤ (m.map Prod.snd).sum := by
  induction m with
  | nil => simp [map_get]
  | cons q rest ih =>
    obtain ⟨k0, v0⟩ := q
    unfold map_get
    simp only [List.map_cons, List.sum_cons]
    split
    · omega
    · omega

/-- The counting loop of `compress` without overflow: sums over the table are sums
over the input. -/
theorem count_loop_sum (g : Nat → Nat) :
    ∀ (input : List Nat) (m : List (Nat × Nat)), (keys m).Pairwise (· < ·) →
      (m.map Prod.snd).sum + input.length < 2 ^ 32 →
      ((input.foldl (fun m byte => map_set m byte ((map_get m byte 0 + 1) % 2 ^ 32)) m).map
          (fun p => p.2 * g p.1)).sum
        = (m.map (fun p => p.2 * g p.1)).sum + (input.map g).sum := by
  intro input
  induction input with
  | nil => intro m _ _; simp
  | cons b rest ih =>
    intro m hs hlt
    simp only [List.foldl_cons, List.length_cons, List.map_cons, List.sum_cons] at hlt ⊢
    have hle := map_get_le_sum m b
    have hmod : (map_get m b 0 + 1) % 2 ^ 32 = map_get m b 0 + 1 :=
      Nat.mod_eq_of_lt (by omega)
    rw [hmod]
    have h1 := sum_map_set_succ (fun _ => 1) m b hs
    simp only [Nat.mul_one] at h1
    have hsum : ((map_set m b (map_get m b 0 + 1)).map Prod.snd).sum
        = (m.map Prod.snd).sum + 1 := h1
    rw [ih _ (keys_map_set_sorted m b _ hs) (by rw [hsum]; omega), sum_map_set_succ g m b hs]
    ring

/-- For an input of fewer than `2^32` bytes, a sum over the frequency table with each
entry weighted by its count is the sum over the bytes of the input. -/
theorem count_frequencies_sum (g : Nat → Nat) (input : List Nat) (h : input.length < 2 ^ 32) :
    ((count_frequencies input).map (fun p => p.2 * g p.1)).sum = (input.map g).sum := by
  have := count_loop_sum g input [] (by simp [keys]) (by simpa using h)
  simpa [count_frequencies] using this

end HuffmanCoder

/-! ## Optimality of the code of `compress` -/

namespace HuffmanCoder

open HuffmanNode

/-- The number of code bits of an input under the code table of any tree whose leaf
values are the byte values of the input, each once: the cost of its leaf depths
weighted by the frequency table. -/
theorem encode_length_eq_cost (input : List Nat) (hlen : input.length < 2 ^ 32)
    (t : HuffmanNode) (ht : (leaves t).Perm (keys (count_frequencies input))) :
    (encode (generate_codes t [] []) input).length
      = cost ((leaf_depths t).map
          (fun p => (map_get (count_frequencies input) p.1 0, p.2))) ∧
    (encode (generate_codes t [] []) input).length
      = ((count_frequencies input).map
          (fun p => p.2 * (map_get (generate_codes t [] []) p.1 []).length)).sum := by
  obtain ⟨hs, hm⟩ := count_frequencies_keys input
  have hnd : (leaves t).Nodup :=
    ht.nodup_iff.mpr (hs.imp (fun h => Nat.ne_of_lt h))
  have hcode : ∀ z, z ∈ keys (count_frequencies input) →
      map_get (generate_codes t [] []) z [] = path t z := by
    intro z hz
    rw [generate_codes_get_any, if_pos (ht.mem_iff.mpr hz), List.nil_append]
  have e1 : (encode (generate_codes t [] []) input).length
      = ((count_frequencies input).map
          (fun p => p.2 * (map_get (generate_codes t [] []) p.1 []).length)).sum := by
    rw [encode_length,
      count_frequencies_sum (fun z => (map_get (generate_codes t [] []) z []).length) input hlen]
  refine ⟨?_, e1⟩
  rw [e1, cost_leaf_depths (fun z => map_get (count_frequencies input) z 0) t hnd,
    (ht.map _).sum_eq, keys, List.map_map]
  congr 1
  apply List.map_congr_left
  intro p hp
  simp only [Function.comp_def]
  rw [map_get_of_mem _ 0 hs p hp, hcode p.1 (List.mem_map_of_mem _ hp)]

/-- The tree of `build_tree` costs no more than any code-length assignment for the
frequencies of the table. -/
theorem build_tree_optimal (tie : List HuffmanNode → Nat) (frequencies : List (Nat × Nat))
    (hs : (keys frequencies).Pairwise (· < ·)) (h2 : 2 ≤ frequencies.length)
    (hsum : (frequencies.map Prod.snd).sum < 2 ^ 32) :
    leaf_weights (build_tree tie frequencies)
      = (leaf_depths (build_tree tie frequencies)).map
          (fun p => (map_get frequencies p.1 0, p.2)) ∧
    ∀ L : List (Nat × Nat), kraft L ≤ 1 → (L.map Prod.fst).Perm (frequencies.map Prod.snd) →
      cost (leaf_weights (build_tree tie frequencies)) ≤ cost L := by
  have hlen : (frequencies.map (fun pair => leaf pair.1 pair.2)).length = frequencies.length := by
    simp
  have hne : frequencies.map (fun pair => leaf pair.1 pair.2) ≠ [] := by
    intro h0; rw [h0] at hlen; simp at hlen; omega
  have hinv : ∀ n ∈ frequencies.map (fun pair => leaf pair.1 pair.2),
      Full n ∧ n.frequency = ((leaf_weights n).map Prod.fst).sum ∧
        leaf_weights n = (leaf_depths n).map (fun p => (map_get frequencies p.1 0, p.2)) := by
    intro n hn
    obtain ⟨p, hp, rfl⟩ := List.mem_map.mp hn
    refine ⟨Full.leaf _ _, ?_, ?_⟩
    · simp [leaf, leaf_weights, is_leaf, frequency]
    · simp [leaf, leaf_weights, leaf_depths, is_leaf, map_get_of_mem _ 0 hs p hp]
  have hfreq : (frequencies.map (fun pair => leaf pair.1 pair.2)).map frequency
      = frequencies.map Prod.snd := by
    simp [List.map_map, Function.comp_def, leaf, frequency]
  have hcost0 : ((frequencies.map (fun pair => leaf pair.1 pair.2)).map
      (fun n => cost (leaf_weights n))).sum = 0 := by
    rw [List.map_map]
    apply List.sum_eq_zero
    intro v hv
    obtain ⟨p, -, rfl⟩ := List.mem_map.mp hv
    simp [leaf, leaf_weights, is_leaf, cost]
  obtain ⟨root, hroot, hrw, hopt⟩ :=
    build_loop_optimal tie (fun z => map_get frequencies z 0)
      (frequencies.map (fun pair => leaf pair.1 pair.2)).length _ hne (by omega) hinv
      (by rw [hfreq]; exact hsum)
  have hbt : build_tree tie frequencies = root := by
    unfold build_tree
    have h1 : ¬ (frequencies.map (fun pair => leaf pair.1 pair.2)).length = 1 := by omega
    simp only [h1, if_false, hroot, pq_pop_singleton]
  rw [hbt]
  refine ⟨hrw, ?_⟩
  intro L hk hL
  have := hopt L hk (by rw [hfreq]; exact hL)
  rw [hcost0] at this
  omega

/-- C35: for every input of fewer than `2^32` bytes with two distinct byte values the
code of `compress` is optimal. The number of code bits it produces, the sum over the
frequency table of frequency times code length, is at most the number of code bits
under the code table of any binary tree `t` whose leaf values are the byte values of
the input, each once (every binary code tree over these byte values, with or without
one-child nodes), for every order `tie` in which the queue hands out nodes of equal
frequency. -/
theorem huffman_code_optimal (tie : List HuffmanNode → Nat) (input : List Nat)
    (hlen : input.length < 2 ^ 32) (x y : Nat) (hx : x ∈ input) (hy : y ∈ input)
    (hxy : x ≠ y) (t : HuffmanNode)
    (ht : (leaves t).Perm (keys (count_frequencies input))) :
    (encode (generate_codes (build_tree tie (count_frequencies input)) [] []) input).length
      ≤ (encode (generate_codes t [] []) input).length ∧
    (encode (generate_codes (build_tree tie (count_frequencies input)) [] []) input).length
      = ((count_frequencies input).map
          (fun p => p.2 * (map_get (generate_codes (build_tree tie (count_frequencies input))
            [] []) p.1 []).length)).sum ∧
    (encode (generate_codes t [] []) input).length
      = ((count_frequencies input).map
          (fun p => p.2 * (map_get (generate_codes t [] []) p.1 []).length)).sum := by
  obtain ⟨hs, hm⟩ := count_frequencies_keys input
  have hkl : (keys (count_frequencies input)).length = (count_frequencies input).length := by
    simp [keys]
  have h2 : 2 ≤ (count_frequencies input).length := by
    rw [← hkl]
    exact two_le_length_of_ne _ x y ((hm x).mpr hx) ((hm y).mpr hy) hxy
  obtain ⟨-, -, hperm⟩ := build_tree_spec tie _ h2
  have hsum : ((count_frequencies input).map Prod.snd).sum < 2 ^ 32 := by
    have := count_frequencies_sum (fun _ => 1) input hlen
    simp only [Nat.mul_one, List.map_const', List.sum_replicate, smul_eq_mul] at this
    have e : ((count_frequencies input).map Prod.snd).sum = input.length := this
    rw [e]
    exact hlen
  obtain ⟨hrw, hopt⟩ := build_tree_optimal tie _ hs h2 hsum
  obtain ⟨eH, sH⟩ := encode_length_eq_cost input hlen _ hperm
  obtain ⟨eT, sT⟩ := encode_length_eq_cost input hlen t ht
  refine ⟨?_, sH, sT⟩
  rw [eH, eT, ← hrw]
  apply hopt
  · have hk : kraft ((leaf_depths t).map
        (fun p => (map_get (count_frequencies input) p.1 0, p.2))) = kraft (leaf_depths t) :=
      kraft_eq_of_depths (by simp [List.map_map, Function.comp_def])
    rw [hk]
    exact kraft_leaf_depths t
  · rw [List.map_map]
    have e1 : (leaf_depths t).map (Prod.fst ∘ fun p => (map_get (count_frequencies input) p.1 0, p.2))
        = (leaves t).map (fun z => map_get (count_frequencies input) z 0) := by
      rw [← leaf_depths_fst, List.map_map]
      rfl
    have e2 : (count_frequencies input).map Prod.snd
        = (keys (count_frequencies input)).map (fun z => map_get (count_frequencies input) z 0) := by
      rw [keys, List.map_map]
      apply List.map_congr_left
      intro p hp
      simp only [Function.comp_def]
      rw [map_get_of_mem _ 0 hs p hp]
    rw [e1, e2]
    exact ht.map _

/-- C35 at the input "ABBC": the code of `compress` (A = 10, B = 0, C = 11) takes 6 bits,
the code of the tree with the leaves A, B below the left child of the root and C as its
right child (A = 00, B = 01, C = 1) takes 7 bits. -/
theorem huffman_code_optimal_witness :
    [65, 66, 66, 67].length < 2 ^ 32 ∧ 65 ∈ [65, 66, 66, 67] ∧ 66 ∈ [65, 66, 66, 67] ∧
    (leaves (internal 0 (internal 0 (leaf 65 0) (leaf 66 0)) (leaf 67 0))).Perm
      (keys (count_frequencies [65, 66, 66, 67])) ∧
    (encode (generate_codes (build_tree (fun _ => 0) (count_frequencies [65, 66, 66, 67]))
      [] []) [65, 66, 66, 67]).length = 6 ∧
    (encode (generate_codes (internal 0 (internal 0 (leaf 65 0) (leaf 66 0)) (leaf 67 0))
      [] []) [65, 66, 66, 67]).length = 7 ∧
    (encode (generate_codes (build_tree (fun _ => 0) (count_frequencies [65, 66, 66, 67]))
      [] []) [65, 66, 66, 67]).length
      ≤ (encode (generate_codes (internal 0 (internal 0 (leaf 65 0) (leaf 66 0)) (leaf 67 0))
          [] []) [65, 66, 66, 67]).length :=
  ⟨by decide, by decide, by decide, by decide, by decide, by decide,
    (huffman_code_optimal (fun _ => 0) [65, 66, 66, 67] (by decide) 65 66 (by decide)
      (by decide) (by decide) (internal 0 (internal 0 (leaf 65 0) (leaf 66 0)) (leaf 67 0))
      (by decide)).1⟩

end HuffmanCoder

/-! ## How the key enters the ciphertext -/

namespace AESCipher

/-- The inputs on which `encrypt` returns the empty vector with a diagnostic. -/
theorem encrypt_error_iff (self : AESCipher) (input : List Nat) :
    ((self.encrypt input).value = [] ∧ (self.encrypt input).diagnostic ≠ none)
      ↔ input = [] := by
  constructor
  · rintro ⟨-, hd⟩
    by_contra hne
    exact hd (by simp [encrypt, hne])
  · intro h
    rw [h]
    exact ⟨rfl, by simp [encrypt]⟩

/-- The inputs on which `decrypt` returns the empty vector with a diagnostic. -/
theorem decrypt_error_iff (self : AESCipher) (hk : Bytes self.key_schedule) (c : List Nat)
    (hc : Bytes c) :
    ((self.decrypt c).value = [] ∧ (self.decrypt c).diagnostic ≠ none)
      ↔ (c = [] ∨ c.length % 16 ≠ 0) := by
  constructor
  · rintro ⟨hv, hd⟩
    by_contra hno
    have hne : c ≠ [] := fun h => hno (Or.inl h)
    have hmul : c.length % 16 = 0 := by
      by_contra h
      exact hno (Or.inr h)
    have hpos : 0 < c.length := List.length_pos.mpr hne
    have hcl : c.length = 16 * (c.length / 16) := by omega
    have hdec := decrypt_whole_blocks self c (c.length / 16) (by omega) hcl
    have hDl := process_blocks_length _ (decrypt_block_isBlock self hk) c hc _ hcl
    rw [hdec] at hv hd
    rw [remove_padding_warning _ hd] at hv
    rw [hv] at hDl
    simp at hDl
    omega
  · rintro (h | h)
    · rw [h]
      exact ⟨rfl, by simp [decrypt]⟩
    · have hne : c ≠ [] := by
        intro h0; rw [h0] at h; simp at h
      have e : self.decrypt c = ⟨[], some .invalid_size⟩ := by
        simp only [decrypt, hne, if_false, BLOCK_SIZE, h, ne_eq, not_false_eq_true, if_true]
      rw [e]
      exact ⟨rfl, by simp⟩

end AESCipher

namespace AESCipher

end AESCipher

namespace AESCipher

/-- C12 as stated fails: under the empty key `encrypt` of "Hi" is a 16-byte
ciphertext without diagnostic, and `decrypt` returns "Hi" from it. -/
theorem empty_key_not_rejected :
    ((new x86_64 []).encrypt [72, 105]).value ≠ [] ∧
    ((new x86_64 []).encrypt [72, 105]).value.length = 16 ∧
    ((new x86_64 []).encrypt [72, 105]).diagnostic = none ∧
    (new x86_64 []).decrypt ((new x86_64 []).encrypt [72, 105]).value = ⟨[72, 105], none⟩ := by
  decide!

/-- C12, amended: the empty key is not detected by the cipher. The constructor fills
the 16 key bytes from the hash of the empty string (the first four are the bytes of
the seed 5381), and the cipher built from the empty key returns the empty vector with a
diagnostic on exactly the inputs on which the cipher built from any key `k` does:
`encrypt` exactly on the empty input, `decrypt` exactly on the empty input and on the
inputs whose length is not a multiple of 16. Every non-empty input is encrypted to a
non-empty ciphertext without diagnostic, and `decrypt (encrypt input)` returns the
input. -/
theorem empty_key_accepted (t : Target) (input : List Nat) (hb : Bytes input) :
    (prepare_key t []).take 4 = [5, 21, 0, 0] ∧
    ((((new t []).encrypt input).value = [] ∧ ((new t []).encrypt input).diagnostic ≠ none)
      ↔ input = []) ∧
    ((((new t []).decrypt input).value = [] ∧ ((new t []).decrypt input).diagnostic ≠ none)
      ↔ (input = [] ∨ input.length % 16 ≠ 0)) ∧
    (∀ k : List Nat,
      ((((new t k).encrypt input).value = [] ∧ ((new t k).encrypt input).diagnostic ≠ none)
        ↔ (((new t []).encrypt input).value = []
            ∧ ((new t []).encrypt input).diagnostic ≠ none)) ∧
      ((((new t k).decrypt input).value = [] ∧ ((new t k).decrypt input).diagnostic ≠ none)
        ↔ (((new t []).decrypt input).value = []
            ∧ ((new t []).decrypt input).diagnostic ≠ none))) ∧
    (input ≠ [] →
      ((new t []).encrypt input).diagnostic = none ∧
      ((new t []).encrypt input).value ≠ [] ∧
      (new t []).decrypt ((new t []).encrypt input).value = ⟨input, none⟩) := by
  have hk0 := new_key_schedule_bytes t []
  refine ⟨prepare_key_empty t, encrypt_error_iff _ input, decrypt_error_iff _ hk0 input hb,
    ?_, ?_⟩
  · intro k
    exact ⟨(encrypt_error_iff _ input).trans (encrypt_error_iff _ input).symm,
      (decrypt_error_iff _ (new_key_schedule_bytes t k) input hb).trans
        (decrypt_error_iff _ hk0 input hb).symm⟩
  · intro hne
    have hl := encrypt_value_length _ hk0 input hb hne
    refine ⟨by simp [encrypt, hne], ?_, decrypt_encrypt_of_bytes _ hk0 input hb hne⟩
    intro h
    rw [h] at hl
    simp at hl

/-- C12 (amended) at the plaintext "Hi" and at the three-byte input 1, 2, 3, whose
length is no multiple of 16; the one-block ciphertext of sixteen bytes 16 decrypts to
the empty vector without diagnostic (a block of padding), which is no error result. -/
theorem empty_key_accepted_witness :
    Bytes [72, 105] ∧ [72, 105] ≠ ([] : List Nat) ∧
    ((new x86_64 []).encrypt [72, 105]).value ≠ [] ∧
    (new x86_64 []).decrypt ((new x86_64 []).encrypt [72, 105]).value = ⟨[72, 105], none⟩ ∧
    Bytes [1, 2, 3] ∧
    (((new x86_64 []).decrypt [1, 2, 3]).value = []
      ∧ ((new x86_64 []).decrypt [1, 2, 3]).diagnostic ≠ none) ∧
    (new x86_64 []).decrypt ((new x86_64 []).encrypt_block (List.replicate 16 16))
      = ⟨[], none⟩ :=
  ⟨by decide, by decide,
    ((empty_key_accepted x86_64 [72, 105] (by decide)).2.2.2.2 (by decide)).2.1,
    ((empty_key_accepted x86_64 [72, 105] (by decide)).2.2.2.2 (by decide)).2.2,
    by decide,
    (empty_key_accepted x86_64 [1, 2, 3] (by decide)).2.2.1.mpr (Or.inr (by decide)),
    by decide!⟩

end AESCipher
